import Mathlib

/-!
Verification of the conjecture search-and-shrink engine
(src/python/src/conjecture/core.py) against its specification.

The engine is embedded shallowly: the test callback is an arbitrary total
function from a byte buffer to a frozen execution record, the two random
sources (os.urandom and the random module) are modelled by a single oracle
stream of naturals together with a running position, and the StopShrinking
exception, the two assert statements, and loop fuel exhaustion are modelled
by an explicit error type threaded through every function. Status and the
interval invariant of TestData are modelled from the spec, since
testdata.py is not part of the sources. The ghost fields trace, execs and
props of the runner state record, respectively, every assignment to
last_data, every buffer the test callback was executed on, and every buffer
passed to incorporate_new_buffer; they influence no control flow.
-/

namespace Conjecture

/-- Modelled from the spec: the Status enumeration of testdata.py, ordered
OVERRUN < INVALID < VALID < INTERESTING. -/
inductive Status where
  | overrun
  | invalid
  | valid
  | interesting
deriving DecidableEq, Repr

/-- Numeric value of a status, realising the total order of the spec. -/
def Status.toNat : Status → Nat
  | .overrun => 0
  | .invalid => 1
  | .valid => 2
  | .interesting => 3

/-- Modelled from the spec: a frozen TestData record. The buffer is the byte
sequence the execution was bound to; index, cost, intervals and status are
what freezing produced. -/
structure TestData where
  buffer : List Nat
  index : Nat
  cost : Nat
  intervals : List (Nat × Nat)
  status : Status
deriving DecidableEq, Repr

/-- The outcome of one run of the user test callback on a buffer: everything
of the frozen TestData except the buffer itself. -/
structure TRes where
  index : Nat
  cost : Nat
  intervals : List (Nat × Nat)
  status : Status
deriving DecidableEq, Repr

/-- Settings, from core.py lines 15 to 23. -/
structure Settings where
  buffer_size : Nat
  mutations : Nat
  generations : Nat
  max_shrinks : Nat
deriving DecidableEq, Repr

/-- The default Settings values of core.py. -/
def defaultSettings : Settings := ⟨8 * 1024, 50, 100, 2000⟩

/-- The fixed data of one engine run: the test callback and the oracle for
the random sources, together with the settings. -/
structure Ctx where
  f : List Nat → TRes
  st : Settings
  rnd : Nat → Nat

/-- Errors threaded through the embedding: the StopShrinking exception, the
assert in the acceptor, the assert at the top of the shrink sweep, and fuel
exhaustion of a modelled loop. -/
inductive Err where
  | stop
  | assertLen
  | assertStatus
  | fuelOut
deriving DecidableEq, Repr

/-- Runner state: the mutable attributes of TestRunner plus the oracle
position and the ghost fields. -/
structure RState where
  last_data : TestData
  changed : Nat
  shrinks : Nat
  fill_size : Nat
  rpos : Nat
  trace : List TestData
  execs : List (List Nat)
  props : List (List Nat)
deriving DecidableEq, Repr

/-- Executing the test callback on a buffer and freezing: the resulting
TestData keeps the buffer it was constructed with. -/
def runTest (C : Ctx) (b : List Nat) : TestData :=
  ⟨b, (C.f b).index, (C.f b).cost, (C.f b).intervals, (C.f b).status⟩

/-- Lexicographic comparison of byte strings, as Python compares bytes. -/
def bytesLt : List Nat → List Nat → Bool
  | _, [] => false
  | [], _ :: _ => true
  | a :: as, b :: bs => decide (a < b) || (decide (a = b) && bytesLt as bs)

/-- interest_key from core.py lines 282 to 286: the tuple
(cost, number of intervals, buffer length, buffer bytes). -/
def interest_key (d : TestData) : Nat × Nat × Nat × List Nat :=
  (d.cost, d.intervals.length, d.buffer.length, d.buffer)

/-- Lexicographic order on interest keys, as Python compares the tuples. -/
def keyLt (a b : Nat × Nat × Nat × List Nat) : Bool :=
  decide (a.1 < b.1) || (decide (a.1 = b.1) &&
   (decide (a.2.1 < b.2.1) || (decide (a.2.1 = b.2.1) &&
    (decide (a.2.2.1 < b.2.2.1) || (decide (a.2.2.1 = b.2.2.1) &&
     bytesLt a.2.2.2 b.2.2.2)))))

/-- Comparison of two frozen TestData values by interest key. -/
def interestKeyLt (a b : TestData) : Bool :=
  keyLt (interest_key a) (interest_key b)

/-- consider_new_test_data from core.py lines 59 to 78. The assert on the
equal INTERESTING branch is modelled by returning none. -/
def consider_new_test_data (last d : TestData) : Option Bool :=
  if last.status.toNat < d.status.toNat then some true
  else if d.status.toNat < last.status.toNat then some false
  else if d.status = .invalid then some (decide (last.index ≤ d.index))
  else if d.status = .overrun then some (decide (d.index ≤ last.index))
  else if d.status = .interesting then
    if d.buffer.length ≤ last.buffer.length then some (interestKeyLt d last)
    else none
  else some true

/-- The acceptance table exactly as the spec states it in section 4.3,
written from the words of the spec for comparison with the code. -/
def acceptor_spec (last cand : TestData) : Bool :=
  if last.status.toNat < cand.status.toNat then true
  else if cand.status.toNat < last.status.toNat then false
  else match cand.status with
    | .invalid => decide (last.index ≤ cand.index)
    | .overrun => decide (cand.index ≤ last.index)
    | .interesting => interestKeyLt cand last
    | .valid => true

/-- The random bytes plus zero padding drawn by new_buffer. -/
def newBufferBytes (C : Ctx) (s : RState) : List Nat :=
  (List.range s.fill_size).map (fun j => C.rnd (s.rpos + j) % 256) ++
    List.replicate (C.st.buffer_size - s.fill_size) 0

/-- new_buffer from core.py lines 39 to 45 together with update_fill_size:
the fresh random candidate replaces last_data unconditionally. -/
def new_buffer (C : Ctx) (s : RState) : RState :=
  let b := newBufferBytes C s
  let d := runTest C b
  { s with
    last_data := d,
    rpos := s.rpos + s.fill_size,
    execs := s.execs ++ [b],
    trace := s.trace ++ [d],
    fill_size := min (max s.fill_size (d.index * 2)) C.st.buffer_size }

/-- incorporate_new_buffer from core.py lines 80 to 97. An equal buffer is
rejected without executing the test; an accepted candidate replaces
last_data, bumps the counters, and raises stop once the budget is hit. -/
def incorporate_new_buffer (C : Ctx) (s : RState) (b : List Nat) :
    Except Err Bool × RState :=
  let sp := { s with props := s.props ++ [b] }
  if b = sp.last_data.buffer then (.ok false, sp)
  else
    let d := runTest C b
    let s1 := { sp with execs := sp.execs ++ [b] }
    match consider_new_test_data s1.last_data d with
    | none => (.error .assertLen, s1)
    | some false => (.ok false, s1)
    | some true =>
      let sh := if s1.last_data.status = .interesting then s1.shrinks + 1
                else s1.shrinks
      let s2 := { s1 with
        last_data := d,
        shrinks := sh,
        fill_size := min (max s1.fill_size (d.index * 2)) C.st.buffer_size,
        changed := s1.changed + 1,
        trace := s1.trace ++ [d] }
      if C.st.max_shrinks ≤ sh then (.error .stop, s2) else (.ok true, s2)

/-- Per byte perturbation of the OVERRUN branch of the mutator, core.py
lines 296 to 305, returning the perturbed bytes and the new oracle
position. -/
def perturbBytes (r : Nat → Nat) : List Nat → Nat → List Nat × Nat
  | [], p => ([], p)
  | c :: rest, p =>
    let t := r p % 3
    if t = 0 then
      let q := perturbBytes r rest (p + 1)
      (0 :: q.1, q.2)
    else if t = 1 then
      let q := perturbBytes r rest (p + 2)
      (r (p + 1) % (c + 1) :: q.1, q.2)
    else
      let q := perturbBytes r rest (p + 1)
      (c :: q.1, q.2)

/-- The retry loop of the swap-splice branch of the mutator, core.py lines
323 to 329: draw two interval positions until the intervals differ. -/
def pickIntervals (ivs : List (Nat × Nat)) (r : Nat → Nat) :
    Nat → Nat → Except Err ((Nat × Nat) × (Nat × Nat) × Nat)
  | 0, _ => .error .fuelOut
  | fu + 1, p =>
    let a := ivs.getD (r p % (ivs.length - 1)) (0, 0)
    let b := ivs.getD ((r p % (ivs.length - 1)) + 1 +
              r (p + 1) % (ivs.length - 1 - (r p % (ivs.length - 1)))) (0, 0)
    if a = b then pickIntervals ivs r fu (p + 2) else .ok (a, b, p + 2)

/-- Everything of the mutator from the probe draw onward, core.py lines 307
to 331: the splice families over the original buffer of the TestData. -/
def spliceTail (d : TestData) (r : Nat → Nat) (fuel p0 : Nat) :
    Except Err (List Nat × Nat) :=
  let probe := r p0 % 256
  if probe ≤ 100 ∨ d.intervals.length ≤ 1 then
    let coin := r (p0 + 1) % 2
    let uvp : Nat × Nat × Nat :=
      if coin ≠ 0 ∨ d.intervals.length ≤ 1 then
        let u := r (p0 + 2) % (d.buffer.length - 1)
        (u, u + 1 + r (p0 + 3) % (d.buffer.length - 1 - u), p0 + 4)
      else
        let iv := d.intervals.getD (r (p0 + 2) % d.intervals.length) (0, 0)
        (iv.1, iv.2, p0 + 3)
    let c := r uvp.2.2 % 3
    if c = 0 then
      .ok (d.buffer.take uvp.1 ++ List.replicate (uvp.2.1 - uvp.1) 0 ++
           d.buffer.drop uvp.2.1, uvp.2.2 + 1)
    else if c = 1 then
      .ok (d.buffer.take uvp.1 ++ List.replicate (uvp.2.1 - uvp.1) 255 ++
           d.buffer.drop uvp.2.1, uvp.2.2 + 1)
    else
      .ok (d.buffer.take uvp.1 ++
           (List.range (uvp.2.1 - uvp.1)).map
             (fun j => r (uvp.2.2 + 1 + j) % 256) ++
           d.buffer.drop uvp.2.1, uvp.2.2 + 1 + (uvp.2.1 - uvp.1))
  else
    match pickIntervals d.intervals r fuel (p0 + 1) with
    | .error e => .error e
    | .ok (i1, i2, p2) =>
      .ok (d.buffer.take i1.1 ++ (d.buffer.take i2.2).drop i2.1 ++
           d.buffer.drop i1.2, p2)

/-- mutate_data_to_new_buffer from core.py lines 289 to 331. The OVERRUN
branch computes the perturbation but only its oracle draws survive: the
function falls through to the splice families over the original buffer. -/
def mutate_data_to_new_buffer (d : TestData) (r : Nat → Nat) (fuel p : Nat) :
    Except Err (List Nat × Nat) :=
  let n := min d.buffer.length d.index
  if n = 0 then .ok ([], p)
  else if n = 1 then .ok ([r p % 256], p + 1)
  else if d.status = .overrun then spliceTail d r fuel (perturbBytes r d.buffer p).2
  else spliceTail d r fuel p

/-- Insert a byte into an ascending list, for modelling Python sorted. -/
def insertAsc (x : Nat) : List Nat → List Nat
  | [] => [x]
  | y :: ys => if x ≤ y then x :: y :: ys else y :: insertAsc x ys

/-- Ascending insertion sort, modelling Python sorted on bytes. -/
def isort : List Nat → List Nat
  | [] => []
  | x :: xs => insertAsc x (isort xs)

/-- Sequencing of two stateful steps with error short-circuit. -/
def bindR (x : Except Err Unit × RState)
    (g : RState → Except Err Unit × RState) : Except Err Unit × RState :=
  match x with
  | (.ok _, s) => g s
  | (.error e, s) => (.error e, s)

/-- The generation loop of TestRunner run, core.py lines 107 to 120. The
returned boolean tells whether an interesting candidate was found (true) or
the generation budget ran out (false). -/
def genLoop (C : Ctx) : Nat → Nat → Nat → RState → Except Err Bool × RState
  | 0, _, _, s => (.error .fuelOut, s)
  | fu + 1, muts, gen, s =>
    if s.last_data.status = .interesting then (.ok true, s)
    else if C.st.mutations ≤ muts then
      if C.st.generations ≤ gen + 1 then (.ok false, s)
      else
        match mutate_data_to_new_buffer s.last_data C.rnd fu s.rpos with
        | .error e => (.error e, s)
        | .ok (b, p) =>
          match incorporate_new_buffer C { s with rpos := p } b with
          | (.ok _, s1) => genLoop C fu 1 (gen + 1) s1
          | (.error e, s1) => (.error e, s1)
    else genLoop C fu (muts + 1) gen (new_buffer C s)

/-- Inner loop of the interval deletion pass, core.py lines 133 to 140: on
rejection advance the interval index, on acceptance keep it. -/
def delIntervalsInner (C : Ctx) : Nat → Nat → RState → Except Err Unit × RState
  | 0, _, s => (.error .fuelOut, s)
  | fu + 1, i, s =>
    if i < s.last_data.intervals.length then
      let uv := s.last_data.intervals.getD i (0, 0)
      match incorporate_new_buffer C s
          (s.last_data.buffer.take uv.1 ++ s.last_data.buffer.drop uv.2) with
      | (.ok true, s1) => delIntervalsInner C fu i s1
      | (.ok false, s1) => delIntervalsInner C fu (i + 1) s1
      | (.error e, s1) => (.error e, s1)
    else (.ok (), s)

/-- Outer fixpoint of the interval deletion pass, core.py lines 130 to 140:
repeat the inner sweep while it changes something. -/
def delIntervalsFix (C : Ctx) : Nat → Int → RState → Except Err Unit × RState
  | 0, _, s => (.error .fuelOut, s)
  | fu + 1, icc, s =>
    if icc < (s.changed : Int) then
      match delIntervalsInner C fu 0 s with
      | (.ok _, s1) => delIntervalsFix C fu (s.changed : Int) s1
      | (.error e, s1) => (.error e, s1)
    else (.ok (), s)

/-- The interval byte-sort pass, core.py lines 141 to 149. -/
def sortIntervalsPass (C : Ctx) : Nat → Nat → RState → Except Err Unit × RState
  | 0, _, s => (.error .fuelOut, s)
  | fu + 1, i, s =>
    if i < s.last_data.intervals.length then
      let uv := s.last_data.intervals.getD i (0, 0)
      let buf := s.last_data.buffer
      match incorporate_new_buffer C s
          (buf.take uv.1 ++ isort ((buf.take uv.2).drop uv.1) ++
           buf.drop uv.2) with
      | (.ok _, s1) => sortIntervalsPass C fu (i + 1) s1
      | (.error e, s1) => (.error e, s1)
    else (.ok (), s)

/-- Body of the zero-window pass, core.py lines 150 to 157, with the
iteration count of the Python range as structural gas. -/
def zwLoop (C : Ctx) : Nat → Nat → RState → Except Err Unit × RState
  | 0, _, s => (.ok (), s)
  | g + 1, i, s =>
    let buf := s.last_data.buffer
    if buf.length < i + 8 then (.ok (), s)
    else
      match incorporate_new_buffer C s
          (buf.take i ++ List.replicate 8 0 ++ buf.drop (i + 8)) with
      | (.ok _, s1) => zwLoop C g (i + 1) s1
      | (.error e, s1) => (.error e, s1)

/-- The zero-window pass: window size 8, starts drawn from the Python range
over the buffer length minus 8 taken at pass entry. -/
def zeroWindowPass (C : Ctx) (s : RState) : Except Err Unit × RState :=
  zwLoop C (s.last_data.buffer.length - 8) 0 s

/-- Inner loop of the single-byte reduction pass, core.py lines 164 to 174:
for each value below the current byte, try the plain replacement and then
the replacement with a re-randomized tail, stopping at the first
acceptance. -/
def sbInner (C : Ctx) (buf : List Nat) (i : Nat) :
    Nat → Nat → RState → Except Err Unit × RState
  | 0, _, s => (.ok (), s)
  | g + 1, c, s =>
    match incorporate_new_buffer C s (buf.take i ++ [c] ++ buf.drop (i + 1)) with
    | (.ok true, s1) => (.ok (), s1)
    | (.ok false, s1) =>
      let tail := (List.range (buf.length - i - 1)).map
        (fun j => C.rnd (s1.rpos + j) % 256)
      match incorporate_new_buffer C
          { s1 with rpos := s1.rpos + (buf.length - i - 1) }
          (buf.take i ++ [c] ++ tail) with
      | (.ok true, s2) => (.ok (), s2)
      | (.ok false, s2) => sbInner C buf i g (c + 1) s2
      | (.error e, s2) => (.error e, s2)
    | (.error e, s1) => (.error e, s1)

/-- The single-byte reduction pass, core.py lines 158 to 175: delete the
byte, and if that fails run the inner reduction loop. -/
def singleBytePass (C : Ctx) : Nat → Nat → RState → Except Err Unit × RState
  | 0, _, s => (.error .fuelOut, s)
  | fu + 1, i, s =>
    if i < s.last_data.buffer.length then
      let buf := s.last_data.buffer
      match incorporate_new_buffer C s (buf.take i ++ buf.drop (i + 1)) with
      | (.ok true, s1) => singleBytePass C fu (i + 1) s1
      | (.ok false, s1) =>
        match sbInner C buf i (buf.getD i 0) 0 s1 with
        | (.ok _, s2) => singleBytePass C fu (i + 1) s2
        | (.error e, s2) => (.error e, s2)
      | (.error e, s1) => (.error e, s1)
    else (.ok (), s)

/-- The adjacent descending swap pass, core.py lines 176 to 184. -/
def adjSwapPass (C : Ctx) : Nat → Nat → RState → Except Err Unit × RState
  | 0, _, s => (.error .fuelOut, s)
  | fu + 1, i, s =>
    if i + 1 < s.last_data.buffer.length then
      let buf := s.last_data.buffer
      if buf.getD (i + 1) 0 < buf.getD i 0 then
        match incorporate_new_buffer C s
            (buf.take i ++ [buf.getD (i + 1) 0, buf.getD i 0] ++
             buf.drop (i + 2)) with
        | (.ok _, s1) => adjSwapPass C fu (i + 1) s1
        | (.error e, s1) => (.error e, s1)
      else adjSwapPass C fu (i + 1) s
    else (.ok (), s)

/-- Inner walk of the borrow-from-left pass, core.py lines 194 to 203: walk
left from the zero byte to the first positive byte and propose the borrow
once. -/
def borrowInner (C : Ctx) (buf : List Nat) (i : Nat) :
    Nat → RState → Except Err Unit × RState
  | 0, s => (.ok (), s)
  | j + 1, s =>
    if 0 < buf.getD (j + 1) 0 then
      match incorporate_new_buffer C s
          (buf.take (j + 1) ++ [buf.getD (j + 1) 0 - 1] ++
           List.replicate (i - (j + 1)) 255 ++ buf.drop (i + 1)) with
      | (.ok _, s1) => (.ok (), s1)
      | (.error e, s1) => (.error e, s1)
    else borrowInner C buf i j s

/-- The borrow-from-left reduction pass, core.py lines 187 to 204. -/
def borrowPass (C : Ctx) : Nat → Nat → RState → Except Err Unit × RState
  | 0, _, s => (.error .fuelOut, s)
  | fu + 1, i, s =>
    if i < s.last_data.buffer.length then
      let buf := s.last_data.buffer
      match incorporate_new_buffer C s (buf.take i ++ buf.drop (i + 1)) with
      | (.ok true, s1) => borrowPass C fu (i + 1) s1
      | (.ok false, s1) =>
        if buf.getD i 0 = 0 then
          match borrowInner C buf i i s1 with
          | (.ok _, s2) => borrowPass C fu (i + 1) s2
          | (.error e, s2) => (.error e, s2)
        else borrowPass C fu (i + 1) s1
      | (.error e, s1) => (.error e, s1)
    else (.ok (), s)

/-- Buckets of buffer positions by byte value, core.py lines 207 to 209. -/
def bucketsOf (buf : List Nat) : List (List Nat) :=
  (List.range 256).map
    (fun c => (List.range buf.length).filter (fun i => buf.getD i 0 = c))

/-- All ordered pairs within one bucket, core.py lines 211 to 217. -/
def pairsOf (b : List Nat) : List (Nat × Nat) :=
  b.flatMap (fun j => (b.filter (fun k => j < k)).map (fun k => (j, k)))

/-- The pair list of the equal-byte pass, in bucket order. -/
def eqIndices (buf : List Nat) : List (Nat × Nat) :=
  (bucketsOf buf).flatMap pairsOf

/-- Follow-up loop of the equal-byte paired reduction, core.py lines 240 to
246: after the paired decrement was accepted, try all smaller values. -/
def dLoop (C : Ctx) (j k : Nat) : Nat → Nat → RState → Except Err Unit × RState
  | 0, _, s => (.ok (), s)
  | g + 1, d, s =>
    let buf := s.last_data.buffer
    match incorporate_new_buffer C s
        (buf.take j ++ [d] ++ (buf.take k).drop (j + 1) ++ [d] ++
         buf.drop (k + 1)) with
    | (.ok _, s1) => dLoop C j k g (d + 1) s1
    | (.error e, s1) => (.error e, s1)

/-- Main loop of the equal-byte paired reduction pass, core.py lines 218 to
246. -/
def eqPairsLoop (C : Ctx) : List (Nat × Nat) → RState → Except Err Unit × RState
  | [], s => (.ok (), s)
  | (j, k) :: rest, s =>
    let buf := s.last_data.buffer
    if buf.length ≤ k then eqPairsLoop C rest s
    else if buf.getD j 0 = buf.getD k 0 then
      let c := buf.getD j 0
      bindR
        (if c = 0 ∧ 0 < j ∧ 0 < buf.getD (j - 1) 0 ∧
            0 < buf.getD (k - 1) 0 then
          match incorporate_new_buffer C s
              (buf.take (j - 1) ++ [buf.getD (j - 1) 0 - 1, 255] ++
               (buf.take (k - 1)).drop (j + 1) ++
               [buf.getD (k - 1) 0 - 1, 255] ++ buf.drop (k + 1)) with
          | (.ok _, s1) => (.ok (), s1)
          | (.error e, s1) => (.error e, s1)
        else (.ok (), s))
        (fun s1 =>
          if 0 < c then
            match incorporate_new_buffer C s1
                (buf.take j ++ [c - 1] ++ (buf.take k).drop (j + 1) ++
                 [c - 1] ++ buf.drop (k + 1)) with
            | (.ok true, s2) =>
              match dLoop C j k (c - 1) 0 s2 with
              | (.ok _, s3) => eqPairsLoop C rest s3
              | (.error e, s3) => (.error e, s3)
            | (.ok false, s2) => eqPairsLoop C rest s2
            | (.error e, s2) => (.error e, s2)
          else eqPairsLoop C rest s1)
    else eqPairsLoop C rest s

/-- The equal-byte paired reduction pass. -/
def equalPairsPass (C : Ctx) (s : RState) : Except Err Unit × RState :=
  eqPairsLoop C (eqIndices s.last_data.buffer) s

/-- Inner loop of the order-and-decrement pass, core.py lines 256 to 272. -/
def odInner (C : Ctx) (j : Nat) : Nat → Nat → RState → Except Err Unit × RState
  | 0, _, s => (.ok (), s)
  | g + 1, k, s =>
    let buf := s.last_data.buffer
    if buf.length ≤ k then (.ok (), s)
    else
      bindR
        (if buf.getD k 0 < buf.getD j 0 then
          match incorporate_new_buffer C s
              (buf.take j ++ [buf.getD k 0] ++ (buf.take k).drop (j + 1) ++
               [buf.getD j 0] ++ buf.drop (k + 1)) with
          | (.ok _, s1) => (.ok (), s1)
          | (.error e, s1) => (.error e, s1)
        else (.ok (), s))
        (fun s1 =>
          let buf1 := s1.last_data.buffer
          if buf1.length ≤ k then (.ok (), s1)
          else if 0 < buf1.getD j 0 ∧ 0 < buf1.getD k 0 then
            match incorporate_new_buffer C s1
                (buf1.take j ++ [buf1.getD j 0 - 1] ++
                 (buf1.take k).drop (j + 1) ++ [buf1.getD k 0 - 1] ++
                 buf1.drop (k + 1)) with
            | (.ok _, s2) => odInner C j g (k + 1) s2
            | (.error e, s2) => (.error e, s2)
          else odInner C j g (k + 1) s1)

/-- Outer loop of the order-and-decrement pass, core.py lines 249 to 272. -/
def odOuter (C : Ctx) : Nat → Nat → RState → Except Err Unit × RState
  | 0, _, s => (.ok (), s)
  | g + 1, j, s =>
    let buf := s.last_data.buffer
    if buf.length ≤ j then (.ok (), s)
    else if buf.getD j 0 = 0 then odOuter C g (j + 1) s
    else
      match odInner C j (buf.length - (j + 1)) (j + 1) s with
      | (.ok _, s1) => odOuter C g (j + 1) s1
      | (.error e, s1) => (.error e, s1)

/-- The order-and-decrement pairs pass. -/
def orderDecPass (C : Ctx) (s : RState) : Except Err Unit × RState :=
  odOuter C s.last_data.buffer.length 0 s

/-- The outer shrink sweep, core.py lines 122 to 272: the ordered pass
catalogue with the two early-continue checkpoints, repeated while the sweep
changed something and the budget condition of the while header holds. -/
def outerLoop (C : Ctx) : Nat → Nat → Int → RState → Except Err Unit × RState
  | 0, _, _, s => (.error .fuelOut, s)
  | fu + 1, ic, cc, s =>
    if s.changed ≤ ic + C.st.max_shrinks ∧ cc < (s.changed : Int) then
      if s.last_data.status = .interesting then
        let c0 := s.changed
        bindR (delIntervalsFix C fu (-1) s) (fun s1 =>
        bindR (sortIntervalsPass C fu 0 s1) (fun s2 =>
        bindR (zeroWindowPass C s2) (fun s3 =>
        bindR (singleBytePass C fu 0 s3) (fun s4 =>
        bindR (adjSwapPass C fu 0 s4) (fun s5 =>
        if c0 < s5.changed then outerLoop C fu ic (c0 : Int) s5
        else
          bindR (borrowPass C fu 0 s5) (fun s6 =>
          if c0 < s6.changed then outerLoop C fu ic (c0 : Int) s6
          else
            bindR (equalPairsPass C s6) (fun s7 =>
            if c0 < s7.changed then outerLoop C fu ic (c0 : Int) s7
            else
              bindR (orderDecPass C s7) (fun s8 =>
              outerLoop C fu ic (c0 : Int) s8))))))))
      else (.error .assertStatus, s)
    else (.ok (), s)

/-- The runner state before the first new_buffer call. The initial
last_data is a placeholder that new_buffer overwrites before any read. -/
def initState (C : Ctx) : RState :=
  ⟨⟨[], 0, 0, [], .overrun⟩, 0, 0, min 8 C.st.buffer_size, 0, [], [], []⟩

/-- TestRunner private run, core.py lines 105 to 272: first candidate,
generation loop, then the shrink sweeps when something interesting was
found. -/
def tr_run (C : Ctx) (fuel : Nat) : Except Err Unit × RState :=
  let s1 := new_buffer C (initState C)
  match genLoop C fuel 0 0 s1 with
  | (.ok true, s2) => outerLoop C fuel s2.changed (-1) s2
  | (.ok false, s2) => (.ok (), s2)
  | (.error e, s2) => (.error e, s2)

/-- TestRunner public run, core.py lines 99 to 103: StopShrinking is caught
at the run boundary, the rest propagates. -/
def runnerRun (C : Ctx) (fuel : Nat) : Except Err RState :=
  match tr_run C fuel with
  | (.ok _, s) => .ok s
  | (.error .stop, s) => .ok s
  | (.error e, _) => .error e

/-- find_interesting_buffer, core.py lines 275 to 279. -/
def find_interesting_buffer (C : Ctx) (fuel : Nat) :
    Except Err (Option (List Nat)) :=
  match runnerRun C fuel with
  | .ok s =>
    .ok (if s.last_data.status = .interesting then some s.last_data.buffer
         else none)
  | .error e => .error e

/-- Modelled from the spec: the TestData interval invariant of section 3,
each recorded interval has start at most end. Stated on the callback, since
every TestData the engine builds gets its intervals from the callback. -/
def wfCtx (C : Ctx) : Prop :=
  ∀ b : List Nat, ∀ p ∈ (C.f b).intervals, p.1 ≤ p.2

/-- Equality of the semantic runner fields, ignoring the ghost fields execs
and props. -/
def semEq (s t : RState) : Prop :=
  t.last_data = s.last_data ∧ t.changed = s.changed ∧ t.shrinks = s.shrinks ∧
  t.fill_size = s.fill_size ∧ t.rpos = s.rpos ∧ t.trace = s.trace

/-- A placeholder TestData used as the default of list lookups. -/
def dummyTD : TestData := ⟨[], 0, 0, [], .overrun⟩

/-- Concrete OVERRUN TestData for exercising the mutator. -/
def c7d : TestData := ⟨[255, 255, 255], 3, 0, [], .overrun⟩

/-- A callback that is VALID on the buffer with the single zero byte and
OVERRUN on everything else. -/
def f1 : List Nat → TRes := fun b =>
  if b = [0] then ⟨1, 0, [], .valid⟩ else ⟨2, 0, [], .overrun⟩

/-- A run context with one-byte buffers, one mutation and one generation. -/
def C1x : Ctx := ⟨f1, ⟨1, 1, 1, 5⟩, fun p => p⟩

/-- A callback for which every execution is INTERESTING and reads
nothing. -/
def fTrue : List Nat → TRes := fun _ => ⟨0, 0, [], .interesting⟩

/-- A run context with two-byte buffers and a shrink budget of zero. -/
def C3x : Ctx := ⟨fTrue, ⟨2, 1, 1, 0⟩, fun _ => 0⟩

/-- A callback for which every execution is VALID. -/
def fValid : List Nat → TRes := fun _ => ⟨0, 0, [], .valid⟩

/-- A context whose callback rejects every candidate as VALID. -/
def C9x : Ctx := ⟨fValid, ⟨16, 1, 1, 5⟩, fun _ => 0⟩

/-- A runner state holding an interesting nine-byte buffer. -/
def s9 : RState :=
  ⟨⟨[1, 2, 3, 4, 5, 6, 7, 8, 9], 9, 0, [], .interesting⟩, 0, 0, 8, 0, [], [], []⟩

/-- The always-interesting callback under the default settings with the
all-zeros oracle. -/
def C8x : Ctx := ⟨fTrue, defaultSettings, fun _ => 0⟩

/-- Result invariant: the state predicate P holds after a normal return and
the error predicate Q holds at the state carried by an error. -/
def ResOk (P : RState → Prop) (Q : Err → RState → Prop) {α : Type}
    (r : Except Err α × RState) : Prop :=
  (∀ a, r.1 = .ok a → P r.2) ∧ (∀ e, r.1 = .error e → Q e r.2)

/-- An invariant package: P is preserved by an incorporate call on any
sound proposal, by new_buffer, and by oracle repositioning, and P puts Q on
the states carried by the fuel and status-assert errors. -/
structure InvPack (C : Ctx) (P : RState → Prop) (Q : Err → RState → Prop)
    (S : RState → List Nat → Prop) : Prop where
  hInc : ∀ s b, P s → S s b → ResOk P Q (incorporate_new_buffer C s b)
  hFuel : ∀ s, P s → Q .fuelOut s
  hStatus : ∀ s, P s → Q .assertStatus s
  hNew : ∀ s, P s → P (new_buffer C s)
  hRpos : ∀ s p, P s → P { s with rpos := p }

/-- Soundness of every proposal shape the engine submits: one field per
call site of incorporate_new_buffer, with the bounds the surrounding code
guarantees there. -/
structure SPack (C : Ctx) (P : RState → Prop)
    (S : RState → List Nat → Prop) : Prop where
  sDel : ∀ s (p : Nat × Nat), P s → p ∈ s.last_data.intervals →
    S s (s.last_data.buffer.take p.1 ++ s.last_data.buffer.drop p.2)
  sSort : ∀ s (p : Nat × Nat), P s → p ∈ s.last_data.intervals →
    S s (s.last_data.buffer.take p.1 ++
         isort ((s.last_data.buffer.take p.2).drop p.1) ++
         s.last_data.buffer.drop p.2)
  sZw : ∀ s i, P s → i + 8 ≤ s.last_data.buffer.length →
    S s (s.last_data.buffer.take i ++ List.replicate 8 0 ++
         s.last_data.buffer.drop (i + 8))
  sDelByte : ∀ s i, P s → i < s.last_data.buffer.length →
    S s (s.last_data.buffer.take i ++ s.last_data.buffer.drop (i + 1))
  sSb : ∀ s i c (t : List Nat), P s → i < s.last_data.buffer.length →
    t.length = s.last_data.buffer.length - i - 1 →
    S s (s.last_data.buffer.take i ++ [c] ++ t)
  sAdj : ∀ s i x y, P s → i + 1 < s.last_data.buffer.length →
    S s (s.last_data.buffer.take i ++ [x, y] ++
         s.last_data.buffer.drop (i + 2))
  sBorrow : ∀ s i j x, P s → 1 ≤ j → j ≤ i → i < s.last_data.buffer.length →
    S s (s.last_data.buffer.take j ++ [x] ++ List.replicate (i - j) 255 ++
         s.last_data.buffer.drop (i + 1))
  sPair1 : ∀ s (buf : List Nat) j k x y, P s →
    s.last_data.buffer.length = buf.length → 0 < j → j + 2 ≤ k →
    k < buf.length →
    S s (buf.take (j - 1) ++ [x, 255] ++ (buf.take (k - 1)).drop (j + 1) ++
         [y, 255] ++ buf.drop (k + 1))
  sPair2 : ∀ s (buf : List Nat) j k x, P s →
    s.last_data.buffer.length = buf.length → j < k → k < buf.length →
    S s (buf.take j ++ [x] ++ (buf.take k).drop (j + 1) ++ [x] ++
         buf.drop (k + 1))
  sPairCur : ∀ s j k x y, P s → j < k → k < s.last_data.buffer.length →
    S s (s.last_data.buffer.take j ++ [x] ++
         (s.last_data.buffer.take k).drop (j + 1) ++ [y] ++
         s.last_data.buffer.drop (k + 1))
  sMut : ∀ s (b : List Nat), P s → s.last_data.status ≠ .interesting → S s b

/-- Counter facts of one engine step during shrinking: the shrink count is
monotone, changed moves in lockstep with shrinks, an unchanged shrink count
means an unchanged last_data, and a normal return keeps last_data
INTERESTING and below the budget unless nothing was accepted. -/
def TermStep (C : Ctx) (s : RState) {α : Type}
    (r : Except Err α × RState) : Prop :=
  s.shrinks ≤ r.2.shrinks ∧
  r.2.changed + s.shrinks = s.changed + r.2.shrinks ∧
  (r.2.shrinks = s.shrinks → r.2.last_data = s.last_data) ∧
  (∀ a : α, r.1 = .ok a →
    (r.2.shrinks = s.shrinks ∨ r.2.shrinks < C.st.max_shrinks) ∧
    r.2.last_data.status = .interesting)

/-- TermStep together with a classification of the error, if any, by the
predicate E. -/
def TGoodE (C : Ctx) (E : Err → Prop) (s : RState) {α : Type}
    (r : Except Err α × RState) : Prop :=
  TermStep C s r ∧ ∀ e, r.1 = .error e → E e

section Theorems

/-! ### Helper lemmas about the status order and the acceptor -/

theorem statusToNat_le_three (st : Status) : st.toNat ≤ 3 := by
  cases st <;> simp [Status.toNat]

theorem status_eq_of_toNat {a b : Status} (h : a.toNat = b.toNat) : a = b := by
  cases a <;> cases b <;> simp_all [Status.toNat]

theorem interesting_of_toNat {a : Status} (h : 3 ≤ a.toNat) :
    a = .interesting := by
  cases a <;> simp_all [Status.toNat]

theorem consider_accept_status_mono (last d : TestData)
    (h : consider_new_test_data last d = some true) :
    last.status.toNat ≤ d.status.toNat := by
  unfold consider_new_test_data at h
  by_cases h1 : last.status.toNat < d.status.toNat
  · omega
  · by_cases h2 : d.status.toNat < last.status.toNat
    · rw [if_neg h1, if_pos h2] at h
      exact absurd h (by simp)
    · omega

theorem consider_accept_interesting (last d : TestData)
    (hl : last.status = .interesting)
    (h : consider_new_test_data last d = some true) :
    d.status = .interesting ∧ interestKeyLt d last = true ∧
      d.buffer.length ≤ last.buffer.length := by
  have hmono := consider_accept_status_mono last d h
  have hd : d.status = .interesting := by
    refine interesting_of_toNat ?_
    rw [hl] at hmono
    exact hmono
  refine ⟨hd, ?_, ?_⟩ <;>
  · unfold consider_new_test_data at h
    rw [hl, hd] at h
    simp only [Status.toNat, lt_irrefl, if_false] at h
    split_ifs at h with h1 <;> simp_all

theorem consider_none_facts (last d : TestData)
    (h : consider_new_test_data last d = none) :
    last.status = .interesting ∧ d.status = .interesting ∧
      last.buffer.length < d.buffer.length := by
  unfold consider_new_test_data at h
  split_ifs at h with h1 h2 h3 h4 h5 h6
  all_goals try simp at h
  refine ⟨?_, h5, by omega⟩
  have h7 : last.status.toNat = Status.interesting.toNat := by rw [← h5]; omega
  exact status_eq_of_toNat h7

/-! ### Exact-shape lemmas for incorporate_new_buffer -/

theorem incorporate_equal (C : Ctx) (s : RState) :
    incorporate_new_buffer C s s.last_data.buffer =
      (.ok false, { s with props := s.props ++ [s.last_data.buffer] }) := by
  simp [incorporate_new_buffer]

theorem incorporate_reject (C : Ctx) (s : RState) (b : List Nat)
    (hne : b ≠ s.last_data.buffer)
    (h : consider_new_test_data s.last_data (runTest C b) = some false) :
    incorporate_new_buffer C s b =
      (.ok false,
       { s with props := s.props ++ [b], execs := s.execs ++ [b] }) := by
  simp [incorporate_new_buffer, hne, h]

theorem incorporate_assert (C : Ctx) (s : RState) (b : List Nat)
    (hne : b ≠ s.last_data.buffer)
    (h : consider_new_test_data s.last_data (runTest C b) = none) :
    incorporate_new_buffer C s b =
      (.error .assertLen,
       { s with props := s.props ++ [b], execs := s.execs ++ [b] }) := by
  simp [incorporate_new_buffer, hne, h]

theorem incorporate_accept (C : Ctx) (s : RState) (b : List Nat)
    (hne : b ≠ s.last_data.buffer)
    (h : consider_new_test_data s.last_data (runTest C b) = some true) :
    incorporate_new_buffer C s b =
      (if C.st.max_shrinks ≤
          (if s.last_data.status = .interesting then s.shrinks + 1
           else s.shrinks)
       then .error .stop else .ok true,
       { s with
         last_data := runTest C b,
         shrinks := (if s.last_data.status = .interesting then s.shrinks + 1
                     else s.shrinks),
         fill_size := min (max s.fill_size ((runTest C b).index * 2))
           C.st.buffer_size,
         changed := s.changed + 1,
         trace := s.trace ++ [runTest C b],
         props := s.props ++ [b],
         execs := s.execs ++ [b] }) := by
  simp only [incorporate_new_buffer, hne]
  simp [h]
  split <;> split <;> rfl

theorem consider_lower_status (last d : TestData)
    (h : d.status.toNat < last.status.toNat) :
    consider_new_test_data last d = some false := by
  unfold consider_new_test_data
  rw [if_neg (by omega), if_pos h]

theorem semEq_refl (s : RState) : semEq s s := ⟨rfl, rfl, rfl, rfl, rfl, rfl⟩

theorem semEq_trans {s t u : RState} (h1 : semEq s t) (h2 : semEq t u) :
    semEq s u :=
  ⟨h2.1.trans h1.1, h2.2.1.trans h1.2.1, h2.2.2.1.trans h1.2.2.1,
   h2.2.2.2.1.trans h1.2.2.2.1, h2.2.2.2.2.1.trans h1.2.2.2.2.1,
   h2.2.2.2.2.2.trans h1.2.2.2.2.2⟩

/-- An incorporate call that is rejected, by buffer equality or by the
acceptor, keeps every semantic field and only records the proposal. -/
theorem incorporate_rejected_sem (C : Ctx) (s : RState) (b : List Nat)
    (h : b = s.last_data.buffer ∨
         consider_new_test_data s.last_data (runTest C b) = some false) :
    (incorporate_new_buffer C s b).1 = .ok false ∧
    semEq s (incorporate_new_buffer C s b).2 ∧
    (incorporate_new_buffer C s b).2.props = s.props ++ [b] := by
  rcases h with h | h
  · subst h
    rw [incorporate_equal]
    exact ⟨rfl, ⟨rfl, rfl, rfl, rfl, rfl, rfl⟩, rfl⟩
  · by_cases hne : b = s.last_data.buffer
    · subst hne
      rw [incorporate_equal]
      exact ⟨rfl, ⟨rfl, rfl, rfl, rfl, rfl, rfl⟩, rfl⟩
    · rw [incorporate_reject C s b hne h]
      exact ⟨rfl, ⟨rfl, rfl, rfl, rfl, rfl, rfl⟩, rfl⟩

/-! ### C2: the acceptor decides exactly as the table of the spec -/

/-- C2. For all frozen TestData values, the acceptor decides replacement
exactly as the table in section 4.3 of the spec, given the length
precondition of the equal INTERESTING row. -/
theorem c2_acceptor_matches_spec (last cand : TestData)
    (hpre : last.status = .interesting → cand.status = .interesting →
            cand.buffer.length ≤ last.buffer.length) :
    consider_new_test_data last cand = some (acceptor_spec last cand) := by
  unfold consider_new_test_data acceptor_spec
  by_cases h1 : last.status.toNat < cand.status.toNat
  · simp [h1]
  · by_cases h2 : cand.status.toNat < last.status.toNat
    · simp [h1, h2]
    · have heq : last.status = cand.status := status_eq_of_toNat (by omega)
      cases hc : cand.status
      · simp [heq, hc, Status.toNat]
      · simp [heq, hc, Status.toNat]
      · simp [heq, hc, Status.toNat]
      · have hlen := hpre (heq.trans hc) hc
        simp [heq, hc, hlen, Status.toNat]

/-- Witness for C2 at a concrete pair of frozen TestData values. -/
theorem c2_witness :
    ((⟨[5], 1, 0, [], .interesting⟩ : TestData).status = .interesting →
     (⟨[3], 1, 0, [], .interesting⟩ : TestData).status = .interesting →
     (⟨[3], 1, 0, [], .interesting⟩ : TestData).buffer.length ≤
       (⟨[5], 1, 0, [], .interesting⟩ : TestData).buffer.length) ∧
    consider_new_test_data ⟨[5], 1, 0, [], .interesting⟩
        ⟨[3], 1, 0, [], .interesting⟩ =
      some (acceptor_spec ⟨[5], 1, 0, [], .interesting⟩
        ⟨[3], 1, 0, [], .interesting⟩) :=
  ⟨by decide, c2_acceptor_matches_spec _ _ (by decide)⟩

/-! ### C5: once interesting, accepted candidates strictly improve -/

/-- C5. If last_data is INTERESTING, then after any incorporate call
last_data is still INTERESTING, and if it was replaced then the acceptor
accepted a candidate that is INTERESTING, strictly smaller in interest key,
and no longer. -/
theorem c5_interesting_monotone (C : Ctx) (s : RState) (b : List Nat)
    (e : Except Err Bool) (s' : RState)
    (hint : s.last_data.status = .interesting)
    (hrun : incorporate_new_buffer C s b = (e, s')) :
    s'.last_data.status = .interesting ∧
      (s'.last_data = s.last_data ∨
        (s'.last_data = runTest C b ∧
         consider_new_test_data s.last_data (runTest C b) = some true ∧
         interestKeyLt s'.last_data s.last_data = true ∧
         s'.last_data.buffer.length ≤ s.last_data.buffer.length)) := by
  by_cases hne : b = s.last_data.buffer
  · subst hne
    rw [incorporate_equal] at hrun
    injection hrun with he hs
    subst hs
    exact ⟨hint, Or.inl rfl⟩
  · rcases hcons : consider_new_test_data s.last_data (runTest C b) with _ | bv
    · rw [incorporate_assert C s b hne hcons] at hrun
      injection hrun with he hs
      subst hs
      exact ⟨hint, Or.inl rfl⟩
    · cases bv
      · rw [incorporate_reject C s b hne hcons] at hrun
        injection hrun with he hs
        subst hs
        exact ⟨hint, Or.inl rfl⟩
      · rw [incorporate_accept C s b hne hcons] at hrun
        injection hrun with he hs
        subst hs
        obtain ⟨hds, hkey, hlen⟩ :=
          consider_accept_interesting _ _ hint hcons
        exact ⟨hds, Or.inr ⟨rfl, rfl, hkey, hlen⟩⟩

/-- Witness for C5 at a concrete interesting state and shorter interesting
candidate. -/
theorem c5_witness :
    s9.last_data.status = .interesting ∧
    ((incorporate_new_buffer C8x s9 [0]).2.last_data.status = .interesting ∧
      ((incorporate_new_buffer C8x s9 [0]).2.last_data = s9.last_data ∨
        ((incorporate_new_buffer C8x s9 [0]).2.last_data = runTest C8x [0] ∧
         consider_new_test_data s9.last_data (runTest C8x [0]) = some true ∧
         interestKeyLt (incorporate_new_buffer C8x s9 [0]).2.last_data
           s9.last_data = true ∧
         (incorporate_new_buffer C8x s9 [0]).2.last_data.buffer.length ≤
           s9.last_data.buffer.length))) :=
  ⟨by decide,
   c5_interesting_monotone C8x s9 [0] (incorporate_new_buffer C8x s9 [0]).1
     (incorporate_new_buffer C8x s9 [0]).2 (by decide) rfl⟩

/-! ### C10: equal buffers are rejected without running the test -/

/-- C10. A buffer equal to the current last_data buffer is rejected
immediately: the call returns false, the execs ghost shows the test
callback did not run, and last_data, changed and shrinks are untouched. -/
theorem c10_equal_buffer_noop (C : Ctx) (s : RState) :
    incorporate_new_buffer C s s.last_data.buffer =
      (.ok false, { s with props := s.props ++ [s.last_data.buffer] }) ∧
    (incorporate_new_buffer C s s.last_data.buffer).2.execs = s.execs ∧
    (incorporate_new_buffer C s s.last_data.buffer).2.last_data =
      s.last_data ∧
    (incorporate_new_buffer C s s.last_data.buffer).2.changed = s.changed ∧
    (incorporate_new_buffer C s s.last_data.buffer).2.shrinks = s.shrinks := by
  refine ⟨incorporate_equal C s, ?_, ?_, ?_, ?_⟩ <;> rw [incorporate_equal]

/-! ### C7: the OVERRUN branch of the mutator is discarded -/

/-- C7. At a concrete OVERRUN TestData with n at least 2, the per byte
perturbation computes the all-zero buffer but the mutator returns a splice
of the original buffer instead: the perturbed bytes are discarded. -/
theorem c7_overrun_branch_discarded :
    c7d.status = .overrun ∧
    2 ≤ min c7d.buffer.length c7d.index ∧
    (perturbBytes (fun _ => 0) c7d.buffer 0).1 = [0, 0, 0] ∧
    mutate_data_to_new_buffer c7d (fun _ => 0) 1 0 = .ok ([0, 255, 255], 8) ∧
    ([0, 255, 255] : List Nat) ≠ [0, 0, 0] := by
  refine ⟨rfl, by decide, by decide, ?_, by decide⟩
  rfl

/-! ### C1: new-random candidates bypass the acceptor -/

/-- C1 counterexample. A concrete run in which the second new-random
candidate replaces last_data although the acceptor rejects it, and the
status of last_data decreases from VALID to OVERRUN across that
replacement. -/
theorem c1_counterexample :
    (runnerRun C1x 10).map (fun s => s.trace.map TestData.status) =
      .ok [.valid, .overrun] ∧
    Status.toNat .overrun < Status.toNat .valid ∧
    (runnerRun C1x 10).map
      (fun s => consider_new_test_data (s.trace.getD 0 dummyTD)
                  (s.trace.getD 1 dummyTD)) = .ok (some false) := by
  refine ⟨by rfl, by decide, by rfl⟩

/-- C1 amended. Candidates submitted through incorporate_new_buffer leave
last_data, changed and shrinks untouched unless the acceptor accepts, in
which case status does not decrease; new-random candidates produced by
new_buffer, by contrast, replace last_data unconditionally. -/
theorem c1_amended_acceptance (C : Ctx) (s : RState) (b : List Nat)
    (e : Except Err Bool) (s' : RState)
    (hrun : incorporate_new_buffer C s b = (e, s')) :
    ((s'.last_data = s.last_data ∧ s'.changed = s.changed ∧
      s'.shrinks = s.shrinks ∧ s'.trace = s.trace) ∨
     (consider_new_test_data s.last_data (runTest C b) = some true ∧
      s'.last_data = runTest C b ∧
      s.last_data.status.toNat ≤ s'.last_data.status.toNat)) ∧
    (new_buffer C s).last_data = runTest C (newBufferBytes C s) := by
  refine ⟨?_, rfl⟩
  by_cases hne : b = s.last_data.buffer
  · subst hne
    rw [incorporate_equal] at hrun
    injection hrun with he hs
    subst hs
    exact Or.inl ⟨rfl, rfl, rfl, rfl⟩
  · rcases hcons : consider_new_test_data s.last_data (runTest C b) with _ | bv
    · rw [incorporate_assert C s b hne hcons] at hrun
      injection hrun with he hs
      subst hs
      exact Or.inl ⟨rfl, rfl, rfl, rfl⟩
    · cases bv
      · rw [incorporate_reject C s b hne hcons] at hrun
        injection hrun with he hs
        subst hs
        exact Or.inl ⟨rfl, rfl, rfl, rfl⟩
      · rw [incorporate_accept C s b hne hcons] at hrun
        injection hrun with he hs
        subst hs
        refine Or.inr ⟨rfl, rfl, ?_⟩
        exact consider_accept_status_mono _ _ hcons

/-- Witness for the amended C1 at a concrete rejected proposal. -/
theorem c1_amended_witness :
    (((incorporate_new_buffer C9x s9 [0]).2.last_data = s9.last_data ∧
      (incorporate_new_buffer C9x s9 [0]).2.changed = s9.changed ∧
      (incorporate_new_buffer C9x s9 [0]).2.shrinks = s9.shrinks ∧
      (incorporate_new_buffer C9x s9 [0]).2.trace = s9.trace) ∨
     (consider_new_test_data s9.last_data (runTest C9x [0]) = some true ∧
      (incorporate_new_buffer C9x s9 [0]).2.last_data = runTest C9x [0] ∧
      s9.last_data.status.toNat ≤
        (incorporate_new_buffer C9x s9 [0]).2.last_data.status.toNat)) ∧
    (new_buffer C9x s9).last_data = runTest C9x (newBufferBytes C9x s9) :=
  c1_amended_acceptance C9x s9 [0] (incorporate_new_buffer C9x s9 [0]).1
    (incorporate_new_buffer C9x s9 [0]).2 rfl

/-! ### C3 counterexample: a zero budget is exceeded by one -/

/-- C3 counterexample. With max_shrinks zero, a concrete run performs one
accepted shrink transition, so the count of accepted transitions during the
shrink phase exceeds the budget. -/
theorem c3_counterexample :
    (runnerRun C3x 10).map RState.shrinks = .ok 1 ∧
    C3x.st.max_shrinks = 0 ∧
    (runnerRun C3x 10).map
      (fun s => decide (s.shrinks ≤ C3x.st.max_shrinks)) = .ok false := by
  refine ⟨by rfl, rfl, by rfl⟩

/-! ### C9: the zero-window pass skips the last full window -/

/-- The zero-window body under a callback that rejects everything records
exactly the proposals of the Python range and changes nothing else. -/
theorem zwLoop_reject_all (C : Ctx)
    (hrej : ∀ b, (C.f b).status = .valid) :
    ∀ gas i s, s.last_data.status = .interesting →
      i + gas + 8 ≤ s.last_data.buffer.length →
      (zwLoop C gas i s).1 = .ok () ∧
      semEq s (zwLoop C gas i s).2 ∧
      (zwLoop C gas i s).2.props = s.props ++ (List.range gas).map
        (fun t => s.last_data.buffer.take (i + t) ++ List.replicate 8 0 ++
                  s.last_data.buffer.drop (i + t + 8)) := by
  intro gas
  induction gas with
  | zero =>
    intro i s hint hlen
    exact ⟨rfl, semEq_refl s, by simp [zwLoop]⟩
  | succ g ih =>
    intro i s hint hlen
    have hnb : ¬ s.last_data.buffer.length < i + 8 := by omega
    set cand := s.last_data.buffer.take i ++ List.replicate 8 0 ++
      s.last_data.buffer.drop (i + 8) with hcand
    obtain ⟨hfst, hsem, hprops⟩ := incorporate_rejected_sem C s cand
      (by
        by_cases he : cand = s.last_data.buffer
        · exact Or.inl he
        · refine Or.inr (consider_lower_status _ _ ?_)
          rw [hint]
          simp [runTest, hrej, Status.toNat])
    have hinc : incorporate_new_buffer C s cand =
        (.ok false, (incorporate_new_buffer C s cand).2) := by
      rw [← hfst]
    have hunf : zwLoop C (g + 1) i s =
        zwLoop C g (i + 1) (incorporate_new_buffer C s cand).2 := by
      simp only [zwLoop]
      rw [if_neg hnb, ← hcand, hinc]
    obtain ⟨hl2, hs2, hp2⟩ := ih (i + 1) (incorporate_new_buffer C s cand).2
      (by rw [hsem.1]; exact hint)
      (by rw [hsem.1]; omega)
    refine ⟨by rw [hunf]; exact hl2,
            by rw [hunf]; exact semEq_trans hsem hs2, ?_⟩
    rw [hunf, hp2, hprops]
    simp only [hsem.1]
    rw [List.range_succ_eq_map, List.map_cons, List.map_map]
    simp only [Nat.add_zero, List.append_assoc, List.singleton_append,
      ← hcand]
    refine congrArg (fun l => s.props ++ (cand :: l)) ?_
    refine List.map_congr_left ?_
    intro t _
    have harith : i + 1 + t = i + Nat.succ t := by omega
    simp [Function.comp, harith]

/-- C9 counterexample. On a nine-byte interesting buffer the zero-window
pass proposes only the window at start 0, although the window at start 1
also lies entirely within the buffer: the candidate the claim requires for
start 1 is never proposed. -/
theorem c9_counterexample :
    (zeroWindowPass C9x s9).2.props = [[0, 0, 0, 0, 0, 0, 0, 0, 9]] ∧
    1 + 8 ≤ s9.last_data.buffer.length ∧
    ([1, 0, 0, 0, 0, 0, 0, 0, 0] : List Nat) ∉
      (zeroWindowPass C9x s9).2.props := by
  refine ⟨by rfl, by decide, by decide⟩

/-- C9 amended. The zero-window pass proposes the candidate for exactly the
starts i with i strictly below the buffer length minus 8, the iteration
space of the Python range: the window flush with the buffer end, at start
length minus 8, is skipped along with the windows that fall off the end.
Stated under a callback that rejects every candidate, so the pass accepts
nothing and the buffer stays fixed. -/
theorem c9_amended_proposals (C : Ctx) (s : RState)
    (hrej : ∀ b, (C.f b).status = .valid)
    (hint : s.last_data.status = .interesting) :
    (zeroWindowPass C s).1 = .ok () ∧
    (zeroWindowPass C s).2.props = s.props ++
      (List.range (s.last_data.buffer.length - 8)).map
        (fun i => s.last_data.buffer.take i ++ List.replicate 8 0 ++
                  s.last_data.buffer.drop (i + 8)) := by
  by_cases hlen : 8 ≤ s.last_data.buffer.length
  · obtain ⟨h1, _, h3⟩ := zwLoop_reject_all C hrej
      (s.last_data.buffer.length - 8) 0 s hint (by omega)
    simp only [Nat.zero_add] at h3
    exact ⟨h1, h3⟩
  · have hg : s.last_data.buffer.length - 8 = 0 := by omega
    rw [zeroWindowPass, hg]
    exact ⟨rfl, by simp [zwLoop]⟩

/-- Witness for the amended C9 at the concrete nine-byte state. -/
theorem c9_amended_witness :
    (zeroWindowPass C9x s9).1 = .ok () ∧
    (zeroWindowPass C9x s9).2.props = s9.props ++
      (List.range (s9.last_data.buffer.length - 8)).map
        (fun i => s9.last_data.buffer.take i ++ List.replicate 8 0 ++
                  s9.last_data.buffer.drop (i + 8)) :=
  c9_amended_proposals C9x s9 (fun _ => rfl) (by decide)

/-! ### Generic machinery for run invariants -/

theorem resOk_ok {P : RState → Prop} {Q : Err → RState → Prop} {α : Type}
    (a : α) (s : RState) (hP : P s) : ResOk P Q (.ok a, s) :=
  ⟨fun _ _ => hP, fun _ h => nomatch h⟩

theorem resOk_err {P : RState → Prop} {Q : Err → RState → Prop} {α : Type}
    (e : Err) (s : RState) (hQ : Q e s) :
    ResOk P Q ((.error e : Except Err α), s) :=
  ⟨(fun _ h => nomatch h), fun e' h => by cases h; exact hQ⟩

theorem bindR_inv {P : RState → Prop} {Q : Err → RState → Prop}
    {x : Except Err Unit × RState} {g : RState → Except Err Unit × RState}
    (hx : ResOk P Q x) (hg : ∀ s, P s → ResOk P Q (g s)) :
    ResOk P Q (bindR x g) := by
  rcases x with ⟨e, s⟩
  cases e with
  | ok a => exact hg s (hx.1 a rfl)
  | error e => exact resOk_err e s (hx.2 e rfl)

/-- Trichotomy for one incorporate call: rejected with semantic fields
kept, length-assert failure with semantic fields kept, or accepted with a
full description of the new state. -/
theorem incorporate_trichotomy (C : Ctx) (s : RState) (b : List Nat) :
    ((incorporate_new_buffer C s b).1 = .ok false ∧
      semEq s (incorporate_new_buffer C s b).2) ∨
    ((incorporate_new_buffer C s b).1 = .error .assertLen ∧
      semEq s (incorporate_new_buffer C s b).2 ∧
      consider_new_test_data s.last_data (runTest C b) = none) ∨
    (consider_new_test_data s.last_data (runTest C b) = some true ∧
      (incorporate_new_buffer C s b).2.last_data = runTest C b ∧
      (incorporate_new_buffer C s b).2.last_data.buffer = b ∧
      (incorporate_new_buffer C s b).2.changed = s.changed + 1 ∧
      (incorporate_new_buffer C s b).2.shrinks =
        (if s.last_data.status = .interesting then s.shrinks + 1
         else s.shrinks) ∧
      (incorporate_new_buffer C s b).2.rpos = s.rpos ∧
      (incorporate_new_buffer C s b).2.trace = s.trace ++ [runTest C b] ∧
      ((incorporate_new_buffer C s b).1 = .ok true ∧
         ¬ C.st.max_shrinks ≤ (incorporate_new_buffer C s b).2.shrinks ∨
       (incorporate_new_buffer C s b).1 = .error .stop ∧
         C.st.max_shrinks ≤ (incorporate_new_buffer C s b).2.shrinks)) := by
  by_cases hne : b = s.last_data.buffer
  · subst hne
    rw [incorporate_equal]
    exact Or.inl ⟨rfl, ⟨rfl, rfl, rfl, rfl, rfl, rfl⟩⟩
  · rcases hcons : consider_new_test_data s.last_data (runTest C b) with _ | bv
    · rw [incorporate_assert C s b hne hcons]
      exact Or.inr (Or.inl ⟨rfl, ⟨rfl, rfl, rfl, rfl, rfl, rfl⟩, rfl⟩)
    · cases bv
      · rw [incorporate_reject C s b hne hcons]
        exact Or.inl ⟨rfl, ⟨rfl, rfl, rfl, rfl, rfl, rfl⟩⟩
      · rw [incorporate_accept C s b hne hcons]
        refine Or.inr (Or.inr ⟨rfl, rfl, rfl, rfl, rfl, rfl, rfl, ?_⟩)
        by_cases hmax : C.st.max_shrinks ≤
            (if s.last_data.status = .interesting then s.shrinks + 1
             else s.shrinks)
        · exact Or.inr ⟨by rw [if_pos hmax], hmax⟩
        · exact Or.inl ⟨by rw [if_neg hmax], hmax⟩

/-- A rejection keeps the semantic fields: read off from the first
component being a false return. -/
theorem incorporate_false_sem (C : Ctx) (s : RState) (b : List Nat)
    (h : (incorporate_new_buffer C s b).1 = .ok false) :
    semEq s (incorporate_new_buffer C s b).2 := by
  rcases incorporate_trichotomy C s b with ⟨_, hs⟩ | ⟨ha, _, _⟩ | ⟨_, _, _, _, _, _, _, hl⟩
  · exact hs
  · rw [ha] at h; cases h
  · rcases hl with ⟨ht, _⟩ | ⟨ht, _⟩ <;> rw [ht] at h <;> cases h

/-- An accepting or stopping incorporate call installed the proposal as the
buffer of last_data. -/
theorem incorporate_accepted_buffer (C : Ctx) (s : RState) (b : List Nat)
    (h : (incorporate_new_buffer C s b).1 = .ok true ∨
         (incorporate_new_buffer C s b).1 = .error .stop) :
    (incorporate_new_buffer C s b).2.last_data.buffer = b := by
  rcases incorporate_trichotomy C s b with ⟨hf, _⟩ | ⟨ha, _, _⟩ | ⟨_, _, hb, _⟩
  · rcases h with h | h <;> rw [hf] at h <;> cases h
  · rcases h with h | h <;> rw [ha] at h <;> cases h
  · exact hb

/-! ### Length computations for the shrink pass proposals -/

theorem insertAsc_length (x : Nat) (l : List Nat) :
    (insertAsc x l).length = l.length + 1 := by
  induction l with
  | nil => rfl
  | cons y ys ih =>
    by_cases h : x ≤ y
    · simp [insertAsc, h]
    · simp [insertAsc, h, ih]

theorem isort_length (l : List Nat) : (isort l).length = l.length := by
  induction l with
  | nil => rfl
  | cons x xs ih => simp [isort, insertAsc_length, ih]

theorem length_del_slice (l : List Nat) (u v : Nat) (huv : u ≤ v) :
    (l.take u ++ l.drop v).length ≤ l.length := by
  simp only [List.length_append, List.length_take, List.length_drop]
  omega

theorem length_sort_slice (l : List Nat) (u v : Nat) (huv : u ≤ v) :
    (l.take u ++ isort ((l.take v).drop u) ++ l.drop v).length ≤ l.length := by
  simp only [List.length_append, List.length_take, List.length_drop,
    isort_length]
  omega

theorem length_zw (l : List Nat) (i : Nat) (h : i + 8 ≤ l.length) :
    (l.take i ++ List.replicate 8 0 ++ l.drop (i + 8)).length = l.length := by
  simp only [List.length_append, List.length_take, List.length_drop,
    List.length_replicate]
  omega

theorem length_sb (l : List Nat) (i c : Nat) (t : List Nat)
    (hi : i < l.length) (ht : t.length = l.length - i - 1) :
    (l.take i ++ [c] ++ t).length = l.length := by
  simp only [List.length_append, List.length_take, List.length_cons,
    List.length_nil, ht]
  omega

theorem length_adj (l : List Nat) (i x y : Nat) (h : i + 1 < l.length) :
    (l.take i ++ [x, y] ++ l.drop (i + 2)).length = l.length := by
  simp only [List.length_append, List.length_take, List.length_drop,
    List.length_cons, List.length_nil]
  omega

theorem length_borrow (l : List Nat) (i j x : Nat) (h1 : 1 ≤ j) (h2 : j ≤ i)
    (h3 : i < l.length) :
    (l.take j ++ [x] ++ List.replicate (i - j) 255 ++
     l.drop (i + 1)).length = l.length := by
  simp only [List.length_append, List.length_take, List.length_drop,
    List.length_replicate, List.length_cons, List.length_nil]
  omega

theorem length_pair_cur (l : List Nat) (j k x y : Nat) (hjk : j < k)
    (hk : k < l.length) :
    (l.take j ++ [x] ++ (l.take k).drop (j + 1) ++ [y] ++
     l.drop (k + 1)).length = l.length := by
  simp only [List.length_append, List.length_take, List.length_drop,
    List.length_cons, List.length_nil]
  omega

theorem length_pair1 (l : List Nat) (j k x y : Nat) (h1 : 0 < j)
    (h2 : j + 2 ≤ k) (hk : k < l.length) :
    (l.take (j - 1) ++ [x, 255] ++ (l.take (k - 1)).drop (j + 1) ++
     [y, 255] ++ l.drop (k + 1)).length = l.length := by
  simp only [List.length_append, List.length_take, List.length_drop,
    List.length_cons, List.length_nil]
  omega

/-! ### Invariant preservation through every shrink pass -/

theorem zwLoop_inv {C : Ctx} {P : RState → Prop} {Q : Err → RState → Prop}
    {S : RState → List Nat → Prop} (pk : InvPack C P Q S)
    (sp : SPack C P S) :
    ∀ gas i s, P s → ResOk P Q (zwLoop C gas i s) := by
  intro gas
  induction gas with
  | zero => intro i s hP; exact resOk_ok () s hP
  | succ g ih =>
    intro i s hP
    by_cases hnb : s.last_data.buffer.length < i + 8
    · have hres : zwLoop C (g + 1) i s = (.ok (), s) := by
        simp only [zwLoop]
        rw [if_pos hnb]
      rw [hres]
      exact resOk_ok () s hP
    · obtain ⟨hok, herr⟩ := pk.hInc s _ hP (sp.sZw s i hP (by omega))
      rcases hfst : (incorporate_new_buffer C s
        (s.last_data.buffer.take i ++ List.replicate 8 0 ++
         s.last_data.buffer.drop (i + 8))).1 with e | b
      · have heq : incorporate_new_buffer C s
            (s.last_data.buffer.take i ++ List.replicate 8 0 ++
             s.last_data.buffer.drop (i + 8)) =
            (.error e, (incorporate_new_buffer C s
              (s.last_data.buffer.take i ++ List.replicate 8 0 ++
               s.last_data.buffer.drop (i + 8))).2) := by
          rw [← hfst]
        have hres : zwLoop C (g + 1) i s = (.error e,
            (incorporate_new_buffer C s
              (s.last_data.buffer.take i ++ List.replicate 8 0 ++
               s.last_data.buffer.drop (i + 8))).2) := by
          simp only [zwLoop]
          rw [if_neg hnb, heq]
        rw [hres]
        exact resOk_err e _ (herr e hfst)
      · have heq : incorporate_new_buffer C s
            (s.last_data.buffer.take i ++ List.replicate 8 0 ++
             s.last_data.buffer.drop (i + 8)) =
            (.ok b, (incorporate_new_buffer C s
              (s.last_data.buffer.take i ++ List.replicate 8 0 ++
               s.last_data.buffer.drop (i + 8))).2) := by
          rw [← hfst]
        have hres : zwLoop C (g + 1) i s = zwLoop C g (i + 1)
            (incorporate_new_buffer C s
              (s.last_data.buffer.take i ++ List.replicate 8 0 ++
               s.last_data.buffer.drop (i + 8))).2 := by
          simp only [zwLoop]
          rw [if_neg hnb, heq]
        rw [hres]
        exact ih (i + 1) _ (hok b hfst)

/-- Invariant step through an incorporate call whose result is matched with
the accepted and rejected cases merged. The continuation learns that the
state either kept its semantic fields or installed the proposal. -/
theorem inc_step2 {C : Ctx} {P : RState → Prop} {Q : Err → RState → Prop}
    {S : RState → List Nat → Prop} (pk : InvPack C P Q S) {α : Type}
    (s : RState) (cand : List Nat) (hP : P s) (hS : S s cand)
    (k : RState → Except Err α × RState)
    (hk : ∀ s', P s' → semEq s s' ∨ s'.last_data.buffer = cand →
      ResOk P Q (k s')) :
    ResOk P Q (match incorporate_new_buffer C s cand with
      | (.ok _, s1) => k s1
      | (.error e, s1) => ((.error e : Except Err α), s1)) := by
  obtain ⟨hok, herr⟩ := pk.hInc s cand hP hS
  rcases hfst : (incorporate_new_buffer C s cand).1 with e | b
  · have heq : incorporate_new_buffer C s cand =
        (.error e, (incorporate_new_buffer C s cand).2) := by rw [← hfst]
    rw [heq]
    exact resOk_err e _ (herr e hfst)
  · have heq : incorporate_new_buffer C s cand =
        (.ok b, (incorporate_new_buffer C s cand).2) := by rw [← hfst]
    rw [heq]
    refine hk _ (hok b hfst) ?_
    cases b
    · exact Or.inl (incorporate_false_sem C s cand hfst)
    · exact Or.inr (incorporate_accepted_buffer C s cand (Or.inl hfst))

/-- Invariant step through an incorporate call whose result is matched with
separate accepted and rejected branches. -/
theorem inc_step3 {C : Ctx} {P : RState → Prop} {Q : Err → RState → Prop}
    {S : RState → List Nat → Prop} (pk : InvPack C P Q S) {α : Type}
    (s : RState) (cand : List Nat) (hP : P s) (hS : S s cand)
    (kT kF : RState → Except Err α × RState)
    (hkT : ∀ s', P s' → s'.last_data.buffer = cand → ResOk P Q (kT s'))
    (hkF : ∀ s', P s' → semEq s s' → ResOk P Q (kF s')) :
    ResOk P Q (match incorporate_new_buffer C s cand with
      | (.ok true, s1) => kT s1
      | (.ok false, s1) => kF s1
      | (.error e, s1) => ((.error e : Except Err α), s1)) := by
  obtain ⟨hok, herr⟩ := pk.hInc s cand hP hS
  rcases hfst : (incorporate_new_buffer C s cand).1 with e | b
  · have heq : incorporate_new_buffer C s cand =
        (.error e, (incorporate_new_buffer C s cand).2) := by rw [← hfst]
    rw [heq]
    exact resOk_err e _ (herr e hfst)
  · have heq : incorporate_new_buffer C s cand =
        (.ok b, (incorporate_new_buffer C s cand).2) := by rw [← hfst]
    rw [heq]
    cases b
    · exact hkF _ (hok false hfst) (incorporate_false_sem C s cand hfst)
    · exact hkT _ (hok true hfst)
        (incorporate_accepted_buffer C s cand (Or.inl hfst))

theorem delIntervalsInner_inv {C : Ctx} {P : RState → Prop}
    {Q : Err → RState → Prop} {S : RState → List Nat → Prop}
    (pk : InvPack C P Q S) (sp : SPack C P S) :
    ∀ fuel i s, P s → ResOk P Q (delIntervalsInner C fuel i s) := by
  intro fuel
  induction fuel with
  | zero => intro i s hP; exact resOk_err _ _ (pk.hFuel s hP)
  | succ fu ih =>
    intro i s hP
    by_cases hi : i < s.last_data.intervals.length
    · have hmem : s.last_data.intervals.getD i (0, 0) ∈
          s.last_data.intervals := by
        rw [List.getD_eq_getElem _ _ hi]
        exact List.getElem_mem hi
      simp only [delIntervalsInner]
      rw [if_pos hi]
      exact inc_step3 pk s _ hP (sp.sDel s _ hP hmem) _ _
        (fun s1 hP1 _ => ih i s1 hP1) (fun s1 hP1 _ => ih (i + 1) s1 hP1)
    · simp only [delIntervalsInner]
      rw [if_neg hi]
      exact resOk_ok _ _ hP

theorem delIntervalsFix_inv {C : Ctx} {P : RState → Prop}
    {Q : Err → RState → Prop} {S : RState → List Nat → Prop}
    (pk : InvPack C P Q S) (sp : SPack C P S) :
    ∀ fuel icc s, P s → ResOk P Q (delIntervalsFix C fuel icc s) := by
  intro fuel
  induction fuel with
  | zero => intro icc s hP; exact resOk_err _ _ (pk.hFuel s hP)
  | succ fu ih =>
    intro icc s hP
    by_cases hc : icc < (s.changed : Int)
    · simp only [delIntervalsFix]
      rw [if_pos hc]
      exact bindR_inv (delIntervalsInner_inv pk sp fu 0 s hP)
        (fun s1 hP1 => ih (s.changed : Int) s1 hP1)
    · simp only [delIntervalsFix]
      rw [if_neg hc]
      exact resOk_ok _ _ hP

theorem sortIntervalsPass_inv {C : Ctx} {P : RState → Prop}
    {Q : Err → RState → Prop} {S : RState → List Nat → Prop}
    (pk : InvPack C P Q S) (sp : SPack C P S) :
    ∀ fuel i s, P s → ResOk P Q (sortIntervalsPass C fuel i s) := by
  intro fuel
  induction fuel with
  | zero => intro i s hP; exact resOk_err _ _ (pk.hFuel s hP)
  | succ fu ih =>
    intro i s hP
    by_cases hi : i < s.last_data.intervals.length
    · have hmem : s.last_data.intervals.getD i (0, 0) ∈
          s.last_data.intervals := by
        rw [List.getD_eq_getElem _ _ hi]
        exact List.getElem_mem hi
      simp only [sortIntervalsPass]
      rw [if_pos hi]
      exact inc_step2 pk s _ hP (sp.sSort s _ hP hmem) _
        (fun s1 hP1 _ => ih (i + 1) s1 hP1)
    · simp only [sortIntervalsPass]
      rw [if_neg hi]
      exact resOk_ok _ _ hP

theorem sbInner_inv {C : Ctx} {P : RState → Prop}
    {Q : Err → RState → Prop} {S : RState → List Nat → Prop}
    (pk : InvPack C P Q S) (sp : SPack C P S) (buf : List Nat) (i : Nat)
    (hi : i < buf.length) :
    ∀ gas c s, P s → s.last_data.buffer = buf →
      ResOk P Q (sbInner C buf i gas c s) := by
  intro gas
  induction gas with
  | zero => intro c s hP _; exact resOk_ok _ _ hP
  | succ g ih =>
    intro c s hP hbuf
    have hS1 : S s (buf.take i ++ [c] ++ buf.drop (i + 1)) := by
      have h := sp.sSb s i c (buf.drop (i + 1)) hP
        (by rw [hbuf]; exact hi)
        (by rw [hbuf]; simp [List.length_drop, Nat.sub_sub])
      rwa [hbuf] at h
    simp only [sbInner]
    refine inc_step3 pk s _ hP hS1 _ _ (fun s1 hP1 _ => resOk_ok _ _ hP1) ?_
    intro s1 hP1 hsem1
    have hbuf1 : s1.last_data.buffer = buf := by rw [hsem1.1, hbuf]
    have hP1' : P { s1 with rpos := s1.rpos + (buf.length - i - 1) } :=
      pk.hRpos s1 _ hP1
    have hbuf1' : ({ s1 with rpos := s1.rpos + (buf.length - i - 1) } :
        RState).last_data.buffer = buf := hbuf1
    have hS2 : S { s1 with rpos := s1.rpos + (buf.length - i - 1) }
        (buf.take i ++ [c] ++ (List.range (buf.length - i - 1)).map
          (fun j => C.rnd (s1.rpos + j) % 256)) := by
      have h := sp.sSb { s1 with rpos := s1.rpos + (buf.length - i - 1) } i c
        ((List.range (buf.length - i - 1)).map
          (fun j => C.rnd (s1.rpos + j) % 256)) hP1'
        (by rw [hbuf1']; exact hi)
        (by rw [hbuf1']; simp)
      rwa [hbuf1'] at h
    refine inc_step3 pk _ _ hP1' hS2 _ _
      (fun s2 hP2 _ => resOk_ok _ _ hP2) ?_
    intro s2 hP2 hsem2
    exact ih (c + 1) s2 hP2 (by rw [hsem2.1]; exact hbuf1)

theorem singleBytePass_inv {C : Ctx} {P : RState → Prop}
    {Q : Err → RState → Prop} {S : RState → List Nat → Prop}
    (pk : InvPack C P Q S) (sp : SPack C P S) :
    ∀ fuel i s, P s → ResOk P Q (singleBytePass C fuel i s) := by
  intro fuel
  induction fuel with
  | zero => intro i s hP; exact resOk_err _ _ (pk.hFuel s hP)
  | succ fu ih =>
    intro i s hP
    by_cases hi : i < s.last_data.buffer.length
    · simp only [singleBytePass]
      rw [if_pos hi]
      refine inc_step3 pk s _ hP (sp.sDelByte s i hP hi) _ _
        (fun s1 hP1 _ => ih (i + 1) s1 hP1) ?_
      intro s1 hP1 hsem1
      have hbuf1 : s1.last_data.buffer = s.last_data.buffer := hsem1.1 ▸ rfl
      exact bindR_inv
        (sbInner_inv pk sp s.last_data.buffer i hi
          (s.last_data.buffer.getD i 0) 0 s1 hP1 hbuf1)
        (fun s2 hP2 => ih (i + 1) s2 hP2)
    · simp only [singleBytePass]
      rw [if_neg hi]
      exact resOk_ok _ _ hP

theorem adjSwapPass_inv {C : Ctx} {P : RState → Prop}
    {Q : Err → RState → Prop} {S : RState → List Nat → Prop}
    (pk : InvPack C P Q S) (sp : SPack C P S) :
    ∀ fuel i s, P s → ResOk P Q (adjSwapPass C fuel i s) := by
  intro fuel
  induction fuel with
  | zero => intro i s hP; exact resOk_err _ _ (pk.hFuel s hP)
  | succ fu ih =>
    intro i s hP
    by_cases hi : i + 1 < s.last_data.buffer.length
    · simp only [adjSwapPass]
      rw [if_pos hi]
      by_cases hlt : s.last_data.buffer.getD (i + 1) 0 <
          s.last_data.buffer.getD i 0
      · rw [if_pos hlt]
        exact inc_step2 pk s _ hP (sp.sAdj s i _ _ hP hi) _
          (fun s1 hP1 _ => ih (i + 1) s1 hP1)
      · rw [if_neg hlt]
        exact ih (i + 1) s hP
    · simp only [adjSwapPass]
      rw [if_neg hi]
      exact resOk_ok _ _ hP

theorem borrowInner_inv {C : Ctx} {P : RState → Prop}
    {Q : Err → RState → Prop} {S : RState → List Nat → Prop}
    (pk : InvPack C P Q S) (sp : SPack C P S) (buf : List Nat) (i : Nat)
    (hi : i < buf.length) :
    ∀ j s, j ≤ i → P s → s.last_data.buffer = buf →
      ResOk P Q (borrowInner C buf i j s) := by
  intro j
  induction j with
  | zero => intro s _ hP _; exact resOk_ok _ _ hP
  | succ j ih =>
    intro s hj hP hbuf
    simp only [borrowInner]
    by_cases hpos : 0 < buf.getD (j + 1) 0
    · rw [if_pos hpos]
      have hS : S s (buf.take (j + 1) ++ [buf.getD (j + 1) 0 - 1] ++
          List.replicate (i - (j + 1)) 255 ++ buf.drop (i + 1)) := by
        have h := sp.sBorrow s i (j + 1) (buf.getD (j + 1) 0 - 1) hP
          (by omega) hj (by rw [hbuf]; exact hi)
        rwa [hbuf] at h
      exact inc_step2 pk s _ hP hS _ (fun s1 hP1 _ => resOk_ok _ _ hP1)
    · rw [if_neg hpos]
      exact ih s (by omega) hP hbuf

theorem borrowPass_inv {C : Ctx} {P : RState → Prop}
    {Q : Err → RState → Prop} {S : RState → List Nat → Prop}
    (pk : InvPack C P Q S) (sp : SPack C P S) :
    ∀ fuel i s, P s → ResOk P Q (borrowPass C fuel i s) := by
  intro fuel
  induction fuel with
  | zero => intro i s hP; exact resOk_err _ _ (pk.hFuel s hP)
  | succ fu ih =>
    intro i s hP
    by_cases hi : i < s.last_data.buffer.length
    · simp only [borrowPass]
      rw [if_pos hi]
      refine inc_step3 pk s _ hP (sp.sDelByte s i hP hi) _ _
        (fun s1 hP1 _ => ih (i + 1) s1 hP1) ?_
      intro s1 hP1 hsem1
      have hbuf1 : s1.last_data.buffer = s.last_data.buffer := hsem1.1 ▸ rfl
      by_cases hz : s.last_data.buffer.getD i 0 = 0
      · rw [if_pos hz]
        exact bindR_inv
          (borrowInner_inv pk sp s.last_data.buffer i hi i s1 le_rfl hP1
            hbuf1)
          (fun s2 hP2 => ih (i + 1) s2 hP2)
      · rw [if_neg hz]
        exact ih (i + 1) s1 hP1
    · simp only [borrowPass]
      rw [if_neg hi]
      exact resOk_ok _ _ hP

theorem dLoop_inv {C : Ctx} {P : RState → Prop}
    {Q : Err → RState → Prop} {S : RState → List Nat → Prop}
    (pk : InvPack C P Q S) (sp : SPack C P S) (j k : Nat) (hjk : j < k) :
    ∀ gas d s, P s → k < s.last_data.buffer.length →
      ResOk P Q (dLoop C j k gas d s) := by
  intro gas
  induction gas with
  | zero => intro d s hP _; exact resOk_ok _ _ hP
  | succ g ih =>
    intro d s hP hk
    simp only [dLoop]
    refine inc_step2 pk s _ hP (sp.sPairCur s j k d d hP hjk hk) _ ?_
    intro s1 hP1 hcase
    refine ih (d + 1) s1 hP1 ?_
    rcases hcase with hsem | hbuf
    · rw [hsem.1]; exact hk
    · rw [hbuf, length_pair_cur s.last_data.buffer j k d d hjk hk]
      exact hk

/-- Invariant step through the guarded first proposal of the paired passes:
the continuation learns the buffer length is unchanged. -/
theorem step1_facts {C : Ctx} {P : RState → Prop}
    {Q : Err → RState → Prop} {S : RState → List Nat → Prop}
    (pk : InvPack C P Q S) {α : Type}
    (s : RState) (cand : List Nat) (hP : P s) (hS : S s cand)
    (hlen : cand.length = s.last_data.buffer.length)
    (k : RState → Except Err α × RState)
    (hk : ∀ s1, P s1 →
      s1.last_data.buffer.length = s.last_data.buffer.length →
      ResOk P Q (k s1)) :
    ResOk P Q (match (match incorporate_new_buffer C s cand with
                      | (.ok _, s1) => ((.ok () : Except Err Unit), s1)
                      | (.error e, s1) => (.error e, s1)) with
               | (.error e, s1) => ((.error e : Except Err α), s1)
               | (.ok _, s1) => k s1) := by
  rcases hfst : (incorporate_new_buffer C s cand).1 with e | b
  · have heq : incorporate_new_buffer C s cand =
        (.error e, (incorporate_new_buffer C s cand).2) := by rw [← hfst]
    rw [heq]
    exact resOk_err e _ ((pk.hInc s cand hP hS).2 e hfst)
  · have heq : incorporate_new_buffer C s cand =
        (.ok b, (incorporate_new_buffer C s cand).2) := by rw [← hfst]
    rw [heq]
    refine hk _ ((pk.hInc s cand hP hS).1 b hfst) ?_
    cases b
    · rw [(incorporate_false_sem C s cand hfst).1]
    · rw [incorporate_accepted_buffer C s cand (Or.inl hfst), hlen]

theorem bindR_ok (s : RState) (k : RState → Except Err Unit × RState) :
    bindR (.ok (), s) k = k s := rfl

theorem eqPairsLoop_inv {C : Ctx} {P : RState → Prop}
    {Q : Err → RState → Prop} {S : RState → List Nat → Prop}
    (pk : InvPack C P Q S) (sp : SPack C P S) :
    ∀ ps : List (Nat × Nat), ∀ s, (∀ p ∈ ps, p.1 < p.2) → P s →
      ResOk P Q (eqPairsLoop C ps s) := by
  intro ps
  induction ps with
  | nil => intro s _ hP; exact resOk_ok _ _ hP
  | cons jk rest ih =>
    obtain ⟨j, k⟩ := jk
    intro s hlt hP
    have hjk : j < k := hlt (j, k) (List.mem_cons_self _ _)
    have hrest : ∀ p ∈ rest, p.1 < p.2 :=
      fun p hp => hlt p (List.mem_cons_of_mem _ hp)
    simp only [eqPairsLoop]
    by_cases hkl : s.last_data.buffer.length ≤ k
    · rw [if_pos hkl]
      exact ih s hrest hP
    · rw [if_neg hkl]
      by_cases heq : s.last_data.buffer.getD j 0 =
          s.last_data.buffer.getD k 0
      · rw [if_pos heq]
        by_cases hg : s.last_data.buffer.getD j 0 = 0 ∧ 0 < j ∧
            0 < s.last_data.buffer.getD (j - 1) 0 ∧
            0 < s.last_data.buffer.getD (k - 1) 0
        · rw [if_pos hg]
          have hj2 : j + 2 ≤ k := by
            by_contra hcon
            have hk1 : k - 1 = j := by omega
            have h2 := hg.2.2.2
            rw [hk1, hg.1] at h2
            exact absurd h2 (by omega)
          have hS := sp.sPair1 s s.last_data.buffer j k
            (s.last_data.buffer.getD (j - 1) 0 - 1)
            (s.last_data.buffer.getD (k - 1) 0 - 1)
            hP rfl hg.2.1 hj2 (by omega)
          refine bindR_inv
            (inc_step2 pk s _ hP hS _ (fun s1 hP1 _ => resOk_ok _ _ hP1)) ?_
          intro s1 hP1
          rw [if_neg (by omega : ¬ 0 < s.last_data.buffer.getD j 0)]
          exact ih s1 hrest hP1
        · rw [if_neg hg, bindR_ok]
          by_cases hc : 0 < s.last_data.buffer.getD j 0
          · rw [if_pos hc]
            have hS2 := sp.sPair2 s s.last_data.buffer j k
              (s.last_data.buffer.getD j 0 - 1) hP rfl hjk (by omega)
            refine inc_step3 pk s _ hP hS2 _ _ ?_
              (fun s2 hP2 _ => ih s2 hrest hP2)
            intro s2 hP2 hbuf2
            refine bindR_inv (dLoop_inv pk sp j k hjk
              (s.last_data.buffer.getD j 0 - 1) 0 s2 hP2 ?_)
              (fun s3 hP3 => ih s3 hrest hP3)
            rw [hbuf2,
              length_pair_cur s.last_data.buffer j k _ _ hjk (by omega)]
            omega
          · rw [if_neg hc]
            exact ih s hrest hP
      · rw [if_neg heq]
        exact ih s hrest hP

theorem eqIndices_lt (buf : List Nat) : ∀ p ∈ eqIndices buf, p.1 < p.2 := by
  intro p hp
  simp only [eqIndices, List.mem_flatMap] at hp
  obtain ⟨b, _, hb⟩ := hp
  simp only [pairsOf, List.mem_flatMap] at hb
  obtain ⟨j, _, hj⟩ := hb
  simp only [List.mem_map, List.mem_filter] at hj
  obtain ⟨k, ⟨_, hk⟩, rfl⟩ := hj
  simpa using hk

theorem equalPairsPass_inv {C : Ctx} {P : RState → Prop}
    {Q : Err → RState → Prop} {S : RState → List Nat → Prop}
    (pk : InvPack C P Q S) (sp : SPack C P S) (s : RState) (hP : P s) :
    ResOk P Q (equalPairsPass C s) :=
  eqPairsLoop_inv pk sp (eqIndices s.last_data.buffer) s
    (eqIndices_lt s.last_data.buffer) hP

theorem odInner_inv {C : Ctx} {P : RState → Prop}
    {Q : Err → RState → Prop} {S : RState → List Nat → Prop}
    (pk : InvPack C P Q S) (sp : SPack C P S) (j : Nat) :
    ∀ gas k s, j < k → P s → ResOk P Q (odInner C j gas k s) := by
  intro gas
  induction gas with
  | zero => intro k s _ hP; exact resOk_ok _ _ hP
  | succ g ih =>
    intro k s hjk hP
    simp only [odInner]
    by_cases hkl : s.last_data.buffer.length ≤ k
    · rw [if_pos hkl]
      exact resOk_ok _ _ hP
    · rw [if_neg hkl]
      by_cases hsw : s.last_data.buffer.getD k 0 < s.last_data.buffer.getD j 0
      · rw [if_pos hsw]
        have hS := sp.sPairCur s j k (s.last_data.buffer.getD k 0)
          (s.last_data.buffer.getD j 0) hP hjk (by omega)
        refine bindR_inv
          (inc_step2 pk s _ hP hS _ (fun s1 hP1 _ => resOk_ok _ _ hP1)) ?_
        intro s1 hP1
        by_cases hkl1 : s1.last_data.buffer.length ≤ k
        · rw [if_pos hkl1]
          exact resOk_ok _ _ hP1
        · rw [if_neg hkl1]
          by_cases hpp : 0 < s1.last_data.buffer.getD j 0 ∧
              0 < s1.last_data.buffer.getD k 0
          · rw [if_pos hpp]
            have hS2 := sp.sPairCur s1 j k
              (s1.last_data.buffer.getD j 0 - 1)
              (s1.last_data.buffer.getD k 0 - 1) hP1 hjk (by omega)
            exact inc_step2 pk s1 _ hP1 hS2 _
              (fun s2 hP2 _ => ih (k + 1) s2 (by omega) hP2)
          · rw [if_neg hpp]
            exact ih (k + 1) s1 (by omega) hP1
      · rw [if_neg hsw, bindR_ok]
        by_cases hkl1 : s.last_data.buffer.length ≤ k
        · rw [if_pos hkl1]
          exact resOk_ok _ _ hP
        · rw [if_neg hkl1]
          by_cases hpp : 0 < s.last_data.buffer.getD j 0 ∧
              0 < s.last_data.buffer.getD k 0
          · rw [if_pos hpp]
            have hS2 := sp.sPairCur s j k
              (s.last_data.buffer.getD j 0 - 1)
              (s.last_data.buffer.getD k 0 - 1) hP hjk (by omega)
            exact inc_step2 pk s _ hP hS2 _
              (fun s2 hP2 _ => ih (k + 1) s2 (by omega) hP2)
          · rw [if_neg hpp]
            exact ih (k + 1) s (by omega) hP

theorem odOuter_inv {C : Ctx} {P : RState → Prop}
    {Q : Err → RState → Prop} {S : RState → List Nat → Prop}
    (pk : InvPack C P Q S) (sp : SPack C P S) :
    ∀ gas j s, P s → ResOk P Q (odOuter C gas j s) := by
  intro gas
  induction gas with
  | zero => intro j s hP; exact resOk_ok _ _ hP
  | succ g ih =>
    intro j s hP
    simp only [odOuter]
    by_cases hjl : s.last_data.buffer.length ≤ j
    · rw [if_pos hjl]
      exact resOk_ok _ _ hP
    · rw [if_neg hjl]
      by_cases hz : s.last_data.buffer.getD j 0 = 0
      · rw [if_pos hz]
        exact ih (j + 1) s hP
      · rw [if_neg hz]
        exact bindR_inv
          (odInner_inv pk sp j (s.last_data.buffer.length - (j + 1)) (j + 1)
            s (by omega) hP)
          (fun s1 hP1 => ih (j + 1) s1 hP1)

theorem orderDecPass_inv {C : Ctx} {P : RState → Prop}
    {Q : Err → RState → Prop} {S : RState → List Nat → Prop}
    (pk : InvPack C P Q S) (sp : SPack C P S) (s : RState) (hP : P s) :
    ResOk P Q (orderDecPass C s) :=
  odOuter_inv pk sp s.last_data.buffer.length 0 s hP

theorem pickIntervals_error (ivs : List (Nat × Nat)) (r : Nat → Nat) :
    ∀ fuel p e, pickIntervals ivs r fuel p = .error e → e = .fuelOut := by
  intro fuel
  induction fuel with
  | zero =>
    intro p e h
    simp only [pickIntervals] at h
    injection h with h'
    exact h'.symm
  | succ fu ih =>
    intro p e h
    simp only [pickIntervals] at h
    split_ifs at h
    exact ih _ e h

theorem spliceTail_error (d : TestData) (r : Nat → Nat) (fuel p : Nat)
    (e : Err) (h : spliceTail d r fuel p = .error e) : e = .fuelOut := by
  simp only [spliceTail] at h
  split_ifs at h <;> try cases h
  rcases hpi : pickIntervals d.intervals r fuel (p + 1) with e' | ⟨a, b, p2⟩
  · rw [hpi] at h
    injection h with h'
    rw [← h']
    exact pickIntervals_error d.intervals r fuel (p + 1) e' hpi
  · rw [hpi] at h
    cases h

theorem mutate_error (d : TestData) (r : Nat → Nat) (fuel p : Nat) (e : Err)
    (h : mutate_data_to_new_buffer d r fuel p = .error e) : e = .fuelOut := by
  simp only [mutate_data_to_new_buffer] at h
  split_ifs at h <;> first
    | cases h
    | exact spliceTail_error d r fuel _ e h

theorem zeroWindowPass_inv {C : Ctx} {P : RState → Prop}
    {Q : Err → RState → Prop} {S : RState → List Nat → Prop}
    (pk : InvPack C P Q S) (sp : SPack C P S) (s : RState) (hP : P s) :
    ResOk P Q (zeroWindowPass C s) :=
  zwLoop_inv pk sp (s.last_data.buffer.length - 8) 0 s hP

theorem genLoop_inv {C : Ctx} {P : RState → Prop}
    {Q : Err → RState → Prop} {S : RState → List Nat → Prop}
    (pk : InvPack C P Q S) (sp : SPack C P S) :
    ∀ fuel muts gen s, P s → ResOk P Q (genLoop C fuel muts gen s) := by
  intro fuel
  induction fuel with
  | zero => intro m g s hP; exact resOk_err _ _ (pk.hFuel s hP)
  | succ fu ih =>
    intro m g s hP
    simp only [genLoop]
    by_cases hint : s.last_data.status = .interesting
    · rw [if_pos hint]
      exact resOk_ok _ _ hP
    · rw [if_neg hint]
      by_cases hm : C.st.mutations ≤ m
      · rw [if_pos hm]
        by_cases hg : C.st.generations ≤ g + 1
        · rw [if_pos hg]
          exact resOk_ok _ _ hP
        · rw [if_neg hg]
          rcases hmut : mutate_data_to_new_buffer s.last_data C.rnd fu s.rpos
            with e | ⟨b, p⟩
          · have he : e = .fuelOut := mutate_error _ _ _ _ _ hmut
            subst he
            exact resOk_err _ _ (pk.hFuel s hP)
          · have hP' : P { s with rpos := p } := pk.hRpos s p hP
            have hS : S { s with rpos := p } b := sp.sMut _ b hP' hint
            exact inc_step2 pk _ b hP' hS _
              (fun s1 hP1 _ => ih 1 (g + 1) s1 hP1)
      · rw [if_neg hm]
        exact ih (m + 1) g (new_buffer C s) (pk.hNew s hP)

theorem outerLoop_inv {C : Ctx} {P : RState → Prop}
    {Q : Err → RState → Prop} {S : RState → List Nat → Prop}
    (pk : InvPack C P Q S) (sp : SPack C P S) :
    ∀ fuel ic cc s, P s → ResOk P Q (outerLoop C fuel ic cc s) := by
  intro fuel
  induction fuel with
  | zero => intro ic cc s hP; exact resOk_err _ _ (pk.hFuel s hP)
  | succ fu ih =>
    intro ic cc s hP
    simp only [outerLoop]
    by_cases hcond : s.changed ≤ ic + C.st.max_shrinks ∧ cc < (s.changed : Int)
    · rw [if_pos hcond]
      by_cases hint : s.last_data.status = .interesting
      · rw [if_pos hint]
        refine bindR_inv (delIntervalsFix_inv pk sp fu (-1) s hP)
          (fun s1 hP1 => ?_)
        refine bindR_inv (sortIntervalsPass_inv pk sp fu 0 s1 hP1)
          (fun s2 hP2 => ?_)
        refine bindR_inv (zeroWindowPass_inv pk sp s2 hP2)
          (fun s3 hP3 => ?_)
        refine bindR_inv (singleBytePass_inv pk sp fu 0 s3 hP3)
          (fun s4 hP4 => ?_)
        refine bindR_inv (adjSwapPass_inv pk sp fu 0 s4 hP4)
          (fun s5 hP5 => ?_)
        by_cases h5 : s.changed < s5.changed
        · rw [if_pos h5]
          exact ih ic _ s5 hP5
        · rw [if_neg h5]
          refine bindR_inv (borrowPass_inv pk sp fu 0 s5 hP5)
            (fun s6 hP6 => ?_)
          by_cases h6 : s.changed < s6.changed
          · rw [if_pos h6]
            exact ih ic _ s6 hP6
          · rw [if_neg h6]
            refine bindR_inv (equalPairsPass_inv pk sp s6 hP6)
              (fun s7 hP7 => ?_)
            by_cases h7 : s.changed < s7.changed
            · rw [if_pos h7]
              exact ih ic _ s7 hP7
            · rw [if_neg h7]
              refine bindR_inv (orderDecPass_inv pk sp s7 hP7)
                (fun s8 hP8 => ?_)
              exact ih ic _ s8 hP8
      · rw [if_neg hint]
        exact resOk_err _ _ (pk.hStatus s hP)
    · rw [if_neg hcond]
      exact resOk_ok _ _ hP

theorem tr_run_inv {C : Ctx} {P : RState → Prop}
    {Q : Err → RState → Prop} {S : RState → List Nat → Prop}
    (pk : InvPack C P Q S) (sp : SPack C P S) (fuel : Nat)
    (hInit : P (new_buffer C (initState C))) :
    ResOk P Q (tr_run C fuel) := by
  simp only [tr_run]
  obtain ⟨hok, herr⟩ := genLoop_inv pk sp fuel 0 0 _ hInit
  rcases hfst : (genLoop C fuel 0 0 (new_buffer C (initState C))).1
    with e | b
  · have heq : genLoop C fuel 0 0 (new_buffer C (initState C)) =
        (.error e, (genLoop C fuel 0 0 (new_buffer C (initState C))).2) := by
      rw [← hfst]
    rw [heq]
    exact resOk_err _ _ (herr e hfst)
  · have heq : genLoop C fuel 0 0 (new_buffer C (initState C)) =
        (.ok b, (genLoop C fuel 0 0 (new_buffer C (initState C))).2) := by
      rw [← hfst]
    rw [heq]
    cases b
    · exact resOk_ok _ _ (hok false hfst)
    · exact outerLoop_inv pk sp fuel _ (-1) _ (hok true hfst)

/-! ### C4: the length assert in the acceptor never fails -/

theorem c4_pack (C : Ctx) (hwf : wfCtx C) :
    InvPack C (fun s => ∀ p ∈ s.last_data.intervals, p.1 ≤ p.2)
      (fun e _ => e ≠ .assertLen)
      (fun s b => s.last_data.status = .interesting →
        b.length ≤ s.last_data.buffer.length) := by
  constructor
  · intro s b hP hS
    rcases incorporate_trichotomy C s b with ⟨hf, hsem⟩ |
      ⟨hf, hsem, hcons⟩ | ⟨hcons, hlast, hbuf, _, _, _, _, hfin⟩
    · constructor
      · intro a _
        rw [hsem.1]
        exact hP
      · intro e he
        rw [hf] at he
        cases he
    · exfalso
      obtain ⟨hintL, _, hlen⟩ := consider_none_facts _ _ hcons
      have hle := hS hintL
      simp only [runTest] at hlen
      omega
    · constructor
      · intro a _
        rw [hlast]
        intro pq hpq
        exact hwf b pq hpq
      · intro e he
        rcases hfin with ⟨hok2, _⟩ | ⟨hst, _⟩
        · rw [hok2] at he
          cases he
        · rw [hst] at he
          injection he with h'
          rw [← h']
          simp
  · intro s _
    simp
  · intro s _
    simp
  · intro s _ pq hpq
    exact hwf _ pq hpq
  · intro s p hP
    exact hP

theorem c4_spack (C : Ctx) :
    SPack C (fun s => ∀ p ∈ s.last_data.intervals, p.1 ≤ p.2)
      (fun s b => s.last_data.status = .interesting →
        b.length ≤ s.last_data.buffer.length) := by
  constructor
  · intro s p hP hmem _
    exact length_del_slice _ _ _ (hP p hmem)
  · intro s p hP hmem _
    exact length_sort_slice _ _ _ (hP p hmem)
  · intro s i _ hi _
    exact le_of_eq (length_zw _ _ hi)
  · intro s i _ hi _
    exact length_del_slice _ i (i + 1) (by omega)
  · intro s i c t _ hi ht _
    exact le_of_eq (length_sb _ i c t hi ht)
  · intro s i x y _ hi _
    exact le_of_eq (length_adj _ i x y hi)
  · intro s i j x _ h1 h2 h3 _
    exact le_of_eq (length_borrow _ i j x h1 h2 h3)
  · intro s buf j k x y _ hlen h1 h2 hk _
    rw [hlen]
    exact le_of_eq (length_pair1 buf j k x y h1 h2 hk)
  · intro s buf j k x _ hlen hjk hk _
    rw [hlen]
    exact le_of_eq (length_pair_cur buf j k x x hjk hk)
  · intro s j k x y _ hjk hk _
    exact le_of_eq (length_pair_cur _ j k x y hjk hk)
  · intro s b _ hni hint
    exact absurd hint hni

/-- C4. With the interval invariant of TestData, no execution of the
engine ever fails the length assert on the equal INTERESTING branch of the
acceptor: every candidate proposed while last_data is INTERESTING is no
longer than the current buffer. -/
theorem c4_assert_never_fails (C : Ctx) (fuel : Nat) (hwf : wfCtx C) :
    (tr_run C fuel).1 ≠ .error .assertLen := by
  obtain ⟨_, herr⟩ := tr_run_inv (c4_pack C hwf) (c4_spack C) fuel
    (fun pq hpq => hwf _ pq hpq)
  intro hcon
  exact (herr _ hcon) rfl

/-- Witness for C4 at a concrete context whose callback records no
intervals. -/
theorem c4_witness :
    wfCtx C9x ∧ (tr_run C9x 10).1 ≠ .error .assertLen :=
  ⟨fun b p hp => absurd hp (by simp [C9x, fValid]),
   c4_assert_never_fails C9x 10
     (fun b p hp => absurd hp (by simp [C9x, fValid]))⟩

/-! ### C3: the shrink budget with a positive max_shrinks -/

theorem c3_pack (C : Ctx) (hmax : 1 ≤ C.st.max_shrinks) :
    InvPack C
      (fun s => s.shrinks < C.st.max_shrinks ∧
        s.trace.getLast? = some s.last_data)
      (fun e s => s.shrinks ≤ C.st.max_shrinks ∧
        s.trace.getLast? = some s.last_data ∧
        (e = .stop → s.last_data.status = .interesting ∧
          s.shrinks = C.st.max_shrinks))
      (fun _ _ => True) := by
  constructor
  · intro s b hP _
    obtain ⟨hP1, hP2⟩ := hP
    rcases incorporate_trichotomy C s b with ⟨hf, hsem⟩ | ⟨hf, hsem, _⟩ |
      ⟨hcons, hlast, hbuf, hch, hshr, hrp, htr, hfin⟩
    · obtain ⟨hl, _, hsh, _, _, ht⟩ := hsem
      constructor
      · intro a _
        exact ⟨by rw [hsh]; exact hP1, by rw [ht, hl]; exact hP2⟩
      · intro e he
        rw [hf] at he
        cases he
    · obtain ⟨hl, _, hsh, _, _, ht⟩ := hsem
      constructor
      · intro a ha
        rw [hf] at ha
        cases ha
      · intro e he
        rw [hf] at he
        injection he with h'
        subst h'
        refine ⟨by rw [hsh]; omega, by rw [ht, hl]; exact hP2, ?_⟩
        intro hcon
        cases hcon
    · constructor
      · intro a ha
        rcases hfin with ⟨hok2, hlt⟩ | ⟨hst, _⟩
        · refine ⟨by omega, ?_⟩
          rw [htr, hlast]
          exact List.getLast?_concat _
        · rw [hst] at ha
          cases ha
      · intro e he
        rcases hfin with ⟨hok2, _⟩ | ⟨hst, hge⟩
        · rw [hok2] at he
          cases he
        · rw [hst] at he
          injection he with h'
          subst h'
          by_cases hint : s.last_data.status = .interesting
          · rw [if_pos hint] at hshr
            refine ⟨by omega, by rw [htr, hlast]; exact List.getLast?_concat _, ?_⟩
            intro _
            refine ⟨?_, by omega⟩
            rw [hlast]
            exact (consider_accept_interesting _ _ hint hcons).1
          · rw [if_neg hint] at hshr
            exact absurd hge (by omega)
  · intro s hP
    exact ⟨le_of_lt hP.1, hP.2, fun hcon => nomatch hcon⟩
  · intro s hP
    exact ⟨le_of_lt hP.1, hP.2, fun hcon => nomatch hcon⟩
  · intro s hP
    exact ⟨hP.1, List.getLast?_concat _⟩
  · intro s p hP
    exact hP

theorem c3_spack (C : Ctx) :
    SPack C
      (fun s => s.shrinks < C.st.max_shrinks ∧
        s.trace.getLast? = some s.last_data)
      (fun _ _ => True) := by
  constructor <;> intros <;> trivial

/-- C3 amended. With a positive shrink budget, the count of accepted
transitions whose previous last_data was INTERESTING never exceeds
max_shrinks, and when the StopShrinking signal unwinds to the run boundary
the engine finalizes with the state at the raise: its last_data is the most
recently accepted candidate, it is INTERESTING, and the budget is exactly
spent. -/
theorem c3_amended_budget (C : Ctx) (fuel : Nat)
    (hmax : 1 ≤ C.st.max_shrinks) :
    (∀ s, runnerRun C fuel = .ok s →
       s.shrinks ≤ C.st.max_shrinks ∧
       s.trace.getLast? = some s.last_data) ∧
    (∀ s, tr_run C fuel = (.error .stop, s) →
       runnerRun C fuel = .ok s ∧ s.last_data.status = .interesting ∧
       s.shrinks = C.st.max_shrinks ∧
       s.trace.getLast? = some s.last_data) := by
  have hInit : (new_buffer C (initState C)).shrinks < C.st.max_shrinks ∧
      (new_buffer C (initState C)).trace.getLast? =
        some (new_buffer C (initState C)).last_data := by
    constructor
    · show (0 : Nat) < C.st.max_shrinks
      omega
    · exact List.getLast?_concat _
  obtain ⟨hok, herr⟩ := tr_run_inv (c3_pack C hmax) (c3_spack C) fuel hInit
  constructor
  · intro s hs
    rcases hfst : (tr_run C fuel).1 with e | b
    · have heq : tr_run C fuel = (.error e, (tr_run C fuel).2) := by
        rw [← hfst]
      cases e
      case stop =>
        have hrr : runnerRun C fuel = .ok (tr_run C fuel).2 := by
          unfold runnerRun
          rw [heq]
        rw [hrr] at hs
        injection hs with h'
        subst h'
        obtain ⟨hq1, hq2, _⟩ := herr .stop hfst
        exact ⟨hq1, hq2⟩
      all_goals
        first
        | (have hrr : runnerRun C fuel = .error .assertLen := by
             unfold runnerRun
             rw [heq]
           rw [hrr] at hs
           cases hs)
        | (have hrr : runnerRun C fuel = .error .assertStatus := by
             unfold runnerRun
             rw [heq]
           rw [hrr] at hs
           cases hs)
        | (have hrr : runnerRun C fuel = .error .fuelOut := by
             unfold runnerRun
             rw [heq]
           rw [hrr] at hs
           cases hs)
    · have heq : tr_run C fuel = (.ok b, (tr_run C fuel).2) := by
        rw [← hfst]
      have hrr : runnerRun C fuel = .ok (tr_run C fuel).2 := by
        unfold runnerRun
        rw [heq]
      rw [hrr] at hs
      injection hs with h'
      subst h'
      obtain ⟨h1, h2⟩ := hok b hfst
      exact ⟨le_of_lt h1, h2⟩
  · intro s htr
    have hfst : (tr_run C fuel).1 = .error .stop := by rw [htr]
    obtain ⟨hq1, hq2, hq3⟩ := herr .stop hfst
    have hsnd : (tr_run C fuel).2 = s := by rw [htr]
    rw [hsnd] at hq1 hq2 hq3
    obtain ⟨hi, hm⟩ := hq3 rfl
    refine ⟨?_, hi, hm, hq2⟩
    unfold runnerRun
    rw [htr]

/-- Witness for the amended C3 at a concrete run that ends normally. -/
theorem c3_amended_witness :
    1 ≤ C9x.st.max_shrinks ∧
    ((tr_run C9x 10).2.shrinks ≤ C9x.st.max_shrinks ∧
     (tr_run C9x 10).2.trace.getLast? =
       some (tr_run C9x 10).2.last_data) :=
  ⟨by decide,
   (c3_amended_budget C9x 10 (by decide)).1 (tr_run C9x 10).2 (by rfl)⟩

/-! ### C8: the default run of an always-interesting callback -/

theorem runTest_const (C : Ctx)
    (hf : ∀ b, C.f b = ⟨0, 0, [], .interesting⟩) (b : List Nat) :
    runTest C b = ⟨b, 0, 0, [], .interesting⟩ := by
  unfold runTest
  rw [hf b]

theorem rep_delete (L i : Nat) (hi : i < L) :
    (List.replicate L (0 : Nat)).take i ++
      (List.replicate L (0 : Nat)).drop (i + 1) =
    List.replicate (L - 1) (0 : Nat) := by
  rw [List.take_replicate, List.drop_replicate, ← List.replicate_add]
  congr 1
  omega

theorem rep_zw (L i : Nat) (h : i + 8 ≤ L) :
    (List.replicate L (0 : Nat)).take i ++ List.replicate 8 0 ++
      (List.replicate L (0 : Nat)).drop (i + 8) =
    List.replicate L (0 : Nat) := by
  rw [List.take_replicate, List.drop_replicate, ← List.replicate_add,
    ← List.replicate_add]
  congr 1
  omega

theorem rep_ne_shorter (L : Nat) (h : 1 ≤ L) :
    List.replicate (L - 1) (0 : Nat) ≠ List.replicate L 0 := by
  intro hcon
  have hlen := congrArg List.length hcon
  simp only [List.length_replicate] at hlen
  omega

theorem keyLt_rep (L : Nat) (h : 1 ≤ L) :
    interestKeyLt ⟨List.replicate (L - 1) 0, 0, 0, [], .interesting⟩
      ⟨List.replicate L 0, 0, 0, [], .interesting⟩ = true := by
  unfold interestKeyLt keyLt interest_key
  simp only [List.length_replicate, List.length_nil]
  have hlt : L - 1 < L := by omega
  simp [hlt]

theorem consider_rep_lt (L : Nat) (h : 1 ≤ L) :
    consider_new_test_data ⟨List.replicate L 0, 0, 0, [], .interesting⟩
      ⟨List.replicate (L - 1) 0, 0, 0, [], .interesting⟩ = some true := by
  unfold consider_new_test_data
  simp only [Status.toNat, lt_irrefl, if_false, List.length_replicate]
  rw [if_neg (by simp), if_neg (by simp), if_pos trivial,
    if_pos (by omega : L - 1 ≤ L), keyLt_rep L h]

theorem genLoop_interesting (C : Ctx) (fuel m g : Nat) (s : RState)
    (hfuel : 1 ≤ fuel) (hint : s.last_data.status = .interesting) :
    genLoop C fuel m g s = (.ok true, s) := by
  obtain ⟨fu, rfl⟩ : ∃ fu, fuel = fu + 1 := ⟨fuel - 1, by omega⟩
  simp only [genLoop]
  rw [if_pos hint]

theorem delInner_empty (C : Ctx) (fuel : Nat) (s : RState)
    (hfuel : 1 ≤ fuel) (h : s.last_data.intervals = []) :
    delIntervalsInner C fuel 0 s = (.ok (), s) := by
  obtain ⟨fu, rfl⟩ : ∃ fu, fuel = fu + 1 := ⟨fuel - 1, by omega⟩
  simp only [delIntervalsInner]
  rw [if_neg (by rw [h]; simp)]

theorem delFix_empty (C : Ctx) (fuel : Nat) (s : RState)
    (hfuel : 2 ≤ fuel) (h : s.last_data.intervals = []) :
    delIntervalsFix C fuel (-1) s = (.ok (), s) := by
  obtain ⟨fu, rfl⟩ : ∃ fu, fuel = fu + 2 := ⟨fuel - 2, by omega⟩
  simp only [delIntervalsFix]
  rw [if_pos (by omega : (-1 : Int) < (s.changed : Int)),
    delInner_empty C (fu + 1) s (by omega) h]
  show delIntervalsFix C (fu + 1) (s.changed : Int) s = (.ok (), s)
  simp only [delIntervalsFix]
  rw [if_neg (by omega)]

theorem sortPass_empty (C : Ctx) (fuel : Nat) (s : RState)
    (hfuel : 1 ≤ fuel) (h : s.last_data.intervals = []) :
    sortIntervalsPass C fuel 0 s = (.ok (), s) := by
  obtain ⟨fu, rfl⟩ : ∃ fu, fuel = fu + 1 := ⟨fuel - 1, by omega⟩
  simp only [sortIntervalsPass]
  rw [if_neg (by rw [h]; simp)]

theorem zwLoop_allzero (C : Ctx) (L : Nat) :
    ∀ gas i s, s.last_data.buffer = List.replicate L 0 →
      ∃ s3, zwLoop C gas i s = (.ok (), s3) ∧ semEq s s3 := by
  intro gas
  induction gas with
  | zero =>
    intro i s hbuf
    exact ⟨s, rfl, semEq_refl s⟩
  | succ g ih =>
    intro i s hbuf
    by_cases hnb : s.last_data.buffer.length < i + 8
    · refine ⟨s, ?_, semEq_refl s⟩
      simp only [zwLoop]
      rw [if_pos hnb]
    · have hle : i + 8 ≤ L := by
        rw [hbuf] at hnb
        simp only [List.length_replicate] at hnb
        omega
      have hcand : s.last_data.buffer.take i ++ List.replicate 8 0 ++
          s.last_data.buffer.drop (i + 8) = s.last_data.buffer := by
        rw [hbuf]
        exact rep_zw L i hle
      have hstep := incorporate_rejected_sem C s
        (s.last_data.buffer.take i ++ List.replicate 8 0 ++
         s.last_data.buffer.drop (i + 8)) (Or.inl hcand)
      obtain ⟨hfst, hsem, _⟩ := hstep
      have heq : incorporate_new_buffer C s
          (s.last_data.buffer.take i ++ List.replicate 8 0 ++
           s.last_data.buffer.drop (i + 8)) =
          (.ok false, (incorporate_new_buffer C s
            (s.last_data.buffer.take i ++ List.replicate 8 0 ++
             s.last_data.buffer.drop (i + 8))).2) := by
        rw [← hfst]
      obtain ⟨s3, h3, hsem3⟩ := ih (i + 1)
        (incorporate_new_buffer C s
          (s.last_data.buffer.take i ++ List.replicate 8 0 ++
           s.last_data.buffer.drop (i + 8))).2
        (by rw [hsem.1, hbuf])
      refine ⟨s3, ?_, semEq_trans hsem hsem3⟩
      simp only [zwLoop]
      rw [if_neg hnb, heq]
      exact h3

theorem zeroWindowPass_allzero (C : Ctx) (L : Nat) (s : RState)
    (hbuf : s.last_data.buffer = List.replicate L 0) :
    ∃ s3, zeroWindowPass C s = (.ok (), s3) ∧ semEq s s3 :=
  zwLoop_allzero C L (s.last_data.buffer.length - 8) 0 s hbuf

/-- On an all-zero interesting buffer, the single-byte deletion loop
accepts one deletion per position until the shrink budget raises stop. -/
theorem sb_allzero_run (C : Ctx)
    (hf : ∀ b, C.f b = ⟨0, 0, [], .interesting⟩) :
    ∀ B fuel i s L, 1 ≤ B → B ≤ fuel →
      s.last_data = ⟨List.replicate L 0, 0, 0, [], .interesting⟩ →
      s.shrinks + B = C.st.max_shrinks →
      i + 2 * B ≤ L →
      ∃ s', singleBytePass C fuel i s = (.error .stop, s') ∧
        s'.last_data = ⟨List.replicate (L - B) 0, 0, 0, [], .interesting⟩ ∧
        s'.shrinks = C.st.max_shrinks := by
  intro B
  induction B with
  | zero => intro fuel i s L h1; exact absurd h1 (by omega)
  | succ B ih =>
    intro fuel i s L h1 hfuel hlast hbudget hlen
    obtain ⟨fu, rfl⟩ : ∃ fu, fuel = fu + 1 := ⟨fuel - 1, by omega⟩
    have hbufeq : s.last_data.buffer = List.replicate L 0 := by rw [hlast]
    have hi : i < s.last_data.buffer.length := by
      rw [hbufeq]
      simp only [List.length_replicate]
      omega
    have hint : s.last_data.status = .interesting := by rw [hlast]
    have hcand : s.last_data.buffer.take i ++
        s.last_data.buffer.drop (i + 1) = List.replicate (L - 1) 0 := by
      rw [hbufeq]
      exact rep_delete L i (by rw [hbufeq] at hi; simpa using hi)
    have hne : s.last_data.buffer.take i ++
        s.last_data.buffer.drop (i + 1) ≠ s.last_data.buffer := by
      rw [hcand, hbufeq]
      exact rep_ne_shorter L (by omega)
    have hcons : consider_new_test_data s.last_data
        (runTest C (s.last_data.buffer.take i ++
          s.last_data.buffer.drop (i + 1))) = some true := by
      rw [runTest_const C hf, hcand, hlast]
      exact consider_rep_lt L (by omega)
    simp only [singleBytePass]
    rw [if_pos hi, incorporate_accept C s _ hne hcons, if_pos hint]
    by_cases hB0 : B = 0
    · subst hB0
      rw [if_pos (by omega : C.st.max_shrinks ≤ s.shrinks + 1)]
      refine ⟨_, rfl, ?_, ?_⟩
      · show runTest C (s.last_data.buffer.take i ++
          s.last_data.buffer.drop (i + 1)) = _
        rw [runTest_const C hf, hcand]
      · show s.shrinks + 1 = C.st.max_shrinks
        omega
    · rw [if_neg (by omega : ¬ C.st.max_shrinks ≤ s.shrinks + 1)]
      have harith : L - (B + 1) = L - 1 - B := by omega
      rw [harith]
      refine ih fu (i + 1) _ (L - 1) (by omega) (by omega) ?_ ?_ (by omega)
      · show runTest C (s.last_data.buffer.take i ++
          s.last_data.buffer.drop (i + 1)) = _
        rw [runTest_const C hf, hcand]
      · show s.shrinks + 1 + B = C.st.max_shrinks
        omega

/-- One outer sweep of the shrink loop on an all-zero interesting buffer
with an empty interval list reaches the single-byte pass unchanged and
raises stop there once the budget is spent. -/
theorem c8_outer (C : Ctx) (hf : ∀ b, C.f b = ⟨0, 0, [], .interesting⟩)
    (L B : Nat) (s : RState) (fuel : Nat)
    (hlast : s.last_data = ⟨List.replicate L 0, 0, 0, [], .interesting⟩)
    (hB : s.shrinks + B = C.st.max_shrinks) (h1 : 1 ≤ B) (h2B : 2 * B ≤ L)
    (hfuel : B + 3 ≤ fuel) :
    ∃ s', outerLoop C fuel s.changed (-1) s = (.error .stop, s') ∧
      s'.last_data = ⟨List.replicate (L - B) 0, 0, 0, [], .interesting⟩ ∧
      s'.shrinks = C.st.max_shrinks := by
  obtain ⟨fu, rfl⟩ : ∃ fu, fuel = fu + 1 := ⟨fuel - 1, by omega⟩
  have hivs : s.last_data.intervals = [] := by rw [hlast]
  have hint : s.last_data.status = .interesting := by rw [hlast]
  have hbufeq : s.last_data.buffer = List.replicate L 0 := by rw [hlast]
  simp only [outerLoop]
  rw [if_pos ⟨by omega, by omega⟩, if_pos hint,
    delFix_empty C fu s (by omega) hivs, bindR_ok,
    sortPass_empty C fu s (by omega) hivs, bindR_ok]
  obtain ⟨s3, hzw, hsem3⟩ := zeroWindowPass_allzero C L s hbufeq
  rw [hzw, bindR_ok]
  obtain ⟨s', hsb, hlast', hshr'⟩ := sb_allzero_run C hf B fu 0 s3 L h1
    (by omega) (by rw [hsem3.1]; exact hlast)
    (by rw [hsem3.2.2.1]; exact hB) (by omega)
  rw [hsb]
  exact ⟨s', rfl, hlast', hshr'⟩

theorem c8_newbuf :
    newBufferBytes C8x (initState C8x) = List.replicate 8192 0 := by
  have h1 : (initState C8x).fill_size = 8 := rfl
  have h2 : (initState C8x).rpos = 0 := rfl
  unfold newBufferBytes
  rw [h1, h2]
  have h3 : (fun j => C8x.rnd (0 + j) % 256) = (fun _ : Nat => (0 : Nat)) :=
    rfl
  rw [h3, List.map_const', List.length_range, ← List.replicate_add]
  have h4 : 8 + (C8x.st.buffer_size - 8) = 8192 := rfl
  rw [h4]

theorem c8_s1_last :
    (new_buffer C8x (initState C8x)).last_data =
      ⟨List.replicate 8192 0, 0, 0, [], .interesting⟩ := by
  show runTest C8x (newBufferBytes C8x (initState C8x)) = _
  rw [runTest_const C8x (fun _ => rfl), c8_newbuf]

theorem c8_tr_run : ∃ s', tr_run C8x 20000 = (.error .stop, s') ∧
    s'.last_data = ⟨List.replicate 6192 0, 0, 0, [], .interesting⟩ ∧
    s'.shrinks = 2000 := by
  simp only [tr_run]
  rw [genLoop_interesting C8x 20000 0 0 _ (by omega) (by rw [c8_s1_last])]
  obtain ⟨s', ho, h1, h2⟩ := c8_outer C8x (fun _ => rfl) 8192 2000
    (new_buffer C8x (initState C8x)) 20000 c8_s1_last rfl (by omega)
    (by omega) (by omega)
  have harith : (8192 - 2000 : Nat) = 6192 := by norm_num
  rw [harith] at h1
  exact ⟨s', ho, h1, h2⟩

theorem runnerRun_of_stop (C : Ctx) (fuel : Nat) (s : RState)
    (h : tr_run C fuel = (.error .stop, s)) : runnerRun C fuel = .ok s := by
  unfold runnerRun
  rw [h]

theorem find_of_ok (C : Ctx) (fuel : Nat) (s : RState)
    (h : runnerRun C fuel = .ok s)
    (hst : s.last_data.status = .interesting) :
    find_interesting_buffer C fuel = .ok (some s.last_data.buffer) := by
  unfold find_interesting_buffer
  rw [h]
  show Except.ok (if s.last_data.status = Status.interesting
    then some s.last_data.buffer else none) = _
  rw [if_pos hst]

theorem c8_find_eq :
    find_interesting_buffer C8x 20000 =
      .ok (some (List.replicate 6192 0)) := by
  obtain ⟨s', htr, h1, _⟩ := c8_tr_run
  have hst : s'.last_data.status = .interesting := by rw [h1]
  have hbuf : s'.last_data.buffer = List.replicate 6192 0 := by rw [h1]
  rw [find_of_ok C8x 20000 s' (runnerRun_of_stop C8x 20000 s' htr) hst, hbuf]

/-- C8 counterexample. With the default Settings and the always-interesting
callback that reads nothing, run on the all-zeros oracle, the shrink budget
of 2000 is exhausted while the buffer still has 6192 bytes: the returned
buffer is not the empty buffer the claim requires. -/
theorem c8_counterexample :
    find_interesting_buffer C8x 20000 =
      .ok (some (List.replicate 6192 0)) ∧
    C8x.st = defaultSettings ∧
    (List.replicate 6192 (0 : Nat)) ≠ [] := by
  refine ⟨c8_find_eq, rfl, fun hc => ?_⟩
  have hlen := congrArg List.length hc
  rw [List.length_replicate, List.length_nil] at hlen
  exact absurd hlen (by norm_num)

/-- C8 amended. With default Settings the first candidate of the
always-interesting callback is indeed interesting, but because the default
buffer_size 8192 exceeds the default max_shrinks 2000, single-byte deletion
stops when the budget is spent: find_interesting_buffer returns the
all-zero buffer of length 8192 - 2000 = 6192 rather than the empty buffer;
the empty buffer is reached only when the budget covers the whole buffer
length. -/
theorem c8_amended_budget_truncation :
    (new_buffer C8x (initState C8x)).last_data.status = .interesting ∧
    C8x.st.max_shrinks = 2000 ∧ C8x.st.buffer_size = 8 * 1024 ∧
    find_interesting_buffer C8x 20000 =
      .ok (some (List.replicate (8 * 1024 - 2000) 0)) := by
  refine ⟨by rw [c8_s1_last], rfl, rfl, ?_⟩
  have harith : (8 * 1024 - 2000 : Nat) = 6192 := by norm_num
  rw [harith]
  exact c8_find_eq

/-! ### C6: termination of the shrink phase -/

theorem termStep_keep {C : Ctx} {α : Type} (s t : RState) (x : Except Err α)
    (h1 : t.last_data = s.last_data) (h2 : t.shrinks = s.shrinks)
    (h3 : t.changed = s.changed)
    (hint : s.last_data.status = .interesting) :
    TermStep C s (x, t) := by
  refine ⟨?_, ?_, ?_, ?_⟩
  · show s.shrinks ≤ t.shrinks
    omega
  · show t.changed + s.shrinks = s.changed + t.shrinks
    omega
  · intro _
    show t.last_data = s.last_data
    exact h1
  · intro a _
    refine ⟨Or.inl h2, ?_⟩
    show t.last_data.status = .interesting
    rw [h1]
    exact hint

theorem termStep_of_semEq {C : Ctx} {α : Type} {s : RState}
    {r : Except Err α × RState} (hsem : semEq s r.2)
    (hint : s.last_data.status = .interesting) : TermStep C s r := by
  obtain ⟨e1, e2, e3, _, _, _⟩ := hsem
  exact ⟨le_of_eq e3.symm, by omega, fun _ => e1,
    fun a _ => ⟨Or.inl e3, by rw [e1]; exact hint⟩⟩

theorem termStep_trans {C : Ctx} {α β : Type} {s t : RState} {a : α}
    {r : Except Err β × RState}
    (h1 : TermStep C s ((Except.ok a : Except Err α), t))
    (h2 : TermStep C t r) : TermStep C s r := by
  have a1 : s.shrinks ≤ t.shrinks := h1.1
  have a2 : t.changed + s.shrinks = s.changed + t.shrinks := h1.2.1
  have a3 : t.shrinks = s.shrinks → t.last_data = s.last_data := h1.2.2.1
  have a4 : (t.shrinks = s.shrinks ∨ t.shrinks < C.st.max_shrinks) ∧
      t.last_data.status = .interesting := h1.2.2.2 a rfl
  obtain ⟨b1, b2, b3, b4⟩ := h2
  refine ⟨by omega, by omega, ?_, ?_⟩
  · intro h
    rw [b3 (by omega), a3 (by omega)]
  · intro b hb
    obtain ⟨hd, hi⟩ := b4 b hb
    refine ⟨?_, hi⟩
    rcases hd with hd | hd
    · rcases a4.1 with h' | h'
      · exact Or.inl (by omega)
      · exact Or.inr (by omega)
    · exact Or.inr hd

theorem termStep_err {C : Ctx} {α β : Type} {s t : RState} {e : Err}
    (h : TermStep C s ((Except.error e : Except Err α), t)) :
    TermStep C s ((Except.error e : Except Err β), t) := by
  have h1 : s.shrinks ≤ t.shrinks := h.1
  have h2 : t.changed + s.shrinks = s.changed + t.shrinks := h.2.1
  have h3 : t.shrinks = s.shrinks → t.last_data = s.last_data := h.2.2.1
  refine ⟨h1, h2, h3, ?_⟩
  intro a ha
  simp at ha

theorem tg_ok {C : Ctx} {E : Err → Prop} {α : Type} (s : RState)
    (a : α) (hint : s.last_data.status = .interesting) :
    TGoodE C E s ((.ok a : Except Err α), s) := by
  refine ⟨termStep_keep s s _ rfl rfl rfl hint, ?_⟩
  intro e he
  simp at he

theorem tg_triv {C : Ctx} {α : Type} (s : RState) (x : Except Err α)
    (hint : s.last_data.status = .interesting) :
    TGoodE C (fun _ => True) s (x, s) :=
  ⟨termStep_keep s s x rfl rfl rfl hint, fun _ _ => trivial⟩

theorem tg_mono_E {C : Ctx} {E F : Err → Prop} {α : Type} {s : RState}
    {r : Except Err α × RState} (hE : ∀ e, E e → F e)
    (h : TGoodE C E s r) : TGoodE C F s r :=
  ⟨h.1, fun e he => hE e (h.2 e he)⟩

theorem bindR_err (e : Err) (s : RState)
    (k : RState → Except Err Unit × RState) :
    bindR (.error e, s) k = (.error e, s) := rfl

theorem inc_termStep (C : Ctx) (s : RState) (b : List Nat)
    (hint : s.last_data.status = .interesting) :
    TGoodE C (fun e => e = Err.stop ∨ e = Err.assertLen) s
      (incorporate_new_buffer C s b) := by
  rcases incorporate_trichotomy C s b with ⟨hf, hsem⟩ |
    ⟨hf, hsem, _⟩ | ⟨hcons, hlast, _, hch, hsh, _, _, hfin⟩
  · refine ⟨termStep_of_semEq hsem hint, ?_⟩
    intro e he
    rw [hf] at he
    simp at he
  · refine ⟨termStep_of_semEq hsem hint, ?_⟩
    intro e he
    rw [hf] at he
    injection he with h
    exact Or.inr h.symm
  · rw [if_pos hint] at hsh
    have hi2 : (incorporate_new_buffer C s b).2.last_data.status =
        .interesting := by
      rw [hlast]
      exact (consider_accept_interesting s.last_data (runTest C b) hint
        hcons).1
    refine ⟨⟨by omega, by omega, fun h => absurd h (by omega), ?_⟩, ?_⟩
    · intro a ha
      rcases hfin with ⟨hok2, hnle⟩ | ⟨hst, _⟩
      · exact ⟨Or.inr (by omega), hi2⟩
      · rw [hst] at ha
        exact absurd ha (by simp)
    · intro e he
      rcases hfin with ⟨hok2, _⟩ | ⟨hst, _⟩
      · rw [hok2] at he
        simp at he
      · rw [hst] at he
        injection he with h
        exact Or.inl h.symm

theorem tg_step3 {C : Ctx} {E : Err → Prop} {α : Type} (s s0 : RState)
    (cand : List Nat) (hint : s.last_data.status = .interesting)
    (hEs : E Err.stop) (hEa : E Err.assertLen)
    (h0 : s0.last_data = s.last_data ∧ s0.shrinks = s.shrinks ∧
      s0.changed = s.changed)
    (kT kF : RState → Except Err α × RState)
    (hkT : ∀ s1, TermStep C s ((Except.ok true : Except Err Bool), s1) →
      TGoodE C E s1 (kT s1))
    (hkF : ∀ s1, semEq s0 s1 →
      TermStep C s ((Except.ok false : Except Err Bool), s1) →
      TGoodE C E s1 (kF s1)) :
    TGoodE C E s (match incorporate_new_buffer C s0 cand with
      | (.ok true, s1) => kT s1
      | (.ok false, s1) => kF s1
      | (.error e, s1) => ((.error e : Except Err α), s1)) := by
  have hint0 : s0.last_data.status = .interesting := by
    rw [h0.1]
    exact hint
  have hpre : TermStep C s ((Except.ok true : Except Err Bool), s0) :=
    termStep_keep s s0 _ h0.1 h0.2.1 h0.2.2 hint
  have hinc := inc_termStep C s0 cand hint0
  rcases hfst : (incorporate_new_buffer C s0 cand).1 with e | b
  · have heq : incorporate_new_buffer C s0 cand =
        (.error e, (incorporate_new_buffer C s0 cand).2) := by rw [← hfst]
    have hres : (match incorporate_new_buffer C s0 cand with
        | (.ok true, s1) => kT s1
        | (.ok false, s1) => kF s1
        | (.error e, s1) => ((.error e : Except Err α), s1)) =
        ((.error e : Except Err α),
          (incorporate_new_buffer C s0 cand).2) := by
      rw [heq]
    rw [heq] at hinc
    rw [hres]
    refine ⟨termStep_err (termStep_trans hpre hinc.1), ?_⟩
    intro e' he'
    have hee : e = e' := by simpa using he'
    subst hee
    rcases hinc.2 e rfl with h | h
    · rw [h]; exact hEs
    · rw [h]; exact hEa
  · have heq : incorporate_new_buffer C s0 cand =
        (.ok b, (incorporate_new_buffer C s0 cand).2) := by rw [← hfst]
    have hsem := incorporate_false_sem C s0 cand
    rw [heq] at hinc
    cases b
    · have hres : (match incorporate_new_buffer C s0 cand with
          | (.ok true, s1) => kT s1
          | (.ok false, s1) => kF s1
          | (.error e, s1) => ((.error e : Except Err α), s1)) =
          kF (incorporate_new_buffer C s0 cand).2 := by
        rw [heq]
      rw [hres]
      have hlink : TermStep C s ((Except.ok false : Except Err Bool),
          (incorporate_new_buffer C s0 cand).2) :=
        termStep_trans hpre hinc.1
      obtain ⟨hts, hgd⟩ := hkF _ (hsem hfst) hlink
      exact ⟨termStep_trans hlink hts, hgd⟩
    · have hres : (match incorporate_new_buffer C s0 cand with
          | (.ok true, s1) => kT s1
          | (.ok false, s1) => kF s1
          | (.error e, s1) => ((.error e : Except Err α), s1)) =
          kT (incorporate_new_buffer C s0 cand).2 := by
        rw [heq]
      rw [hres]
      have hlink : TermStep C s ((Except.ok true : Except Err Bool),
          (incorporate_new_buffer C s0 cand).2) :=
        termStep_trans hpre hinc.1
      obtain ⟨hts, hgd⟩ := hkT _ hlink
      exact ⟨termStep_trans hlink hts, hgd⟩

theorem tg_step2 {C : Ctx} {E : Err → Prop} {α : Type} (s s0 : RState)
    (cand : List Nat) (hint : s.last_data.status = .interesting)
    (hEs : E Err.stop) (hEa : E Err.assertLen)
    (h0 : s0.last_data = s.last_data ∧ s0.shrinks = s.shrinks ∧
      s0.changed = s.changed)
    (k : RState → Except Err α × RState)
    (hk : ∀ (b : Bool) s1,
      TermStep C s ((Except.ok b : Except Err Bool), s1) →
      TGoodE C E s1 (k s1)) :
    TGoodE C E s (match incorporate_new_buffer C s0 cand with
      | (.ok _, s1) => k s1
      | (.error e, s1) => ((.error e : Except Err α), s1)) := by
  have hint0 : s0.last_data.status = .interesting := by
    rw [h0.1]
    exact hint
  have hpre : TermStep C s ((Except.ok true : Except Err Bool), s0) :=
    termStep_keep s s0 _ h0.1 h0.2.1 h0.2.2 hint
  have hinc := inc_termStep C s0 cand hint0
  rcases hfst : (incorporate_new_buffer C s0 cand).1 with e | b
  · have heq : incorporate_new_buffer C s0 cand =
        (.error e, (incorporate_new_buffer C s0 cand).2) := by rw [← hfst]
    have hres : (match incorporate_new_buffer C s0 cand with
        | (.ok _, s1) => k s1
        | (.error e, s1) => ((.error e : Except Err α), s1)) =
        ((.error e : Except Err α),
          (incorporate_new_buffer C s0 cand).2) := by
      rw [heq]
    rw [heq] at hinc
    rw [hres]
    refine ⟨termStep_err (termStep_trans hpre hinc.1), ?_⟩
    intro e' he'
    have hee : e = e' := by simpa using he'
    subst hee
    rcases hinc.2 e rfl with h | h
    · rw [h]; exact hEs
    · rw [h]; exact hEa
  · have heq : incorporate_new_buffer C s0 cand =
        (.ok b, (incorporate_new_buffer C s0 cand).2) := by rw [← hfst]
    have hres : (match incorporate_new_buffer C s0 cand with
        | (.ok _, s1) => k s1
        | (.error e, s1) => ((.error e : Except Err α), s1)) =
        k (incorporate_new_buffer C s0 cand).2 := by
      rw [heq]
    rw [heq] at hinc
    rw [hres]
    have hlink : TermStep C s ((Except.ok b : Except Err Bool),
        (incorporate_new_buffer C s0 cand).2) :=
      termStep_trans hpre hinc.1
    obtain ⟨hts, hgd⟩ := hk b _ hlink
    exact ⟨termStep_trans hlink hts, hgd⟩

theorem tg_bindR {C : Ctx} {E : Err → Prop} {s : RState}
    (x : Except Err Unit × RState) (k : RState → Except Err Unit × RState)
    (hx : TGoodE C E s x)
    (hk : ∀ s1, x = (.ok (), s1) → s1.last_data.status = .interesting →
      TGoodE C E s1 (k s1)) :
    TGoodE C E s (bindR x k) := by
  rcases hfst : x.1 with e | u
  · have heq : x = (.error e, x.2) := by rw [← hfst]
    rw [heq] at hx ⊢
    exact hx
  · cases u
    have heq : x = (.ok (), x.2) := by rw [← hfst]
    have hi : x.2.last_data.status = .interesting :=
      (hx.1.2.2.2 () hfst).2
    obtain ⟨hts, hgd⟩ := hk x.2 heq hi
    rw [heq] at hx ⊢
    exact ⟨termStep_trans hx.1 hts, hgd⟩

theorem zwLoop_term (C : Ctx) : ∀ gas i s,
    s.last_data.status = .interesting →
    TGoodE C (fun e => e = Err.stop ∨ e = Err.assertLen) s
      (zwLoop C gas i s) := by
  intro gas
  induction gas with
  | zero => intro i s hint; exact tg_ok s () hint
  | succ g ih =>
    intro i s hint
    by_cases hnb : s.last_data.buffer.length < i + 8
    · have hres : zwLoop C (g + 1) i s = (.ok (), s) := by
        simp only [zwLoop]
        rw [if_pos hnb]
      rw [hres]
      exact tg_ok s () hint
    · simp only [zwLoop]
      rw [if_neg hnb]
      refine tg_step2 s s _ hint (Or.inl rfl) (Or.inr rfl) ⟨rfl, rfl, rfl⟩
        _ ?_
      intro b s1 hlink
      exact ih (i + 1) s1 (hlink.2.2.2 b rfl).2

theorem sbInner_term (C : Ctx) (buf : List Nat) (i : Nat) : ∀ gas c s,
    s.last_data.status = .interesting →
    TGoodE C (fun e => e = Err.stop ∨ e = Err.assertLen) s
      (sbInner C buf i gas c s) := by
  intro gas
  induction gas with
  | zero => intro c s hint; exact tg_ok s () hint
  | succ g ih =>
    intro c s hint
    simp only [sbInner]
    refine tg_step3 s s _ hint (Or.inl rfl) (Or.inr rfl) ⟨rfl, rfl, rfl⟩
      _ _ ?_ ?_
    · intro s1 hlink
      exact tg_ok s1 () (hlink.2.2.2 true rfl).2
    · intro s1 hsem1 hlink1
      refine tg_step3 s1 { s1 with rpos := s1.rpos + (buf.length - i - 1) }
        _ (hlink1.2.2.2 false rfl).2 (Or.inl rfl) (Or.inr rfl)
        ⟨rfl, rfl, rfl⟩ _ _ ?_ ?_
      · intro s2 hlink2
        exact tg_ok s2 () (hlink2.2.2.2 true rfl).2
      · intro s2 hsem2 hlink2
        exact ih (c + 1) s2 (hlink2.2.2.2 false rfl).2

theorem borrowInner_term (C : Ctx) (buf : List Nat) (i : Nat) : ∀ j s,
    s.last_data.status = .interesting →
    TGoodE C (fun e => e = Err.stop ∨ e = Err.assertLen) s
      (borrowInner C buf i j s) := by
  intro j
  induction j with
  | zero => intro s hint; exact tg_ok s () hint
  | succ j ih =>
    intro s hint
    simp only [borrowInner]
    by_cases hpos : 0 < buf.getD (j + 1) 0
    · rw [if_pos hpos]
      refine tg_step2 s s _ hint (Or.inl rfl) (Or.inr rfl) ⟨rfl, rfl, rfl⟩
        _ ?_
      intro b s1 hlink
      exact tg_ok s1 () (hlink.2.2.2 b rfl).2
    · rw [if_neg hpos]
      exact ih s hint

theorem dLoop_term (C : Ctx) (j k : Nat) : ∀ gas d s,
    s.last_data.status = .interesting →
    TGoodE C (fun e => e = Err.stop ∨ e = Err.assertLen) s
      (dLoop C j k gas d s) := by
  intro gas
  induction gas with
  | zero => intro d s hint; exact tg_ok s () hint
  | succ g ih =>
    intro d s hint
    simp only [dLoop]
    refine tg_step2 s s _ hint (Or.inl rfl) (Or.inr rfl) ⟨rfl, rfl, rfl⟩
      _ ?_
    intro b s1 hlink
    exact ih (d + 1) s1 (hlink.2.2.2 b rfl).2

theorem eqPairsLoop_term (C : Ctx) : ∀ ps s,
    s.last_data.status = .interesting →
    TGoodE C (fun e => e = Err.stop ∨ e = Err.assertLen) s
      (eqPairsLoop C ps s) := by
  intro ps
  induction ps with
  | nil => intro s hint; exact tg_ok s () hint
  | cons p rest ih =>
    obtain ⟨j, k⟩ := p
    intro s hint
    simp only [eqPairsLoop]
    by_cases hk : s.last_data.buffer.length ≤ k
    · rw [if_pos hk]
      exact ih s hint
    · rw [if_neg hk]
      by_cases heqb : s.last_data.buffer.getD j 0 =
          s.last_data.buffer.getD k 0
      · rw [if_pos heqb]
        refine tg_bindR _ _ ?_ ?_
        · by_cases hg : s.last_data.buffer.getD j 0 = 0 ∧ 0 < j ∧
              0 < s.last_data.buffer.getD (j - 1) 0 ∧
              0 < s.last_data.buffer.getD (k - 1) 0
          · rw [if_pos hg]
            refine tg_step2 s s _ hint (Or.inl rfl) (Or.inr rfl)
              ⟨rfl, rfl, rfl⟩ _ ?_
            intro b s1 hlink
            exact tg_ok s1 () (hlink.2.2.2 b rfl).2
          · rw [if_neg hg]
            exact tg_ok s () hint
        · intro s1 hx1 hint1
          by_cases hc : 0 < s.last_data.buffer.getD j 0
          · rw [if_pos hc]
            refine tg_step3 s1 s1 _ hint1 (Or.inl rfl) (Or.inr rfl)
              ⟨rfl, rfl, rfl⟩ _ _ ?_ ?_
            · intro s2 hlink2
              exact tg_bindR
                (dLoop C j k (s.last_data.buffer.getD j 0 - 1) 0 s2)
                (fun s3 => eqPairsLoop C rest s3)
                (dLoop_term C j k _ 0 s2 (hlink2.2.2.2 true rfl).2)
                (fun s3 _ hint3 => ih s3 hint3)
            · intro s2 hsem2 hlink2
              exact ih s2 (hlink2.2.2.2 false rfl).2
          · rw [if_neg hc]
            exact ih s1 hint1
      · rw [if_neg heqb]
        exact ih s hint

theorem odInner_term (C : Ctx) (j : Nat) : ∀ gas kk s,
    s.last_data.status = .interesting →
    TGoodE C (fun e => e = Err.stop ∨ e = Err.assertLen) s
      (odInner C j gas kk s) := by
  intro gas
  induction gas with
  | zero => intro kk s hint; exact tg_ok s () hint
  | succ g ih =>
    intro kk s hint
    simp only [odInner]
    by_cases hkk : s.last_data.buffer.length ≤ kk
    · rw [if_pos hkk]
      exact tg_ok s () hint
    · rw [if_neg hkk]
      refine tg_bindR _ _ ?_ ?_
      · by_cases hlt : s.last_data.buffer.getD kk 0 <
            s.last_data.buffer.getD j 0
        · rw [if_pos hlt]
          refine tg_step2 s s _ hint (Or.inl rfl) (Or.inr rfl)
            ⟨rfl, rfl, rfl⟩ _ ?_
          intro b s1 hlink
          exact tg_ok s1 () (hlink.2.2.2 b rfl).2
        · rw [if_neg hlt]
          exact tg_ok s () hint
      · intro s1 hx1 hint1
        by_cases hk1 : s1.last_data.buffer.length ≤ kk
        · rw [if_pos hk1]
          exact tg_ok s1 () hint1
        · rw [if_neg hk1]
          by_cases hpp : 0 < s1.last_data.buffer.getD j 0 ∧
              0 < s1.last_data.buffer.getD kk 0
          · rw [if_pos hpp]
            refine tg_step2 s1 s1 _ hint1 (Or.inl rfl) (Or.inr rfl)
              ⟨rfl, rfl, rfl⟩ _ ?_
            intro b s2 hlink
            exact ih (kk + 1) s2 (hlink.2.2.2 b rfl).2
          · rw [if_neg hpp]
            exact ih (kk + 1) s1 hint1

theorem odOuter_term (C : Ctx) : ∀ gas j s,
    s.last_data.status = .interesting →
    TGoodE C (fun e => e = Err.stop ∨ e = Err.assertLen) s
      (odOuter C gas j s) := by
  intro gas
  induction gas with
  | zero => intro j s hint; exact tg_ok s () hint
  | succ g ih =>
    intro j s hint
    simp only [odOuter]
    by_cases hj : s.last_data.buffer.length ≤ j
    · rw [if_pos hj]
      exact tg_ok s () hint
    · rw [if_neg hj]
      by_cases hz : s.last_data.buffer.getD j 0 = 0
      · rw [if_pos hz]
        exact ih (j + 1) s hint
      · rw [if_neg hz]
        exact tg_bindR _ _ (odInner_term C j _ (j + 1) s hint)
          (fun s1 _ hint1 => ih (j + 1) s1 hint1)

theorem zeroWindowPass_term (C : Ctx) (s : RState)
    (hint : s.last_data.status = .interesting) :
    TGoodE C (fun e => e = Err.stop ∨ e = Err.assertLen) s
      (zeroWindowPass C s) :=
  zwLoop_term C _ 0 s hint

theorem equalPairsPass_term (C : Ctx) (s : RState)
    (hint : s.last_data.status = .interesting) :
    TGoodE C (fun e => e = Err.stop ∨ e = Err.assertLen) s
      (equalPairsPass C s) :=
  eqPairsLoop_term C _ s hint

theorem orderDecPass_term (C : Ctx) (s : RState)
    (hint : s.last_data.status = .interesting) :
    TGoodE C (fun e => e = Err.stop ∨ e = Err.assertLen) s
      (orderDecPass C s) :=
  odOuter_term C _ 0 s hint

theorem delInner_ts (C : Ctx) : ∀ fuel i s,
    s.last_data.status = .interesting →
    TGoodE C (fun _ => True) s (delIntervalsInner C fuel i s) := by
  intro fuel
  induction fuel with
  | zero => intro i s hint; exact tg_triv s _ hint
  | succ fu ih =>
    intro i s hint
    by_cases hi : i < s.last_data.intervals.length
    · simp only [delIntervalsInner]
      rw [if_pos hi]
      refine tg_step3 s s _ hint trivial trivial ⟨rfl, rfl, rfl⟩ _ _ ?_ ?_
      · intro s1 hlink
        exact ih i s1 (hlink.2.2.2 true rfl).2
      · intro s1 hsem1 hlink1
        exact ih (i + 1) s1 (hlink1.2.2.2 false rfl).2
    · simp only [delIntervalsInner]
      rw [if_neg hi]
      exact tg_ok s () hint

theorem delFix_ts (C : Ctx) : ∀ fuel icc s,
    s.last_data.status = .interesting →
    TGoodE C (fun _ => True) s (delIntervalsFix C fuel icc s) := by
  intro fuel
  induction fuel with
  | zero => intro icc s hint; exact tg_triv s _ hint
  | succ fu ih =>
    intro icc s hint
    by_cases hc : icc < (s.changed : Int)
    · simp only [delIntervalsFix]
      rw [if_pos hc]
      exact tg_bindR _ _ (delInner_ts C fu 0 s hint)
        (fun s1 _ hint1 => ih (s.changed : Int) s1 hint1)
    · simp only [delIntervalsFix]
      rw [if_neg hc]
      exact tg_ok s () hint

theorem sortPass_ts (C : Ctx) : ∀ fuel i s,
    s.last_data.status = .interesting →
    TGoodE C (fun _ => True) s (sortIntervalsPass C fuel i s) := by
  intro fuel
  induction fuel with
  | zero => intro i s hint; exact tg_triv s _ hint
  | succ fu ih =>
    intro i s hint
    by_cases hi : i < s.last_data.intervals.length
    · simp only [sortIntervalsPass]
      rw [if_pos hi]
      refine tg_step2 s s _ hint trivial trivial ⟨rfl, rfl, rfl⟩ _ ?_
      intro b s1 hlink
      exact ih (i + 1) s1 (hlink.2.2.2 b rfl).2
    · simp only [sortIntervalsPass]
      rw [if_neg hi]
      exact tg_ok s () hint

theorem singleBytePass_ts (C : Ctx) : ∀ fuel i s,
    s.last_data.status = .interesting →
    TGoodE C (fun _ => True) s (singleBytePass C fuel i s) := by
  intro fuel
  induction fuel with
  | zero => intro i s hint; exact tg_triv s _ hint
  | succ fu ih =>
    intro i s hint
    by_cases hi : i < s.last_data.buffer.length
    · simp only [singleBytePass]
      rw [if_pos hi]
      refine tg_step3 s s _ hint trivial trivial ⟨rfl, rfl, rfl⟩ _ _ ?_ ?_
      · intro s1 hlink
        exact ih (i + 1) s1 (hlink.2.2.2 true rfl).2
      · intro s1 hsem1 hlink1
        exact tg_bindR _ _
          (tg_mono_E (fun _ _ => trivial)
            (sbInner_term C s.last_data.buffer i _ _ s1
              (hlink1.2.2.2 false rfl).2))
          (fun s2 _ hint2 => ih (i + 1) s2 hint2)
    · simp only [singleBytePass]
      rw [if_neg hi]
      exact tg_ok s () hint

theorem adjSwapPass_ts (C : Ctx) : ∀ fuel i s,
    s.last_data.status = .interesting →
    TGoodE C (fun _ => True) s (adjSwapPass C fuel i s) := by
  intro fuel
  induction fuel with
  | zero => intro i s hint; exact tg_triv s _ hint
  | succ fu ih =>
    intro i s hint
    by_cases hi : i + 1 < s.last_data.buffer.length
    · simp only [adjSwapPass]
      rw [if_pos hi]
      by_cases hlt : s.last_data.buffer.getD (i + 1) 0 <
          s.last_data.buffer.getD i 0
      · rw [if_pos hlt]
        refine tg_step2 s s _ hint trivial trivial ⟨rfl, rfl, rfl⟩ _ ?_
        intro b s1 hlink
        exact ih (i + 1) s1 (hlink.2.2.2 b rfl).2
      · rw [if_neg hlt]
        exact ih (i + 1) s hint
    · simp only [adjSwapPass]
      rw [if_neg hi]
      exact tg_ok s () hint

theorem borrowPass_ts (C : Ctx) : ∀ fuel i s,
    s.last_data.status = .interesting →
    TGoodE C (fun _ => True) s (borrowPass C fuel i s) := by
  intro fuel
  induction fuel with
  | zero => intro i s hint; exact tg_triv s _ hint
  | succ fu ih =>
    intro i s hint
    by_cases hi : i < s.last_data.buffer.length
    · simp only [borrowPass]
      rw [if_pos hi]
      refine tg_step3 s s _ hint trivial trivial ⟨rfl, rfl, rfl⟩ _ _ ?_ ?_
      · intro s1 hlink
        exact ih (i + 1) s1 (hlink.2.2.2 true rfl).2
      · intro s1 hsem1 hlink1
        by_cases hz : s.last_data.buffer.getD i 0 = 0
        · rw [if_pos hz]
          exact tg_bindR _ _
            (tg_mono_E (fun _ _ => trivial)
              (borrowInner_term C s.last_data.buffer i i s1
                (hlink1.2.2.2 false rfl).2))
            (fun s2 _ hint2 => ih (i + 1) s2 hint2)
        · rw [if_neg hz]
          exact ih (i + 1) s1 (hlink1.2.2.2 false rfl).2
    · simp only [borrowPass]
      rw [if_neg hi]
      exact tg_ok s () hint

/-- The three possible outcomes of an incorporate call made while last_data
is INTERESTING: a rejection keeping the semantic fields, an acceptance
bumping the shrink count by one and staying under the budget, or the stop
or length-assert error. -/
theorem conv_step {C : Ctx} (s : RState) (cand : List Nat)
    (hint : s.last_data.status = .interesting) :
    ((incorporate_new_buffer C s cand).1 = .ok false ∧
      semEq s (incorporate_new_buffer C s cand).2) ∨
    ((incorporate_new_buffer C s cand).1 = .ok true ∧
      (incorporate_new_buffer C s cand).2.shrinks = s.shrinks + 1 ∧
      (incorporate_new_buffer C s cand).2.shrinks < C.st.max_shrinks ∧
      (incorporate_new_buffer C s cand).2.last_data.status =
        .interesting) ∨
    (∃ e, (incorporate_new_buffer C s cand).1 = .error e ∧
      (e = Err.stop ∨ e = Err.assertLen)) := by
  rcases incorporate_trichotomy C s cand with ⟨hf, hsem⟩ |
    ⟨hf, _, _⟩ | ⟨hcons, hlast, _, _, hsh, _, _, hfin⟩
  · exact Or.inl ⟨hf, hsem⟩
  · exact Or.inr (Or.inr ⟨.assertLen, hf, Or.inr rfl⟩)
  · rw [if_pos hint] at hsh
    have hin : (incorporate_new_buffer C s cand).2.last_data.status =
        .interesting := by
      rw [hlast]
      exact (consider_accept_interesting s.last_data (runTest C cand) hint
        hcons).1
    rcases hfin with ⟨hok2, hnle⟩ | ⟨hst, _⟩
    · exact Or.inr (Or.inl ⟨hok2, hsh, by omega, hin⟩)
    · exact Or.inr (Or.inr ⟨.stop, hst, Or.inl rfl⟩)

theorem delInner_step (C : Ctx) (fu i : Nat) (s : RState)
    (hi : i < s.last_data.intervals.length) :
    delIntervalsInner C (fu + 1) i s =
      match incorporate_new_buffer C s
          (s.last_data.buffer.take (s.last_data.intervals.getD i (0, 0)).1 ++
           s.last_data.buffer.drop
             (s.last_data.intervals.getD i (0, 0)).2) with
      | (.ok true, s1) => delIntervalsInner C fu i s1
      | (.ok false, s1) => delIntervalsInner C fu (i + 1) s1
      | (.error e, s1) => (.error e, s1) := by
  simp only [delIntervalsInner]
  rw [if_pos hi]

theorem delInner_conv (C : Ctx) : ∀ B, ∀ d i s,
    s.last_data.status = .interesting →
    C.st.max_shrinks - s.shrinks ≤ B →
    s.last_data.intervals.length - i ≤ d →
    ∃ fu : Nat, ∃ r : Except Err Unit × RState,
      (∀ e, r.1 = .error e → e = Err.stop ∨ e = Err.assertLen) ∧
      ∀ fu2, fu ≤ fu2 → delIntervalsInner C fu2 i s = r := by
  intro B
  induction B with
  | zero =>
    intro d
    induction d with
    | zero =>
      intro i s hint hB hd
      refine ⟨1, (.ok (), s), ?_, ?_⟩
      · intro e he
        simp at he
      · intro fu2 hfu2
        obtain ⟨fu3, rfl⟩ : ∃ fu3, fu2 = fu3 + 1 := ⟨fu2 - 1, by omega⟩
        simp only [delIntervalsInner]
        rw [if_neg (by omega)]
    | succ d ihd =>
      intro i s hint hB hd
      by_cases hi : i < s.last_data.intervals.length
      · rcases conv_step s
          (s.last_data.buffer.take (s.last_data.intervals.getD i (0, 0)).1 ++
           s.last_data.buffer.drop (s.last_data.intervals.getD i (0, 0)).2)
          hint with ⟨hfst, hsem⟩ | ⟨hfst, hsh, hlt, hin⟩ | ⟨e, hfst, hcls⟩
        · have heq : incorporate_new_buffer C s
              (s.last_data.buffer.take
                (s.last_data.intervals.getD i (0, 0)).1 ++
               s.last_data.buffer.drop
                 (s.last_data.intervals.getD i (0, 0)).2) =
              (.ok false, (incorporate_new_buffer C s
                (s.last_data.buffer.take
                  (s.last_data.intervals.getD i (0, 0)).1 ++
                 s.last_data.buffer.drop
                   (s.last_data.intervals.getD i (0, 0)).2)).2) := by
            rw [← hfst]
          obtain ⟨fu1, r1, hgood1, hst1⟩ := ihd (i + 1) _
            (by rw [hsem.1]; exact hint)
            (by rw [hsem.2.2.1]; exact hB)
            (by rw [hsem.1]; omega)
          refine ⟨fu1 + 1, r1, hgood1, ?_⟩
          intro fu2 hfu2
          obtain ⟨fu3, rfl⟩ : ∃ fu3, fu2 = fu3 + 1 := ⟨fu2 - 1, by omega⟩
          rw [delInner_step C fu3 i s hi, heq]
          exact hst1 fu3 (by omega)
        · exact absurd (by omega : C.st.max_shrinks - s.shrinks = 0)
            (by omega)
        · have heq : incorporate_new_buffer C s
              (s.last_data.buffer.take
                (s.last_data.intervals.getD i (0, 0)).1 ++
               s.last_data.buffer.drop
                 (s.last_data.intervals.getD i (0, 0)).2) =
              (.error e, (incorporate_new_buffer C s
                (s.last_data.buffer.take
                  (s.last_data.intervals.getD i (0, 0)).1 ++
                 s.last_data.buffer.drop
                   (s.last_data.intervals.getD i (0, 0)).2)).2) := by
            rw [← hfst]
          refine ⟨1, (.error e, (incorporate_new_buffer C s
            (s.last_data.buffer.take
              (s.last_data.intervals.getD i (0, 0)).1 ++
             s.last_data.buffer.drop
               (s.last_data.intervals.getD i (0, 0)).2)).2), ?_, ?_⟩
          · intro e' he'
            have hee : e = e' := by simpa using he'
            exact hee ▸ hcls
          · intro fu2 hfu2
            obtain ⟨fu3, rfl⟩ : ∃ fu3, fu2 = fu3 + 1 := ⟨fu2 - 1, by omega⟩
            rw [delInner_step C fu3 i s hi, heq]
      · refine ⟨1, (.ok (), s), ?_, ?_⟩
        · intro e he
          simp at he
        · intro fu2 hfu2
          obtain ⟨fu3, rfl⟩ : ∃ fu3, fu2 = fu3 + 1 := ⟨fu2 - 1, by omega⟩
          simp only [delIntervalsInner]
          rw [if_neg hi]
  | succ B ihB =>
    intro d
    induction d with
    | zero =>
      intro i s hint hB hd
      refine ⟨1, (.ok (), s), ?_, ?_⟩
      · intro e he
        simp at he
      · intro fu2 hfu2
        obtain ⟨fu3, rfl⟩ : ∃ fu3, fu2 = fu3 + 1 := ⟨fu2 - 1, by omega⟩
        simp only [delIntervalsInner]
        rw [if_neg (by omega)]
    | succ d ihd =>
      intro i s hint hB hd
      by_cases hi : i < s.last_data.intervals.length
      · rcases conv_step s
          (s.last_data.buffer.take (s.last_data.intervals.getD i (0, 0)).1 ++
           s.last_data.buffer.drop (s.last_data.intervals.getD i (0, 0)).2)
          hint with ⟨hfst, hsem⟩ | ⟨hfst, hsh, hlt, hin⟩ | ⟨e, hfst, hcls⟩
        · have heq : incorporate_new_buffer C s
              (s.last_data.buffer.take
                (s.last_data.intervals.getD i (0, 0)).1 ++
               s.last_data.buffer.drop
                 (s.last_data.intervals.getD i (0, 0)).2) =
              (.ok false, (incorporate_new_buffer C s
                (s.last_data.buffer.take
                  (s.last_data.intervals.getD i (0, 0)).1 ++
                 s.last_data.buffer.drop
                   (s.last_data.intervals.getD i (0, 0)).2)).2) := by
            rw [← hfst]
          obtain ⟨fu1, r1, hgood1, hst1⟩ := ihd (i + 1) _
            (by rw [hsem.1]; exact hint)
            (by rw [hsem.2.2.1]; exact hB)
            (by rw [hsem.1]; omega)
          refine ⟨fu1 + 1, r1, hgood1, ?_⟩
          intro fu2 hfu2
          obtain ⟨fu3, rfl⟩ : ∃ fu3, fu2 = fu3 + 1 := ⟨fu2 - 1, by omega⟩
          rw [delInner_step C fu3 i s hi, heq]
          exact hst1 fu3 (by omega)
        · have heq : incorporate_new_buffer C s
              (s.last_data.buffer.take
                (s.last_data.intervals.getD i (0, 0)).1 ++
               s.last_data.buffer.drop
                 (s.last_data.intervals.getD i (0, 0)).2) =
              (.ok true, (incorporate_new_buffer C s
                (s.last_data.buffer.take
                  (s.last_data.intervals.getD i (0, 0)).1 ++
                 s.last_data.buffer.drop
                   (s.last_data.intervals.getD i (0, 0)).2)).2) := by
            rw [← hfst]
          obtain ⟨fu1, r1, hgood1, hst1⟩ := ihB _ i _ hin (by omega)
            (Nat.sub_le _ _)
          refine ⟨fu1 + 1, r1, hgood1, ?_⟩
          intro fu2 hfu2
          obtain ⟨fu3, rfl⟩ : ∃ fu3, fu2 = fu3 + 1 := ⟨fu2 - 1, by omega⟩
          rw [delInner_step C fu3 i s hi, heq]
          exact hst1 fu3 (by omega)
        · have heq : incorporate_new_buffer C s
              (s.last_data.buffer.take
                (s.last_data.intervals.getD i (0, 0)).1 ++
               s.last_data.buffer.drop
                 (s.last_data.intervals.getD i (0, 0)).2) =
              (.error e, (incorporate_new_buffer C s
                (s.last_data.buffer.take
                  (s.last_data.intervals.getD i (0, 0)).1 ++
                 s.last_data.buffer.drop
                   (s.last_data.intervals.getD i (0, 0)).2)).2) := by
            rw [← hfst]
          refine ⟨1, (.error e, (incorporate_new_buffer C s
            (s.last_data.buffer.take
              (s.last_data.intervals.getD i (0, 0)).1 ++
             s.last_data.buffer.drop
               (s.last_data.intervals.getD i (0, 0)).2)).2), ?_, ?_⟩
          · intro e' he'
            have hee : e = e' := by simpa using he'
            exact hee ▸ hcls
          · intro fu2 hfu2
            obtain ⟨fu3, rfl⟩ : ∃ fu3, fu2 = fu3 + 1 := ⟨fu2 - 1, by omega⟩
            rw [delInner_step C fu3 i s hi, heq]
      · refine ⟨1, (.ok (), s), ?_, ?_⟩
        · intro e he
          simp at he
        · intro fu2 hfu2
          obtain ⟨fu3, rfl⟩ : ∃ fu3, fu2 = fu3 + 1 := ⟨fu2 - 1, by omega⟩
          simp only [delIntervalsInner]
          rw [if_neg hi]

/-- conv_step with the incorporate result named as a pair. -/
theorem conv_step2 {C : Ctx} (s : RState) (cand : List Nat)
    (hint : s.last_data.status = .interesting) :
    ∃ x t, incorporate_new_buffer C s cand = (x, t) ∧
      ((x = .ok false ∧ semEq s t) ∨
       (x = .ok true ∧ t.shrinks = s.shrinks + 1 ∧
         t.shrinks < C.st.max_shrinks ∧
         t.last_data.status = .interesting) ∨
       (∃ e, x = .error e ∧ (e = Err.stop ∨ e = Err.assertLen))) := by
  refine ⟨(incorporate_new_buffer C s cand).1,
    (incorporate_new_buffer C s cand).2, rfl, ?_⟩
  rcases conv_step s cand hint with ⟨hf, hsem⟩ | ⟨hf, h1, h2, h3⟩ |
    ⟨e, hf, hcls⟩
  · exact Or.inl ⟨hf, hsem⟩
  · exact Or.inr (Or.inl ⟨hf, h1, h2, h3⟩)
  · exact Or.inr (Or.inr ⟨e, hf, hcls⟩)

theorem sortPass_step_ok (C : Ctx) (fu i : Nat) (s t : RState) (b : Bool)
    (hi : i < s.last_data.intervals.length)
    (h : incorporate_new_buffer C s
        (s.last_data.buffer.take (s.last_data.intervals.getD i (0, 0)).1 ++
         isort ((s.last_data.buffer.take
           (s.last_data.intervals.getD i (0, 0)).2).drop
             (s.last_data.intervals.getD i (0, 0)).1) ++
         s.last_data.buffer.drop (s.last_data.intervals.getD i (0, 0)).2) =
        (.ok b, t)) :
    sortIntervalsPass C (fu + 1) i s = sortIntervalsPass C fu (i + 1) t := by
  simp only [sortIntervalsPass]
  rw [if_pos hi, h]

theorem sortPass_step_err (C : Ctx) (fu i : Nat) (s t : RState) (e : Err)
    (hi : i < s.last_data.intervals.length)
    (h : incorporate_new_buffer C s
        (s.last_data.buffer.take (s.last_data.intervals.getD i (0, 0)).1 ++
         isort ((s.last_data.buffer.take
           (s.last_data.intervals.getD i (0, 0)).2).drop
             (s.last_data.intervals.getD i (0, 0)).1) ++
         s.last_data.buffer.drop (s.last_data.intervals.getD i (0, 0)).2) =
        (.error e, t)) :
    sortIntervalsPass C (fu + 1) i s = (.error e, t) := by
  simp only [sortIntervalsPass]
  rw [if_pos hi, h]

theorem sortPass_conv (C : Ctx) : ∀ B, ∀ d i s,
    s.last_data.status = .interesting →
    C.st.max_shrinks - s.shrinks ≤ B →
    s.last_data.intervals.length - i ≤ d →
    ∃ fu : Nat, ∃ r : Except Err Unit × RState,
      (∀ e, r.1 = .error e → e = Err.stop ∨ e = Err.assertLen) ∧
      ∀ fu2, fu ≤ fu2 → sortIntervalsPass C fu2 i s = r := by
  intro B
  induction B with
  | zero =>
    intro d
    induction d with
    | zero =>
      intro i s hint hB hd
      refine ⟨1, (.ok (), s), fun e he => by simp at he, ?_⟩
      intro fu2 hfu2
      obtain ⟨fu3, rfl⟩ : ∃ fu3, fu2 = fu3 + 1 := ⟨fu2 - 1, by omega⟩
      simp only [sortIntervalsPass]
      rw [if_neg (by omega)]
    | succ d ihd =>
      intro i s hint hB hd
      by_cases hi : i < s.last_data.intervals.length
      · obtain ⟨x, t, heq, hcase⟩ := conv_step2 s
          (s.last_data.buffer.take
            (s.last_data.intervals.getD i (0, 0)).1 ++
           isort ((s.last_data.buffer.take
             (s.last_data.intervals.getD i (0, 0)).2).drop
               (s.last_data.intervals.getD i (0, 0)).1) ++
           s.last_data.buffer.drop
             (s.last_data.intervals.getD i (0, 0)).2) hint
        rcases hcase with ⟨hx, hsem⟩ | ⟨hx, hsh, hlt, hin⟩ |
          ⟨e, hx, hcls⟩
        · subst hx
          obtain ⟨fu1, r1, hgood1, hst1⟩ := ihd (i + 1) t
            (by rw [hsem.1]; exact hint)
            (by rw [hsem.2.2.1]; exact hB)
            (by rw [hsem.1]; omega)
          refine ⟨fu1 + 1, r1, hgood1, ?_⟩
          intro fu2 hfu2
          obtain ⟨fu3, rfl⟩ : ∃ fu3, fu2 = fu3 + 1 := ⟨fu2 - 1, by omega⟩
          rw [sortPass_step_ok C fu3 i s t false hi heq]
          exact hst1 fu3 (by omega)
        · exact absurd hB (by omega)
        · subst hx
          refine ⟨1, (.error e, t), fun e' he' => by
            have hee : e = e' := by simpa using he'
            exact hee ▸ hcls, ?_⟩
          intro fu2 hfu2
          obtain ⟨fu3, rfl⟩ : ∃ fu3, fu2 = fu3 + 1 := ⟨fu2 - 1, by omega⟩
          exact sortPass_step_err C fu3 i s t e hi heq
      · refine ⟨1, (.ok (), s), fun e he => by simp at he, ?_⟩
        intro fu2 hfu2
        obtain ⟨fu3, rfl⟩ : ∃ fu3, fu2 = fu3 + 1 := ⟨fu2 - 1, by omega⟩
        simp only [sortIntervalsPass]
        rw [if_neg hi]
  | succ B ihB =>
    intro d
    induction d with
    | zero =>
      intro i s hint hB hd
      refine ⟨1, (.ok (), s), fun e he => by simp at he, ?_⟩
      intro fu2 hfu2
      obtain ⟨fu3, rfl⟩ : ∃ fu3, fu2 = fu3 + 1 := ⟨fu2 - 1, by omega⟩
      simp only [sortIntervalsPass]
      rw [if_neg (by omega)]
    | succ d ihd =>
      intro i s hint hB hd
      by_cases hi : i < s.last_data.intervals.length
      · obtain ⟨x, t, heq, hcase⟩ := conv_step2 s
          (s.last_data.buffer.take
            (s.last_data.intervals.getD i (0, 0)).1 ++
           isort ((s.last_data.buffer.take
             (s.last_data.intervals.getD i (0, 0)).2).drop
               (s.last_data.intervals.getD i (0, 0)).1) ++
           s.last_data.buffer.drop
             (s.last_data.intervals.getD i (0, 0)).2) hint
        rcases hcase with ⟨hx, hsem⟩ | ⟨hx, hsh, hlt, hin⟩ |
          ⟨e, hx, hcls⟩
        · subst hx
          obtain ⟨fu1, r1, hgood1, hst1⟩ := ihd (i + 1) t
            (by rw [hsem.1]; exact hint)
            (by rw [hsem.2.2.1]; exact hB)
            (by rw [hsem.1]; omega)
          refine ⟨fu1 + 1, r1, hgood1, ?_⟩
          intro fu2 hfu2
          obtain ⟨fu3, rfl⟩ : ∃ fu3, fu2 = fu3 + 1 := ⟨fu2 - 1, by omega⟩
          rw [sortPass_step_ok C fu3 i s t false hi heq]
          exact hst1 fu3 (by omega)
        · subst hx
          obtain ⟨fu1, r1, hgood1, hst1⟩ := ihB
            (t.last_data.intervals.length) (i + 1) t hin (by omega)
            (by omega)
          refine ⟨fu1 + 1, r1, hgood1, ?_⟩
          intro fu2 hfu2
          obtain ⟨fu3, rfl⟩ : ∃ fu3, fu2 = fu3 + 1 := ⟨fu2 - 1, by omega⟩
          rw [sortPass_step_ok C fu3 i s t true hi heq]
          exact hst1 fu3 (by omega)
        · subst hx
          refine ⟨1, (.error e, t), fun e' he' => by
            have hee : e = e' := by simpa using he'
            exact hee ▸ hcls, ?_⟩
          intro fu2 hfu2
          obtain ⟨fu3, rfl⟩ : ∃ fu3, fu2 = fu3 + 1 := ⟨fu2 - 1, by omega⟩
          exact sortPass_step_err C fu3 i s t e hi heq
      · refine ⟨1, (.ok (), s), fun e he => by simp at he, ?_⟩
        intro fu2 hfu2
        obtain ⟨fu3, rfl⟩ : ∃ fu3, fu2 = fu3 + 1 := ⟨fu2 - 1, by omega⟩
        simp only [sortIntervalsPass]
        rw [if_neg hi]

theorem delFix_step_ok (C : Ctx) (fu : Nat) (icc : Int) (s t : RState)
    (u : Unit) (hc : icc < (s.changed : Int))
    (h : delIntervalsInner C fu 0 s = (.ok u, t)) :
    delIntervalsFix C (fu + 1) icc s =
      delIntervalsFix C fu (s.changed : Int) t := by
  simp only [delIntervalsFix]
  rw [if_pos hc, h]

theorem delFix_step_err (C : Ctx) (fu : Nat) (icc : Int) (s t : RState)
    (e : Err) (hc : icc < (s.changed : Int))
    (h : delIntervalsInner C fu 0 s = (.error e, t)) :
    delIntervalsFix C (fu + 1) icc s = (.error e, t) := by
  simp only [delIntervalsFix]
  rw [if_pos hc, h]

theorem delFix_conv (C : Ctx) : ∀ B, ∀ (icc : Int) (s : RState),
    s.last_data.status = .interesting →
    C.st.max_shrinks - s.shrinks ≤ B →
    ∃ fu : Nat, ∃ r : Except Err Unit × RState,
      (∀ e, r.1 = .error e → e = Err.stop ∨ e = Err.assertLen) ∧
      ∀ fu2, fu ≤ fu2 → delIntervalsFix C fu2 icc s = r := by
  intro B
  induction B with
  | zero =>
    intro icc s hint hB
    by_cases hc : icc < (s.changed : Int)
    · obtain ⟨fu1, r1, hgood1, hst1⟩ := delInner_conv C C.st.max_shrinks
        (s.last_data.intervals.length) 0 s hint (Nat.sub_le _ _) (by omega)
      have hts : TermStep C s r1 := by
        have h0 := (delInner_ts C fu1 0 s hint).1
        rwa [hst1 fu1 le_rfl] at h0
      rcases hr1 : r1.1 with e | u
      · have hr1eq : r1 = (.error e, r1.2) := by rw [← hr1]
        refine ⟨fu1 + 1, (.error e, r1.2), fun e' he' => by
          have hee : e = e' := by simpa using he'
          exact hee ▸ hgood1 e hr1, ?_⟩
        intro fu2 hfu2
        obtain ⟨fu3, rfl⟩ : ∃ fu3, fu2 = fu3 + 1 := ⟨fu2 - 1, by omega⟩
        have h1 : delIntervalsInner C fu3 0 s = (.error e, r1.2) := by
          rw [hst1 fu3 (by omega), hr1eq]
        exact delFix_step_err C fu3 icc s r1.2 e hc h1
      · cases u
        have hr1eq : r1 = (.ok (), r1.2) := by rw [← hr1]
        have hint1 : r1.2.last_data.status = .interesting :=
          (hts.2.2.2 () hr1).2
        by_cases hsame : r1.2.shrinks = s.shrinks
        · have hch : r1.2.changed = s.changed := by
            have h2 := hts.2.1
            omega
          refine ⟨fu1 + 2, (.ok (), r1.2), fun e he => by simp at he, ?_⟩
          intro fu2 hfu2
          obtain ⟨fu3, rfl⟩ : ∃ fu3, fu2 = fu3 + 1 := ⟨fu2 - 1, by omega⟩
          have h1 : delIntervalsInner C fu3 0 s = (.ok (), r1.2) := by
            rw [hst1 fu3 (by omega), hr1eq]
          rw [delFix_step_ok C fu3 icc s r1.2 () hc h1]
          obtain ⟨fu4, rfl⟩ : ∃ fu4, fu3 = fu4 + 1 := ⟨fu3 - 1, by omega⟩
          simp only [delIntervalsFix]
          rw [if_neg (by rw [hch]; omega)]
        · have hgt : s.shrinks < r1.2.shrinks :=
            lt_of_le_of_ne hts.1 (Ne.symm hsame)
          have hlt : r1.2.shrinks < C.st.max_shrinks := by
            rcases (hts.2.2.2 () hr1).1 with h | h
            · exact absurd h hsame
            · exact h
          exact absurd hB (by omega)
    · refine ⟨1, (.ok (), s), fun e he => by simp at he, ?_⟩
      intro fu2 hfu2
      obtain ⟨fu3, rfl⟩ : ∃ fu3, fu2 = fu3 + 1 := ⟨fu2 - 1, by omega⟩
      simp only [delIntervalsFix]
      rw [if_neg hc]
  | succ B ihB =>
    intro icc s hint hB
    by_cases hc : icc < (s.changed : Int)
    · obtain ⟨fu1, r1, hgood1, hst1⟩ := delInner_conv C C.st.max_shrinks
        (s.last_data.intervals.length) 0 s hint (Nat.sub_le _ _) (by omega)
      have hts : TermStep C s r1 := by
        have h0 := (delInner_ts C fu1 0 s hint).1
        rwa [hst1 fu1 le_rfl] at h0
      rcases hr1 : r1.1 with e | u
      · have hr1eq : r1 = (.error e, r1.2) := by rw [← hr1]
        refine ⟨fu1 + 1, (.error e, r1.2), fun e' he' => by
          have hee : e = e' := by simpa using he'
          exact hee ▸ hgood1 e hr1, ?_⟩
        intro fu2 hfu2
        obtain ⟨fu3, rfl⟩ : ∃ fu3, fu2 = fu3 + 1 := ⟨fu2 - 1, by omega⟩
        have h1 : delIntervalsInner C fu3 0 s = (.error e, r1.2) := by
          rw [hst1 fu3 (by omega), hr1eq]
        exact delFix_step_err C fu3 icc s r1.2 e hc h1
      · cases u
        have hr1eq : r1 = (.ok (), r1.2) := by rw [← hr1]
        have hint1 : r1.2.last_data.status = .interesting :=
          (hts.2.2.2 () hr1).2
        by_cases hsame : r1.2.shrinks = s.shrinks
        · have hch : r1.2.changed = s.changed := by
            have h2 := hts.2.1
            omega
          refine ⟨fu1 + 2, (.ok (), r1.2), fun e he => by simp at he, ?_⟩
          intro fu2 hfu2
          obtain ⟨fu3, rfl⟩ : ∃ fu3, fu2 = fu3 + 1 := ⟨fu2 - 1, by omega⟩
          have h1 : delIntervalsInner C fu3 0 s = (.ok (), r1.2) := by
            rw [hst1 fu3 (by omega), hr1eq]
          rw [delFix_step_ok C fu3 icc s r1.2 () hc h1]
          obtain ⟨fu4, rfl⟩ : ∃ fu4, fu3 = fu4 + 1 := ⟨fu3 - 1, by omega⟩
          simp only [delIntervalsFix]
          rw [if_neg (by rw [hch]; omega)]
        · have hgt : s.shrinks < r1.2.shrinks :=
            lt_of_le_of_ne hts.1 (Ne.symm hsame)
          have hlt : r1.2.shrinks < C.st.max_shrinks := by
            rcases (hts.2.2.2 () hr1).1 with h | h
            · exact absurd h hsame
            · exact h
          obtain ⟨fu5, r5, hgood5, hst5⟩ := ihB (s.changed : Int) r1.2
            hint1 (by omega)
          refine ⟨fu1 + fu5 + 2, r5, hgood5, ?_⟩
          intro fu2 hfu2
          obtain ⟨fu3, rfl⟩ : ∃ fu3, fu2 = fu3 + 1 := ⟨fu2 - 1, by omega⟩
          have h1 : delIntervalsInner C fu3 0 s = (.ok (), r1.2) := by
            rw [hst1 fu3 (by omega), hr1eq]
          rw [delFix_step_ok C fu3 icc s r1.2 () hc h1]
          exact hst5 fu3 (by omega)
    · refine ⟨1, (.ok (), s), fun e he => by simp at he, ?_⟩
      intro fu2 hfu2
      obtain ⟨fu3, rfl⟩ : ∃ fu3, fu2 = fu3 + 1 := ⟨fu2 - 1, by omega⟩
      simp only [delIntervalsFix]
      rw [if_neg hc]

theorem adjSwap_step_ok (C : Ctx) (fu i : Nat) (s t : RState) (b : Bool)
    (hi : i + 1 < s.last_data.buffer.length)
    (hlt : s.last_data.buffer.getD (i + 1) 0 < s.last_data.buffer.getD i 0)
    (h : incorporate_new_buffer C s
        (s.last_data.buffer.take i ++
         [s.last_data.buffer.getD (i + 1) 0, s.last_data.buffer.getD i 0] ++
         s.last_data.buffer.drop (i + 2)) = (.ok b, t)) :
    adjSwapPass C (fu + 1) i s = adjSwapPass C fu (i + 1) t := by
  simp only [adjSwapPass]
  rw [if_pos hi, if_pos hlt, h]

theorem adjSwap_step_err (C : Ctx) (fu i : Nat) (s t : RState) (e : Err)
    (hi : i + 1 < s.last_data.buffer.length)
    (hlt : s.last_data.buffer.getD (i + 1) 0 < s.last_data.buffer.getD i 0)
    (h : incorporate_new_buffer C s
        (s.last_data.buffer.take i ++
         [s.last_data.buffer.getD (i + 1) 0, s.last_data.buffer.getD i 0] ++
         s.last_data.buffer.drop (i + 2)) = (.error e, t)) :
    adjSwapPass C (fu + 1) i s = (.error e, t) := by
  simp only [adjSwapPass]
  rw [if_pos hi, if_pos hlt, h]

theorem adjSwap_step_skip (C : Ctx) (fu i : Nat) (s : RState)
    (hi : i + 1 < s.last_data.buffer.length)
    (hlt : ¬ s.last_data.buffer.getD (i + 1) 0 <
      s.last_data.buffer.getD i 0) :
    adjSwapPass C (fu + 1) i s = adjSwapPass C fu (i + 1) s := by
  simp only [adjSwapPass]
  rw [if_pos hi, if_neg hlt]

theorem adjSwap_conv (C : Ctx) : ∀ B, ∀ d i s,
    s.last_data.status = .interesting →
    C.st.max_shrinks - s.shrinks ≤ B →
    s.last_data.buffer.length - i ≤ d →
    ∃ fu : Nat, ∃ r : Except Err Unit × RState,
      (∀ e, r.1 = .error e → e = Err.stop ∨ e = Err.assertLen) ∧
      ∀ fu2, fu ≤ fu2 → adjSwapPass C fu2 i s = r := by
  intro B
  induction B with
  | zero =>
    intro d
    induction d with
    | zero =>
      intro i s hint hB hd
      refine ⟨1, (.ok (), s), fun e he => by simp at he, ?_⟩
      intro fu2 hfu2
      obtain ⟨fu3, rfl⟩ : ∃ fu3, fu2 = fu3 + 1 := ⟨fu2 - 1, by omega⟩
      simp only [adjSwapPass]
      rw [if_neg (by omega)]
    | succ d ihd =>
      intro i s hint hB hd
      by_cases hi : i + 1 < s.last_data.buffer.length
      · by_cases hlt : s.last_data.buffer.getD (i + 1) 0 <
            s.last_data.buffer.getD i 0
        · obtain ⟨x, t, heq, hcase⟩ := conv_step2 s
            (s.last_data.buffer.take i ++
             [s.last_data.buffer.getD (i + 1) 0,
              s.last_data.buffer.getD i 0] ++
             s.last_data.buffer.drop (i + 2)) hint
          rcases hcase with ⟨hx, hsem⟩ | ⟨hx, hsh, hlt2, hin⟩ |
            ⟨e, hx, hcls⟩
          · subst hx
            obtain ⟨fu1, r1, hgood1, hst1⟩ := ihd (i + 1) t
              (by rw [hsem.1]; exact hint)
              (by rw [hsem.2.2.1]; exact hB)
              (by rw [hsem.1]; omega)
            refine ⟨fu1 + 1, r1, hgood1, ?_⟩
            intro fu2 hfu2
            obtain ⟨fu3, rfl⟩ : ∃ fu3, fu2 = fu3 + 1 := ⟨fu2 - 1, by omega⟩
            rw [adjSwap_step_ok C fu3 i s t false hi hlt heq]
            exact hst1 fu3 (by omega)
          · exact absurd hB (by omega)
          · subst hx
            refine ⟨1, (.error e, t), fun e' he' => by
              have hee : e = e' := by simpa using he'
              exact hee ▸ hcls, ?_⟩
            intro fu2 hfu2
            obtain ⟨fu3, rfl⟩ : ∃ fu3, fu2 = fu3 + 1 := ⟨fu2 - 1, by omega⟩
            exact adjSwap_step_err C fu3 i s t e hi hlt heq
        · obtain ⟨fu1, r1, hgood1, hst1⟩ := ihd (i + 1) s hint hB
            (by omega)
          refine ⟨fu1 + 1, r1, hgood1, ?_⟩
          intro fu2 hfu2
          obtain ⟨fu3, rfl⟩ : ∃ fu3, fu2 = fu3 + 1 := ⟨fu2 - 1, by omega⟩
          rw [adjSwap_step_skip C fu3 i s hi hlt]
          exact hst1 fu3 (by omega)
      · refine ⟨1, (.ok (), s), fun e he => by simp at he, ?_⟩
        intro fu2 hfu2
        obtain ⟨fu3, rfl⟩ : ∃ fu3, fu2 = fu3 + 1 := ⟨fu2 - 1, by omega⟩
        simp only [adjSwapPass]
        rw [if_neg hi]
  | succ B ihB =>
    intro d
    induction d with
    | zero =>
      intro i s hint hB hd
      refine ⟨1, (.ok (), s), fun e he => by simp at he, ?_⟩
      intro fu2 hfu2
      obtain ⟨fu3, rfl⟩ : ∃ fu3, fu2 = fu3 + 1 := ⟨fu2 - 1, by omega⟩
      simp only [adjSwapPass]
      rw [if_neg (by omega)]
    | succ d ihd =>
      intro i s hint hB hd
      by_cases hi : i + 1 < s.last_data.buffer.length
      · by_cases hlt : s.last_data.buffer.getD (i + 1) 0 <
            s.last_data.buffer.getD i 0
        · obtain ⟨x, t, heq, hcase⟩ := conv_step2 s
            (s.last_data.buffer.take i ++
             [s.last_data.buffer.getD (i + 1) 0,
              s.last_data.buffer.getD i 0] ++
             s.last_data.buffer.drop (i + 2)) hint
          rcases hcase with ⟨hx, hsem⟩ | ⟨hx, hsh, hlt2, hin⟩ |
            ⟨e, hx, hcls⟩
          · subst hx
            obtain ⟨fu1, r1, hgood1, hst1⟩ := ihd (i + 1) t
              (by rw [hsem.1]; exact hint)
              (by rw [hsem.2.2.1]; exact hB)
              (by rw [hsem.1]; omega)
            refine ⟨fu1 + 1, r1, hgood1, ?_⟩
            intro fu2 hfu2
            obtain ⟨fu3, rfl⟩ : ∃ fu3, fu2 = fu3 + 1 := ⟨fu2 - 1, by omega⟩
            rw [adjSwap_step_ok C fu3 i s t false hi hlt heq]
            exact hst1 fu3 (by omega)
          · subst hx
            obtain ⟨fu1, r1, hgood1, hst1⟩ := ihB
              (t.last_data.buffer.length) (i + 1) t hin (by omega)
              (by omega)
            refine ⟨fu1 + 1, r1, hgood1, ?_⟩
            intro fu2 hfu2
            obtain ⟨fu3, rfl⟩ : ∃ fu3, fu2 = fu3 + 1 := ⟨fu2 - 1, by omega⟩
            rw [adjSwap_step_ok C fu3 i s t true hi hlt heq]
            exact hst1 fu3 (by omega)
          · subst hx
            refine ⟨1, (.error e, t), fun e' he' => by
              have hee : e = e' := by simpa using he'
              exact hee ▸ hcls, ?_⟩
            intro fu2 hfu2
            obtain ⟨fu3, rfl⟩ : ∃ fu3, fu2 = fu3 + 1 := ⟨fu2 - 1, by omega⟩
            exact adjSwap_step_err C fu3 i s t e hi hlt heq
        · obtain ⟨fu1, r1, hgood1, hst1⟩ := ihd (i + 1) s hint hB
            (by omega)
          refine ⟨fu1 + 1, r1, hgood1, ?_⟩
          intro fu2 hfu2
          obtain ⟨fu3, rfl⟩ : ∃ fu3, fu2 = fu3 + 1 := ⟨fu2 - 1, by omega⟩
          rw [adjSwap_step_skip C fu3 i s hi hlt]
          exact hst1 fu3 (by omega)
      · refine ⟨1, (.ok (), s), fun e he => by simp at he, ?_⟩
        intro fu2 hfu2
        obtain ⟨fu3, rfl⟩ : ∃ fu3, fu2 = fu3 + 1 := ⟨fu2 - 1, by omega⟩
        simp only [adjSwapPass]
        rw [if_neg hi]

theorem singleByte_step_true (C : Ctx) (fu i : Nat) (s t : RState)
    (hi : i < s.last_data.buffer.length)
    (h : incorporate_new_buffer C s
        (s.last_data.buffer.take i ++ s.last_data.buffer.drop (i + 1)) =
        (.ok true, t)) :
    singleBytePass C (fu + 1) i s = singleBytePass C fu (i + 1) t := by
  simp only [singleBytePass]
  rw [if_pos hi, h]

theorem singleByte_step_false (C : Ctx) (fu i : Nat) (s t : RState)
    (hi : i < s.last_data.buffer.length)
    (h : incorporate_new_buffer C s
        (s.last_data.buffer.take i ++ s.last_data.buffer.drop (i + 1)) =
        (.ok false, t)) :
    singleBytePass C (fu + 1) i s =
      match sbInner C s.last_data.buffer i
          (s.last_data.buffer.getD i 0) 0 t with
      | (.ok _, s2) => singleBytePass C fu (i + 1) s2
      | (.error e, s2) => (.error e, s2) := by
  simp only [singleBytePass]
  rw [if_pos hi, h]

theorem singleByte_step_err (C : Ctx) (fu i : Nat) (s t : RState) (e : Err)
    (hi : i < s.last_data.buffer.length)
    (h : incorporate_new_buffer C s
        (s.last_data.buffer.take i ++ s.last_data.buffer.drop (i + 1)) =
        (.error e, t)) :
    singleBytePass C (fu + 1) i s = (.error e, t) := by
  simp only [singleBytePass]
  rw [if_pos hi, h]

theorem singleByte_conv (C : Ctx) : ∀ B, ∀ d i s,
    s.last_data.status = .interesting →
    C.st.max_shrinks - s.shrinks ≤ B →
    s.last_data.buffer.length - i ≤ d →
    ∃ fu : Nat, ∃ r : Except Err Unit × RState,
      (∀ e, r.1 = .error e → e = Err.stop ∨ e = Err.assertLen) ∧
      ∀ fu2, fu ≤ fu2 → singleBytePass C fu2 i s = r := by
  intro B
  induction B with
  | zero =>
    intro d
    induction d with
    | zero =>
      intro i s hint hB hd
      refine ⟨1, (.ok (), s), fun e he => by simp at he, ?_⟩
      intro fu2 hfu2
      obtain ⟨fu3, rfl⟩ : ∃ fu3, fu2 = fu3 + 1 := ⟨fu2 - 1, by omega⟩
      simp only [singleBytePass]
      rw [if_neg (by omega)]
    | succ d ihd =>
      intro i s hint hB hd
      by_cases hi : i < s.last_data.buffer.length
      · obtain ⟨x, t, heq, hcase⟩ := conv_step2 s
          (s.last_data.buffer.take i ++ s.last_data.buffer.drop (i + 1))
          hint
        rcases hcase with ⟨hx, hsem⟩ | ⟨hx, hsh, hlt2, hin⟩ |
          ⟨e, hx, hcls⟩
        · subst hx
          have hint_t : t.last_data.status = .interesting := by
            rw [hsem.1]
            exact hint
          obtain ⟨y, w, hr2eq⟩ : ∃ y w, sbInner C s.last_data.buffer i
              (s.last_data.buffer.getD i 0) 0 t = (y, w) := ⟨_, _, rfl⟩
          have htg2 := sbInner_term C s.last_data.buffer i
            (s.last_data.buffer.getD i 0) 0 t hint_t
          rw [hr2eq] at htg2
          rcases y with e | u
          · refine ⟨1, (.error e, w), fun e' he' => by
              have hee : e = e' := by simpa using he'
              exact hee ▸ htg2.2 e rfl, ?_⟩
            intro fu2 hfu2
            obtain ⟨fu3, rfl⟩ : ∃ fu3, fu2 = fu3 + 1 := ⟨fu2 - 1, by omega⟩
            rw [singleByte_step_false C fu3 i s t hi heq, hr2eq]
          · cases u
            have hw1 : t.shrinks ≤ w.shrinks := htg2.1.1
            have hw3 : w.shrinks = t.shrinks → w.last_data = t.last_data :=
              htg2.1.2.2.1
            have hw4 : (w.shrinks = t.shrinks ∨
                w.shrinks < C.st.max_shrinks) ∧
                w.last_data.status = .interesting := htg2.1.2.2.2 () rfl
            have hts : t.shrinks = s.shrinks := hsem.2.2.1
            by_cases hsame : w.shrinks = s.shrinks
            · have hlast : w.last_data = s.last_data := by
                rw [hw3 (by omega), hsem.1]
              obtain ⟨fu1, r1, hgood1, hst1⟩ := ihd (i + 1) w hw4.2
                (by omega) (by rw [hlast]; omega)
              refine ⟨fu1 + 1, r1, hgood1, ?_⟩
              intro fu2 hfu2
              obtain ⟨fu3, rfl⟩ : ∃ fu3, fu2 = fu3 + 1 :=
                ⟨fu2 - 1, by omega⟩
              rw [singleByte_step_false C fu3 i s t hi heq, hr2eq]
              exact hst1 fu3 (by omega)
            · have hltm : w.shrinks < C.st.max_shrinks := by
                rcases hw4.1 with h | h
                · exact absurd (h.trans hts) hsame
                · exact h
              exact absurd hB (by omega)
        · exact absurd hB (by omega)
        · subst hx
          refine ⟨1, (.error e, t), fun e' he' => by
            have hee : e = e' := by simpa using he'
            exact hee ▸ hcls, ?_⟩
          intro fu2 hfu2
          obtain ⟨fu3, rfl⟩ : ∃ fu3, fu2 = fu3 + 1 := ⟨fu2 - 1, by omega⟩
          exact singleByte_step_err C fu3 i s t e hi heq
      · refine ⟨1, (.ok (), s), fun e he => by simp at he, ?_⟩
        intro fu2 hfu2
        obtain ⟨fu3, rfl⟩ : ∃ fu3, fu2 = fu3 + 1 := ⟨fu2 - 1, by omega⟩
        simp only [singleBytePass]
        rw [if_neg hi]
  | succ B ihB =>
    intro d
    induction d with
    | zero =>
      intro i s hint hB hd
      refine ⟨1, (.ok (), s), fun e he => by simp at he, ?_⟩
      intro fu2 hfu2
      obtain ⟨fu3, rfl⟩ : ∃ fu3, fu2 = fu3 + 1 := ⟨fu2 - 1, by omega⟩
      simp only [singleBytePass]
      rw [if_neg (by omega)]
    | succ d ihd =>
      intro i s hint hB hd
      by_cases hi : i < s.last_data.buffer.length
      · obtain ⟨x, t, heq, hcase⟩ := conv_step2 s
          (s.last_data.buffer.take i ++ s.last_data.buffer.drop (i + 1))
          hint
        rcases hcase with ⟨hx, hsem⟩ | ⟨hx, hsh, hlt2, hin⟩ |
          ⟨e, hx, hcls⟩
        · subst hx
          have hint_t : t.last_data.status = .interesting := by
            rw [hsem.1]
            exact hint
          obtain ⟨y, w, hr2eq⟩ : ∃ y w, sbInner C s.last_data.buffer i
              (s.last_data.buffer.getD i 0) 0 t = (y, w) := ⟨_, _, rfl⟩
          have htg2 := sbInner_term C s.last_data.buffer i
            (s.last_data.buffer.getD i 0) 0 t hint_t
          rw [hr2eq] at htg2
          rcases y with e | u
          · refine ⟨1, (.error e, w), fun e' he' => by
              have hee : e = e' := by simpa using he'
              exact hee ▸ htg2.2 e rfl, ?_⟩
            intro fu2 hfu2
            obtain ⟨fu3, rfl⟩ : ∃ fu3, fu2 = fu3 + 1 := ⟨fu2 - 1, by omega⟩
            rw [singleByte_step_false C fu3 i s t hi heq, hr2eq]
          · cases u
            have hw1 : t.shrinks ≤ w.shrinks := htg2.1.1
            have hw3 : w.shrinks = t.shrinks → w.last_data = t.last_data :=
              htg2.1.2.2.1
            have hw4 : (w.shrinks = t.shrinks ∨
                w.shrinks < C.st.max_shrinks) ∧
                w.last_data.status = .interesting := htg2.1.2.2.2 () rfl
            have hts : t.shrinks = s.shrinks := hsem.2.2.1
            by_cases hsame : w.shrinks = s.shrinks
            · have hlast : w.last_data = s.last_data := by
                rw [hw3 (by omega), hsem.1]
              obtain ⟨fu1, r1, hgood1, hst1⟩ := ihd (i + 1) w hw4.2
                (by omega) (by rw [hlast]; omega)
              refine ⟨fu1 + 1, r1, hgood1, ?_⟩
              intro fu2 hfu2
              obtain ⟨fu3, rfl⟩ : ∃ fu3, fu2 = fu3 + 1 :=
                ⟨fu2 - 1, by omega⟩
              rw [singleByte_step_false C fu3 i s t hi heq, hr2eq]
              exact hst1 fu3 (by omega)
            · have hltm : w.shrinks < C.st.max_shrinks := by
                rcases hw4.1 with h | h
                · exact absurd (h.trans hts) hsame
                · exact h
              obtain ⟨fu1, r1, hgood1, hst1⟩ := ihB
                (w.last_data.buffer.length) (i + 1) w hw4.2 (by omega)
                (by omega)
              refine ⟨fu1 + 1, r1, hgood1, ?_⟩
              intro fu2 hfu2
              obtain ⟨fu3, rfl⟩ : ∃ fu3, fu2 = fu3 + 1 :=
                ⟨fu2 - 1, by omega⟩
              rw [singleByte_step_false C fu3 i s t hi heq, hr2eq]
              exact hst1 fu3 (by omega)
        · subst hx
          obtain ⟨fu1, r1, hgood1, hst1⟩ := ihB
            (t.last_data.buffer.length) (i + 1) t hin (by omega) (by omega)
          refine ⟨fu1 + 1, r1, hgood1, ?_⟩
          intro fu2 hfu2
          obtain ⟨fu3, rfl⟩ : ∃ fu3, fu2 = fu3 + 1 := ⟨fu2 - 1, by omega⟩
          rw [singleByte_step_true C fu3 i s t hi heq]
          exact hst1 fu3 (by omega)
        · subst hx
          refine ⟨1, (.error e, t), fun e' he' => by
            have hee : e = e' := by simpa using he'
            exact hee ▸ hcls, ?_⟩
          intro fu2 hfu2
          obtain ⟨fu3, rfl⟩ : ∃ fu3, fu2 = fu3 + 1 := ⟨fu2 - 1, by omega⟩
          exact singleByte_step_err C fu3 i s t e hi heq
      · refine ⟨1, (.ok (), s), fun e he => by simp at he, ?_⟩
        intro fu2 hfu2
        obtain ⟨fu3, rfl⟩ : ∃ fu3, fu2 = fu3 + 1 := ⟨fu2 - 1, by omega⟩
        simp only [singleBytePass]
        rw [if_neg hi]

theorem borrow_step_true (C : Ctx) (fu i : Nat) (s t : RState)
    (hi : i < s.last_data.buffer.length)
    (h : incorporate_new_buffer C s
        (s.last_data.buffer.take i ++ s.last_data.buffer.drop (i + 1)) =
        (.ok true, t)) :
    borrowPass C (fu + 1) i s = borrowPass C fu (i + 1) t := by
  simp only [borrowPass]
  rw [if_pos hi, h]

theorem borrow_step_false_z (C : Ctx) (fu i : Nat) (s t : RState)
    (hi : i < s.last_data.buffer.length)
    (hz : s.last_data.buffer.getD i 0 = 0)
    (h : incorporate_new_buffer C s
        (s.last_data.buffer.take i ++ s.last_data.buffer.drop (i + 1)) =
        (.ok false, t)) :
    borrowPass C (fu + 1) i s =
      match borrowInner C s.last_data.buffer i i t with
      | (.ok _, s2) => borrowPass C fu (i + 1) s2
      | (.error e, s2) => (.error e, s2) := by
  simp only [borrowPass]
  rw [if_pos hi, h]
  show (if s.last_data.buffer.getD i 0 = 0 then
      match borrowInner C s.last_data.buffer i i t with
      | (.ok _, s2) => borrowPass C fu (i + 1) s2
      | (.error e, s2) => (.error e, s2)
    else borrowPass C fu (i + 1) t) = _
  rw [if_pos hz]

theorem borrow_step_false_nz (C : Ctx) (fu i : Nat) (s t : RState)
    (hi : i < s.last_data.buffer.length)
    (hz : ¬ s.last_data.buffer.getD i 0 = 0)
    (h : incorporate_new_buffer C s
        (s.last_data.buffer.take i ++ s.last_data.buffer.drop (i + 1)) =
        (.ok false, t)) :
    borrowPass C (fu + 1) i s = borrowPass C fu (i + 1) t := by
  simp only [borrowPass]
  rw [if_pos hi, h]
  show (if s.last_data.buffer.getD i 0 = 0 then
      match borrowInner C s.last_data.buffer i i t with
      | (.ok _, s2) => borrowPass C fu (i + 1) s2
      | (.error e, s2) => (.error e, s2)
    else borrowPass C fu (i + 1) t) = _
  rw [if_neg hz]

theorem borrow_step_err (C : Ctx) (fu i : Nat) (s t : RState) (e : Err)
    (hi : i < s.last_data.buffer.length)
    (h : incorporate_new_buffer C s
        (s.last_data.buffer.take i ++ s.last_data.buffer.drop (i + 1)) =
        (.error e, t)) :
    borrowPass C (fu + 1) i s = (.error e, t) := by
  simp only [borrowPass]
  rw [if_pos hi, h]

theorem borrow_conv (C : Ctx) : ∀ B, ∀ d i s,
    s.last_data.status = .interesting →
    C.st.max_shrinks - s.shrinks ≤ B →
    s.last_data.buffer.length - i ≤ d →
    ∃ fu : Nat, ∃ r : Except Err Unit × RState,
      (∀ e, r.1 = .error e → e = Err.stop ∨ e = Err.assertLen) ∧
      ∀ fu2, fu ≤ fu2 → borrowPass C fu2 i s = r := by
  intro B
  induction B with
  | zero =>
    intro d
    induction d with
    | zero =>
      intro i s hint hB hd
      refine ⟨1, (.ok (), s), fun e he => by simp at he, ?_⟩
      intro fu2 hfu2
      obtain ⟨fu3, rfl⟩ : ∃ fu3, fu2 = fu3 + 1 := ⟨fu2 - 1, by omega⟩
      simp only [borrowPass]
      rw [if_neg (by omega)]
    | succ d ihd =>
      intro i s hint hB hd
      by_cases hi : i < s.last_data.buffer.length
      · obtain ⟨x, t, heq, hcase⟩ := conv_step2 s
          (s.last_data.buffer.take i ++ s.last_data.buffer.drop (i + 1))
          hint
        rcases hcase with ⟨hx, hsem⟩ | ⟨hx, hsh, hlt2, hin⟩ |
          ⟨e, hx, hcls⟩
        · subst hx
          have hint_t : t.last_data.status = .interesting := by
            rw [hsem.1]
            exact hint
          by_cases hz : s.last_data.buffer.getD i 0 = 0
          · obtain ⟨y, w, hr2eq⟩ : ∃ y w,
                borrowInner C s.last_data.buffer i i t = (y, w) :=
              ⟨_, _, rfl⟩
            have htg2 := borrowInner_term C s.last_data.buffer i i t hint_t
            rw [hr2eq] at htg2
            rcases y with e | u
            · refine ⟨1, (.error e, w), fun e' he' => by
                have hee : e = e' := by simpa using he'
                exact hee ▸ htg2.2 e rfl, ?_⟩
              intro fu2 hfu2
              obtain ⟨fu3, rfl⟩ : ∃ fu3, fu2 = fu3 + 1 :=
                ⟨fu2 - 1, by omega⟩
              rw [borrow_step_false_z C fu3 i s t hi hz heq, hr2eq]
            · cases u
              have hw1 : t.shrinks ≤ w.shrinks := htg2.1.1
              have hw3 : w.shrinks = t.shrinks →
                  w.last_data = t.last_data := htg2.1.2.2.1
              have hw4 : (w.shrinks = t.shrinks ∨
                  w.shrinks < C.st.max_shrinks) ∧
                  w.last_data.status = .interesting := htg2.1.2.2.2 () rfl
              have hts : t.shrinks = s.shrinks := hsem.2.2.1
              by_cases hsame : w.shrinks = s.shrinks
              · have hlast : w.last_data = s.last_data := by
                  rw [hw3 (by omega), hsem.1]
                obtain ⟨fu1, r1, hgood1, hst1⟩ := ihd (i + 1) w hw4.2
                  (by omega) (by rw [hlast]; omega)
                refine ⟨fu1 + 1, r1, hgood1, ?_⟩
                intro fu2 hfu2
                obtain ⟨fu3, rfl⟩ : ∃ fu3, fu2 = fu3 + 1 :=
                  ⟨fu2 - 1, by omega⟩
                rw [borrow_step_false_z C fu3 i s t hi hz heq, hr2eq]
                exact hst1 fu3 (by omega)
              · have hltm : w.shrinks < C.st.max_shrinks := by
                  rcases hw4.1 with h | h
                  · exact absurd (h.trans hts) hsame
                  · exact h
                exact absurd hB (by omega)
          · obtain ⟨fu1, r1, hgood1, hst1⟩ := ihd (i + 1) t hint_t
              (by rw [hsem.2.2.1]; exact hB)
              (by rw [hsem.1]; omega)
            refine ⟨fu1 + 1, r1, hgood1, ?_⟩
            intro fu2 hfu2
            obtain ⟨fu3, rfl⟩ : ∃ fu3, fu2 = fu3 + 1 := ⟨fu2 - 1, by omega⟩
            rw [borrow_step_false_nz C fu3 i s t hi hz heq]
            exact hst1 fu3 (by omega)
        · exact absurd hB (by omega)
        · subst hx
          refine ⟨1, (.error e, t), fun e' he' => by
            have hee : e = e' := by simpa using he'
            exact hee ▸ hcls, ?_⟩
          intro fu2 hfu2
          obtain ⟨fu3, rfl⟩ : ∃ fu3, fu2 = fu3 + 1 := ⟨fu2 - 1, by omega⟩
          exact borrow_step_err C fu3 i s t e hi heq
      · refine ⟨1, (.ok (), s), fun e he => by simp at he, ?_⟩
        intro fu2 hfu2
        obtain ⟨fu3, rfl⟩ : ∃ fu3, fu2 = fu3 + 1 := ⟨fu2 - 1, by omega⟩
        simp only [borrowPass]
        rw [if_neg hi]
  | succ B ihB =>
    intro d
    induction d with
    | zero =>
      intro i s hint hB hd
      refine ⟨1, (.ok (), s), fun e he => by simp at he, ?_⟩
      intro fu2 hfu2
      obtain ⟨fu3, rfl⟩ : ∃ fu3, fu2 = fu3 + 1 := ⟨fu2 - 1, by omega⟩
      simp only [borrowPass]
      rw [if_neg (by omega)]
    | succ d ihd =>
      intro i s hint hB hd
      by_cases hi : i < s.last_data.buffer.length
      · obtain ⟨x, t, heq, hcase⟩ := conv_step2 s
          (s.last_data.buffer.take i ++ s.last_data.buffer.drop (i + 1))
          hint
        rcases hcase with ⟨hx, hsem⟩ | ⟨hx, hsh, hlt2, hin⟩ |
          ⟨e, hx, hcls⟩
        · subst hx
          have hint_t : t.last_data.status = .interesting := by
            rw [hsem.1]
            exact hint
          by_cases hz : s.last_data.buffer.getD i 0 = 0
          · obtain ⟨y, w, hr2eq⟩ : ∃ y w,
                borrowInner C s.last_data.buffer i i t = (y, w) :=
              ⟨_, _, rfl⟩
            have htg2 := borrowInner_term C s.last_data.buffer i i t hint_t
            rw [hr2eq] at htg2
            rcases y with e | u
            · refine ⟨1, (.error e, w), fun e' he' => by
                have hee : e = e' := by simpa using he'
                exact hee ▸ htg2.2 e rfl, ?_⟩
              intro fu2 hfu2
              obtain ⟨fu3, rfl⟩ : ∃ fu3, fu2 = fu3 + 1 :=
                ⟨fu2 - 1, by omega⟩
              rw [borrow_step_false_z C fu3 i s t hi hz heq, hr2eq]
            · cases u
              have hw1 : t.shrinks ≤ w.shrinks := htg2.1.1
              have hw3 : w.shrinks = t.shrinks →
                  w.last_data = t.last_data := htg2.1.2.2.1
              have hw4 : (w.shrinks = t.shrinks ∨
                  w.shrinks < C.st.max_shrinks) ∧
                  w.last_data.status = .interesting := htg2.1.2.2.2 () rfl
              have hts : t.shrinks = s.shrinks := hsem.2.2.1
              by_cases hsame : w.shrinks = s.shrinks
              · have hlast : w.last_data = s.last_data := by
                  rw [hw3 (by omega), hsem.1]
                obtain ⟨fu1, r1, hgood1, hst1⟩ := ihd (i + 1) w hw4.2
                  (by omega) (by rw [hlast]; omega)
                refine ⟨fu1 + 1, r1, hgood1, ?_⟩
                intro fu2 hfu2
                obtain ⟨fu3, rfl⟩ : ∃ fu3, fu2 = fu3 + 1 :=
                  ⟨fu2 - 1, by omega⟩
                rw [borrow_step_false_z C fu3 i s t hi hz heq, hr2eq]
                exact hst1 fu3 (by omega)
              · have hltm : w.shrinks < C.st.max_shrinks := by
                  rcases hw4.1 with h | h
                  · exact absurd (h.trans hts) hsame
                  · exact h
                obtain ⟨fu1, r1, hgood1, hst1⟩ := ihB
                  (w.last_data.buffer.length) (i + 1) w hw4.2 (by omega)
                  (by omega)
                refine ⟨fu1 + 1, r1, hgood1, ?_⟩
                intro fu2 hfu2
                obtain ⟨fu3, rfl⟩ : ∃ fu3, fu2 = fu3 + 1 :=
                  ⟨fu2 - 1, by omega⟩
                rw [borrow_step_false_z C fu3 i s t hi hz heq, hr2eq]
                exact hst1 fu3 (by omega)
          · obtain ⟨fu1, r1, hgood1, hst1⟩ := ihd (i + 1) t hint_t
              (by rw [hsem.2.2.1]; exact hB)
              (by rw [hsem.1]; omega)
            refine ⟨fu1 + 1, r1, hgood1, ?_⟩
            intro fu2 hfu2
            obtain ⟨fu3, rfl⟩ : ∃ fu3, fu2 = fu3 + 1 := ⟨fu2 - 1, by omega⟩
            rw [borrow_step_false_nz C fu3 i s t hi hz heq]
            exact hst1 fu3 (by omega)
        · subst hx
          obtain ⟨fu1, r1, hgood1, hst1⟩ := ihB
            (t.last_data.buffer.length) (i + 1) t hin (by omega) (by omega)
          refine ⟨fu1 + 1, r1, hgood1, ?_⟩
          intro fu2 hfu2
          obtain ⟨fu3, rfl⟩ : ∃ fu3, fu2 = fu3 + 1 := ⟨fu2 - 1, by omega⟩
          rw [borrow_step_true C fu3 i s t hi heq]
          exact hst1 fu3 (by omega)
        · subst hx
          refine ⟨1, (.error e, t), fun e' he' => by
            have hee : e = e' := by simpa using he'
            exact hee ▸ hcls, ?_⟩
          intro fu2 hfu2
          obtain ⟨fu3, rfl⟩ : ∃ fu3, fu2 = fu3 + 1 := ⟨fu2 - 1, by omega⟩
          exact borrow_step_err C fu3 i s t e hi heq
      · refine ⟨1, (.ok (), s), fun e he => by simp at he, ?_⟩
        intro fu2 hfu2
        obtain ⟨fu3, rfl⟩ : ∃ fu3, fu2 = fu3 + 1 := ⟨fu2 - 1, by omega⟩
        simp only [borrowPass]
        rw [if_neg hi]

theorem outer_conv (C : Ctx) : ∀ n (ic : Nat) (cc : Int) (s : RState),
    s.last_data.status = .interesting →
    ((ic : Int) + (C.st.max_shrinks : Int) - cc).toNat ≤ n →
    ∃ fu : Nat, ∃ r : Except Err Unit × RState,
      (∀ e, r.1 = .error e → e = Err.stop ∨ e = Err.assertLen) ∧
      ∀ fu2, fu ≤ fu2 → outerLoop C fu2 ic cc s = r := by
  intro n
  induction n with
  | zero =>
    intro ic cc s hint hn
    refine ⟨1, (.ok (), s), fun e he => by simp at he, ?_⟩
    intro fu2 hfu2
    obtain ⟨fu3, rfl⟩ : ∃ fu3, fu2 = fu3 + 1 := ⟨fu2 - 1, by omega⟩
    simp only [outerLoop]
    rw [if_neg (by omega)]
  | succ n ih =>
    intro ic cc s hint hn
    by_cases hcond : s.changed ≤ ic + C.st.max_shrinks ∧
        cc < (s.changed : Int)
    · obtain ⟨fuA, rA, hgoodA, hstA⟩ := delFix_conv C C.st.max_shrinks
        (-1) s hint (Nat.sub_le _ _)
      have htsA : TermStep C s rA := by
        have h0 := (delFix_ts C fuA (-1) s hint).1
        rwa [hstA fuA le_rfl] at h0
      rcases hrA : rA.1 with e | u
      · have hrAeq : rA = (.error e, rA.2) := by rw [← hrA]
        refine ⟨fuA + 1, (.error e, rA.2), fun e' he' => by
          have hee : e = e' := by simpa using he'
          exact hee ▸ hgoodA e hrA, ?_⟩
        intro fu2 hfu2
        obtain ⟨fu3, rfl⟩ : ∃ fu3, fu2 = fu3 + 1 := ⟨fu2 - 1, by omega⟩
        simp only [outerLoop]
        rw [if_pos hcond, if_pos hint, hstA fu3 (by omega), hrAeq,
          bindR_err]
      · cases u
        have hrAeq : rA = (.ok (), rA.2) := by rw [← hrA]
        have hintA : rA.2.last_data.status = .interesting :=
          (htsA.2.2.2 () hrA).2
        obtain ⟨fuB, rB, hgoodB, hstB⟩ := sortPass_conv C C.st.max_shrinks
          (rA.2.last_data.intervals.length) 0 rA.2 hintA (Nat.sub_le _ _)
          (by omega)
        have htsB : TermStep C rA.2 rB := by
          have h0 := (sortPass_ts C fuB 0 rA.2 hintA).1
          rwa [hstB fuB le_rfl] at h0
        rcases hrB : rB.1 with e | u
        · have hrBeq : rB = (.error e, rB.2) := by rw [← hrB]
          refine ⟨fuA + fuB + 1, (.error e, rB.2), fun e' he' => by
            have hee : e = e' := by simpa using he'
            exact hee ▸ hgoodB e hrB, ?_⟩
          intro fu2 hfu2
          obtain ⟨fu3, rfl⟩ : ∃ fu3, fu2 = fu3 + 1 := ⟨fu2 - 1, by omega⟩
          simp only [outerLoop]
          rw [if_pos hcond, if_pos hint, hstA fu3 (by omega), hrAeq,
            bindR_ok, hstB fu3 (by omega), hrBeq, bindR_err]
        · cases u
          have hrBeq : rB = (.ok (), rB.2) := by rw [← hrB]
          have hintB : rB.2.last_data.status = .interesting :=
            (htsB.2.2.2 () hrB).2
          obtain ⟨yC, wC, hC⟩ : ∃ y w, zeroWindowPass C rB.2 = (y, w) :=
            ⟨_, _, rfl⟩
          have htgC := zeroWindowPass_term C rB.2 hintB
          rw [hC] at htgC
          rcases yC with e | u
          · refine ⟨fuA + fuB + 1, (.error e, wC), fun e' he' => by
              have hee : e = e' := by simpa using he'
              exact hee ▸ htgC.2 e rfl, ?_⟩
            intro fu2 hfu2
            obtain ⟨fu3, rfl⟩ : ∃ fu3, fu2 = fu3 + 1 := ⟨fu2 - 1, by omega⟩
            simp only [outerLoop]
            rw [if_pos hcond, if_pos hint, hstA fu3 (by omega), hrAeq,
              bindR_ok, hstB fu3 (by omega), hrBeq, bindR_ok, hC, bindR_err]
          · cases u
            have hintC : wC.last_data.status = .interesting :=
              (htgC.1.2.2.2 () rfl).2
            obtain ⟨fuD, rD, hgoodD, hstD⟩ := singleByte_conv C
              C.st.max_shrinks (wC.last_data.buffer.length) 0 wC hintC
              (Nat.sub_le _ _) (by omega)
            have htsD : TermStep C wC rD := by
              have h0 := (singleBytePass_ts C fuD 0 wC hintC).1
              rwa [hstD fuD le_rfl] at h0
            rcases hrD : rD.1 with e | u
            · have hrDeq : rD = (.error e, rD.2) := by rw [← hrD]
              refine ⟨fuA + fuB + fuD + 1, (.error e, rD.2),
                fun e' he' => by
                  have hee : e = e' := by simpa using he'
                  exact hee ▸ hgoodD e hrD, ?_⟩
              intro fu2 hfu2
              obtain ⟨fu3, rfl⟩ : ∃ fu3, fu2 = fu3 + 1 :=
                ⟨fu2 - 1, by omega⟩
              simp only [outerLoop]
              rw [if_pos hcond, if_pos hint, hstA fu3 (by omega), hrAeq,
                bindR_ok, hstB fu3 (by omega), hrBeq, bindR_ok, hC,
                bindR_ok, hstD fu3 (by omega), hrDeq, bindR_err]
            · cases u
              have hrDeq : rD = (.ok (), rD.2) := by rw [← hrD]
              have hintD : rD.2.last_data.status = .interesting :=
                (htsD.2.2.2 () hrD).2
              obtain ⟨fuE, rE, hgoodE, hstE⟩ := adjSwap_conv C
                C.st.max_shrinks (rD.2.last_data.buffer.length) 0 rD.2
                hintD (Nat.sub_le _ _) (by omega)
              have htsE : TermStep C rD.2 rE := by
                have h0 := (adjSwapPass_ts C fuE 0 rD.2 hintD).1
                rwa [hstE fuE le_rfl] at h0
              rcases hrE : rE.1 with e | u
              · have hrEeq : rE = (.error e, rE.2) := by rw [← hrE]
                refine ⟨fuA + fuB + fuD + fuE + 1, (.error e, rE.2),
                  fun e' he' => by
                    have hee : e = e' := by simpa using he'
                    exact hee ▸ hgoodE e hrE, ?_⟩
                intro fu2 hfu2
                obtain ⟨fu3, rfl⟩ : ∃ fu3, fu2 = fu3 + 1 :=
                  ⟨fu2 - 1, by omega⟩
                simp only [outerLoop]
                rw [if_pos hcond, if_pos hint, hstA fu3 (by omega), hrAeq,
                  bindR_ok, hstB fu3 (by omega), hrBeq, bindR_ok, hC,
                  bindR_ok, hstD fu3 (by omega), hrDeq, bindR_ok,
                  hstE fu3 (by omega), hrEeq, bindR_err]
              · cases u
                have hrEeq : rE = (.ok (), rE.2) := by rw [← hrE]
                have hintE : rE.2.last_data.status = .interesting :=
                  (htsE.2.2.2 () hrE).2
                by_cases h5 : s.changed < rE.2.changed
                · obtain ⟨fuR, rR, hgoodR, hstR⟩ := ih ic
                    (s.changed : Int) rE.2 hintE (by omega)
                  refine ⟨fuA + fuB + fuD + fuE + fuR + 1, rR, hgoodR, ?_⟩
                  intro fu2 hfu2
                  obtain ⟨fu3, rfl⟩ : ∃ fu3, fu2 = fu3 + 1 :=
                    ⟨fu2 - 1, by omega⟩
                  simp only [outerLoop]
                  rw [if_pos hcond, if_pos hint, hstA fu3 (by omega),
                    hrAeq, bindR_ok, hstB fu3 (by omega), hrBeq, bindR_ok,
                    hC, bindR_ok, hstD fu3 (by omega), hrDeq, bindR_ok,
                    hstE fu3 (by omega), hrEeq, bindR_ok, if_pos h5]
                  exact hstR fu3 (by omega)
                · obtain ⟨fuF, rF, hgoodF, hstF⟩ := borrow_conv C
                    C.st.max_shrinks (rE.2.last_data.buffer.length) 0 rE.2
                    hintE (Nat.sub_le _ _) (by omega)
                  have htsF : TermStep C rE.2 rF := by
                    have h0 := (borrowPass_ts C fuF 0 rE.2 hintE).1
                    rwa [hstF fuF le_rfl] at h0
                  rcases hrF : rF.1 with e | u
                  · have hrFeq : rF = (.error e, rF.2) := by rw [← hrF]
                    refine ⟨fuA + fuB + fuD + fuE + fuF + 1,
                      (.error e, rF.2), fun e' he' => by
                        have hee : e = e' := by simpa using he'
                        exact hee ▸ hgoodF e hrF, ?_⟩
                    intro fu2 hfu2
                    obtain ⟨fu3, rfl⟩ : ∃ fu3, fu2 = fu3 + 1 :=
                      ⟨fu2 - 1, by omega⟩
                    simp only [outerLoop]
                    rw [if_pos hcond, if_pos hint, hstA fu3 (by omega),
                      hrAeq, bindR_ok, hstB fu3 (by omega), hrBeq,
                      bindR_ok, hC, bindR_ok, hstD fu3 (by omega), hrDeq,
                      bindR_ok, hstE fu3 (by omega), hrEeq, bindR_ok,
                      if_neg h5, hstF fu3 (by omega), hrFeq, bindR_err]
                  · cases u
                    have hrFeq : rF = (.ok (), rF.2) := by rw [← hrF]
                    have hintF : rF.2.last_data.status = .interesting :=
                      (htsF.2.2.2 () hrF).2
                    by_cases h6 : s.changed < rF.2.changed
                    · obtain ⟨fuR, rR, hgoodR, hstR⟩ := ih ic
                        (s.changed : Int) rF.2 hintF (by omega)
                      refine ⟨fuA + fuB + fuD + fuE + fuF + fuR + 1, rR,
                        hgoodR, ?_⟩
                      intro fu2 hfu2
                      obtain ⟨fu3, rfl⟩ : ∃ fu3, fu2 = fu3 + 1 :=
                        ⟨fu2 - 1, by omega⟩
                      simp only [outerLoop]
                      rw [if_pos hcond, if_pos hint, hstA fu3 (by omega),
                        hrAeq, bindR_ok, hstB fu3 (by omega), hrBeq,
                        bindR_ok, hC, bindR_ok, hstD fu3 (by omega),
                        hrDeq, bindR_ok, hstE fu3 (by omega), hrEeq,
                        bindR_ok, if_neg h5, hstF fu3 (by omega), hrFeq,
                        bindR_ok, if_pos h6]
                      exact hstR fu3 (by omega)
                    · obtain ⟨yG, wG, hG⟩ : ∃ y w,
                          equalPairsPass C rF.2 = (y, w) := ⟨_, _, rfl⟩
                      have htgG := equalPairsPass_term C rF.2 hintF
                      rw [hG] at htgG
                      rcases yG with e | u
                      · refine ⟨fuA + fuB + fuD + fuE + fuF + 1,
                          (.error e, wG), fun e' he' => by
                            have hee : e = e' := by simpa using he'
                            exact hee ▸ htgG.2 e rfl, ?_⟩
                        intro fu2 hfu2
                        obtain ⟨fu3, rfl⟩ : ∃ fu3, fu2 = fu3 + 1 :=
                          ⟨fu2 - 1, by omega⟩
                        simp only [outerLoop]
                        rw [if_pos hcond, if_pos hint,
                          hstA fu3 (by omega), hrAeq, bindR_ok,
                          hstB fu3 (by omega), hrBeq, bindR_ok, hC,
                          bindR_ok, hstD fu3 (by omega), hrDeq, bindR_ok,
                          hstE fu3 (by omega), hrEeq, bindR_ok, if_neg h5,
                          hstF fu3 (by omega), hrFeq, bindR_ok, if_neg h6,
                          hG, bindR_err]
                      · cases u
                        have hintG : wG.last_data.status = .interesting :=
                          (htgG.1.2.2.2 () rfl).2
                        by_cases h7 : s.changed < wG.changed
                        · obtain ⟨fuR, rR, hgoodR, hstR⟩ := ih ic
                            (s.changed : Int) wG hintG (by omega)
                          refine ⟨fuA + fuB + fuD + fuE + fuF + fuR + 1,
                            rR, hgoodR, ?_⟩
                          intro fu2 hfu2
                          obtain ⟨fu3, rfl⟩ : ∃ fu3, fu2 = fu3 + 1 :=
                            ⟨fu2 - 1, by omega⟩
                          simp only [outerLoop]
                          rw [if_pos hcond, if_pos hint,
                            hstA fu3 (by omega), hrAeq, bindR_ok,
                            hstB fu3 (by omega), hrBeq, bindR_ok, hC,
                            bindR_ok, hstD fu3 (by omega), hrDeq,
                            bindR_ok, hstE fu3 (by omega), hrEeq,
                            bindR_ok, if_neg h5, hstF fu3 (by omega),
                            hrFeq, bindR_ok, if_neg h6, hG, bindR_ok,
                            if_pos h7]
                          exact hstR fu3 (by omega)
                        · obtain ⟨yH, wH, hH⟩ : ∃ y w,
                              orderDecPass C wG = (y, w) := ⟨_, _, rfl⟩
                          have htgH := orderDecPass_term C wG hintG
                          rw [hH] at htgH
                          rcases yH with e | u
                          · refine ⟨fuA + fuB + fuD + fuE + fuF + 1,
                              (.error e, wH), fun e' he' => by
                                have hee : e = e' := by simpa using he'
                                exact hee ▸ htgH.2 e rfl, ?_⟩
                            intro fu2 hfu2
                            obtain ⟨fu3, rfl⟩ : ∃ fu3, fu2 = fu3 + 1 :=
                              ⟨fu2 - 1, by omega⟩
                            simp only [outerLoop]
                            rw [if_pos hcond, if_pos hint,
                              hstA fu3 (by omega), hrAeq, bindR_ok,
                              hstB fu3 (by omega), hrBeq, bindR_ok, hC,
                              bindR_ok, hstD fu3 (by omega), hrDeq,
                              bindR_ok, hstE fu3 (by omega), hrEeq,
                              bindR_ok, if_neg h5, hstF fu3 (by omega),
                              hrFeq, bindR_ok, if_neg h6, hG, bindR_ok,
                              if_neg h7, hH, bindR_err]
                          · cases u
                            have hintH :
                                wH.last_data.status = .interesting :=
                              (htgH.1.2.2.2 () rfl).2
                            obtain ⟨fuR, rR, hgoodR, hstR⟩ := ih ic
                              (s.changed : Int) wH hintH (by omega)
                            refine ⟨fuA + fuB + fuD + fuE + fuF + fuR + 1,
                              rR, hgoodR, ?_⟩
                            intro fu2 hfu2
                            obtain ⟨fu3, rfl⟩ : ∃ fu3, fu2 = fu3 + 1 :=
                              ⟨fu2 - 1, by omega⟩
                            simp only [outerLoop]
                            rw [if_pos hcond, if_pos hint,
                              hstA fu3 (by omega), hrAeq, bindR_ok,
                              hstB fu3 (by omega), hrBeq, bindR_ok, hC,
                              bindR_ok, hstD fu3 (by omega), hrDeq,
                              bindR_ok, hstE fu3 (by omega), hrEeq,
                              bindR_ok, if_neg h5, hstF fu3 (by omega),
                              hrFeq, bindR_ok, if_neg h6, hG, bindR_ok,
                              if_neg h7, hH, bindR_ok]
                            exact hstR fu3 (by omega)
    · refine ⟨1, (.ok (), s), fun e he => by simp at he, ?_⟩
      intro fu2 hfu2
      obtain ⟨fu3, rfl⟩ : ∃ fu3, fu2 = fu3 + 1 := ⟨fu2 - 1, by omega⟩
      simp only [outerLoop]
      rw [if_neg hcond]

/-- C6. In the shallow embedding every test callback is a total function,
and on any such callback the shrink phase terminates: with enough fuel the
outer sweep loop no longer consumes it and its result is fuel-independent,
and under the spec's interval invariant the outcome is either a normal
return (the while header fails or a full sweep completes without bumping
changed) or the StopShrinking signal raised when the accepted transitions
reach max_shrinks. The proof is by well-founded descent on the shrink
budget: every accepted replacement of an INTERESTING last_data strictly
decreases the remaining budget, and the interest key hypotheses of the
acceptor make every accepted candidate INTERESTING again. -/
theorem c6_shrink_terminates (C : Ctx) (hwf : wfCtx C) (ic : Nat)
    (cc : Int) (s : RState)
    (hiv : ∀ p ∈ s.last_data.intervals, p.1 ≤ p.2)
    (hint : s.last_data.status = .interesting) :
    ∃ fuel r s2, outerLoop C fuel ic cc s = (r, s2) ∧
      (r = .ok () ∨ r = .error .stop) ∧
      ∀ fuel2, fuel ≤ fuel2 → outerLoop C fuel2 ic cc s = (r, s2) := by
  obtain ⟨fu, rp, hgood, hst⟩ := outer_conv C
    (((ic : Int) + (C.st.max_shrinks : Int) - cc).toNat) ic cc s hint
    le_rfl
  refine ⟨fu, rp.1, rp.2, hst fu le_rfl, ?_,
    fun fuel2 h2 => hst fuel2 h2⟩
  rcases hr : rp.1 with e | u
  · rcases hgood e hr with h | h
    · exact Or.inr (by rw [h])
    · exfalso
      obtain ⟨_, herr⟩ := outerLoop_inv (c4_pack C hwf) (c4_spack C) fu
        ic cc s hiv
      exact herr .assertLen (by rw [hst fu le_rfl, hr, h]) rfl
  · cases u
    exact Or.inl rfl

/-- Witness for C6 at the always-interesting callback with a zero budget
and the nine-byte interesting state. -/
theorem c6_witness :
    wfCtx C3x ∧ s9.last_data.status = .interesting ∧
    (∃ fuel r s2, outerLoop C3x fuel 0 (-1) s9 = (r, s2) ∧
      (r = .ok () ∨ r = .error .stop) ∧
      ∀ fuel2, fuel ≤ fuel2 → outerLoop C3x fuel2 0 (-1) s9 = (r, s2)) :=
  ⟨fun b p hp => absurd hp (by simp [C3x, fTrue]),
   rfl,
   c6_shrink_terminates C3x (fun b p hp => absurd hp (by simp [C3x, fTrue]))
     0 (-1) s9 (fun p hp => absurd hp (by simp [s9])) rfl⟩

end Theorems

end Conjecture
